import Mathlib

/-!
# crypto_recommendation: `src/lib/crypto_rec.hpp`

A shallow embedding of the recommendation helpers of `crypto_rec.hpp` and the
properties proved about them.

Conventions of the embedding.

* `double` / `dim_type` values are exact rationals (`ℚ`).
* `std::vector<T>` is `List T`.  An unchecked `operator[]` outside the bounds of
  its vector is undefined behaviour in C++ and `at()` throws; both are the value
  `none` of the `Option` the embedded function returns.  The same `none` is used
  for a recursion that has used up its fuel.
* Sizes and catalog indexes are `Nat`; `low`, `high`, `i`, `j` of the sorting
  routines are `Int`, because they take the value `-1` in the source.
* `std::unordered_map` is an association list.  The order in which the source
  iterates over a map is unspecified: the list of tweets handed to the model is
  the map in iteration order, whichever it is.
* `rand()` is an explicit argument: the non-negative value drawn in `hide_one_score`,
  and in `split_to_10` the function that gives the value of the `k`-th call.
-/

namespace CryptoRec

/-! ## Data model -/

/-- The fields of `CustVector<dim_type>` that `crypto_rec.hpp` reads and writes through
`getId`, `getDimensions`, `getUnknownIndexes` / `getUnknownIndexesSet`, `getKnownMean`
and `getCluster`.  The unknown indexes are kept as the ordered contents of the
`std::set<int>` they are built from. -/
structure CustVector where
  id : String
  dimensions : List ℚ
  unknownIndexes : List Nat
  knownMean : ℚ
  cluster : Int
deriving DecidableEq, Inhabited

/-- The accessors of `Tweet` used by the vector builders: `getUserId`,
`getCryptoIndexes`, `getSentimentScore`. -/
structure Tweet where
  userId : String
  cryptoIndexes : List Nat
  sentimentScore : ℚ
deriving DecidableEq, Inhabited

/-- Data-model invariant of a vector over a catalog of `n` items. -/
def WellFormed (n : Nat) (v : CustVector) : Prop :=
  v.dimensions.length = n ∧ ∀ i ∈ v.unknownIndexes, i < n

/-- Unchecked write `v[i] = a`. -/
def writeAt {α : Type} (v : List α) (i : Nat) (a : α) : Option (List α) :=
  if i < v.length then some (v.set i a) else none

/-! ## `get_predicted_user_sim` (lines 280-306) -/

/-- One iteration of the neighbour loop, lines 289-297: `acc` is
`(main_sum, abs_sum)`. -/
def neighborStep (neighbors : List CustVector) (similarities : List ℚ) (index : Nat)
    (acc : ℚ × ℚ) (i : Nat) : Option (ℚ × ℚ) := do
  let cosine_sim ← similarities[i]?
  let abs_sum := acc.2 + |cosine_sim|
  let nb ← neighbors[i]?
  let neigh_score ← nb.dimensions[index]?
  let neigh_mean := nb.knownMean
  pure (acc.1 + cosine_sim * (neigh_score - neigh_mean), abs_sum)

/-- Lines 286-300: the predicted score of one unknown index.  The source divides
without testing `abs_sum`; the quotient by a zero `abs_sum` is whatever `/` gives. -/
def predictIndex (neighbors : List CustVector) (user : CustVector) (similarities : List ℚ)
    (index : Nat) : Option ℚ := do
  let sums ← (List.range neighbors.length).foldlM (neighborStep neighbors similarities index) (0, 0)
  let predicted_score := sums.1 / sums.2
  pure (predicted_score + user.knownMean)

/-- One iteration of the loop over the unknown indexes, lines 285-303. -/
def predictStep (neighbors : List CustVector) (user : CustVector) (similarities : List ℚ)
    (predicted_scores : List ℚ) (index : Nat) : Option (List ℚ) := do
  let predicted_score ← predictIndex neighbors user similarities index
  writeAt predicted_scores index predicted_score

/-- The function `get_predicted_user_sim`: a copy of the user's dimensions in which every
unknown index is overwritten by its predicted score. -/
def get_predicted_user_sim (neighbors : List CustVector) (user : CustVector)
    (similarities : List ℚ) : Option (List ℚ) :=
  user.unknownIndexes.foldlM (predictStep neighbors user similarities) user.dimensions

/-- The sum `Σ_k similarities[k] * (neighbors[k].dimensions[i] - neighbors[k].knownMean)`. -/
def mainSum (neighbors : List CustVector) (similarities : List ℚ) (i : Nat) : ℚ :=
  ∑ k in Finset.range neighbors.length,
    similarities.getD k 0 *
      ((neighbors.getD k default).dimensions.getD i 0 - (neighbors.getD k default).knownMean)

/-- The sum `Σ_k |similarities[k]|` over the neighbours. -/
def normSum (neighbors : List CustVector) (similarities : List ℚ) : ℚ :=
  ∑ k in Finset.range neighbors.length, |similarities.getD k 0|

/-- The scenario of the specification: similarities `[0.8, 0.2]`, neighbour values
`[10, 4]` at the unknown index, neighbour means `[5, 2]`. -/
def scenarioNeighbors : List CustVector :=
  [⟨"n1", [10], [], 5, 0⟩, ⟨"n2", [4], [], 2, 0⟩]

/-- A target with one unknown index and known mean `m`. -/
def scenarioUser (m : ℚ) : CustVector := ⟨"u", [m], [0], m, 0⟩

/-! ## `parralel_partition`, `parallel_quickSort` (lines 234-277) -/

/-- The parallel swap of positions `i` and `j` of both arrays, lines 245-251 and
255-261: `temp = v[i]; v[i] = v[j]; v[j] = temp` on `sim` and on `neighbors`. -/
def parallelSwap {β : Type} (sim : List ℚ) (neighbors : List β) (i j : Int) :
    Option (List ℚ × List β) :=
  if 0 ≤ i ∧ 0 ≤ j then
    match sim[i.toNat]?, sim[j.toNat]?, neighbors[i.toNat]?, neighbors[j.toNat]? with
    | some si, some sj, some ni, some nj =>
      some ((sim.set i.toNat sj).set j.toNat si, (neighbors.set i.toNat nj).set j.toNat ni)
    | _, _, _, _ => none
  else none

/-- The loop `for (j = low; j <= high - 1; j++)` of `parralel_partition`, lines 239-253,
with `steps` iterations left to run; the state is the two arrays and `i`. -/
def partitionLoop {β : Type} (pivot : ℚ) :
    Nat → List ℚ → List β → Int → Int → Option (List ℚ × List β × Int)
  | 0, sim, neighbors, i, _ => some (sim, neighbors, i)
  | steps + 1, sim, neighbors, i, j =>
    if 0 ≤ j then
      match sim[j.toNat]? with
      | none => none
      | some sj =>
        if sj ≥ pivot then
          match parallelSwap sim neighbors (i + 1) j with
          | none => none
          | some (sim1, neigh1) => partitionLoop pivot steps sim1 neigh1 (i + 1) (j + 1)
        else partitionLoop pivot steps sim neighbors i (j + 1)
    else none

/-- The function `parralel_partition`: pivot `sim[high]`, `i = low - 1`, the loop over
`j = low .. high - 1`, the final swap of `i + 1` and `high`; returns the arrays and
`i + 1`. -/
def parralel_partition {β : Type} (sim : List ℚ) (neighbors : List β) (low high : Int) :
    Option (List ℚ × List β × Int) :=
  if 0 ≤ high then
    match sim[high.toNat]? with
    | none => none
    | some pivot =>
      match partitionLoop pivot (high - low).toNat sim neighbors (low - 1) low with
      | none => none
      | some (sim1, neigh1, i) =>
        match parallelSwap sim1 neigh1 (i + 1) high with
        | none => none
        | some (sim2, neigh2) => some (sim2, neigh2, i + 1)
  else none

/-- The function `parallel_quickSort`, with the depth of the recursion bounded by `fuel`
(`none` when the fuel is used up before the recursion ends). -/
def parallel_quickSort {β : Type} :
    Nat → List ℚ → List β → Int → Int → Option (List ℚ × List β)
  | 0, sim, neighbors, low, high => if low < high then none else some (sim, neighbors)
  | fuel + 1, sim, neighbors, low, high =>
    if low < high then
      match parralel_partition sim neighbors low high with
      | none => none
      | some (sim1, neigh1, pi) =>
        match parallel_quickSort fuel sim1 neigh1 low (pi - 1) with
        | none => none
        | some (sim2, neigh2) => parallel_quickSort fuel sim2 neigh2 (pi + 1) high
    else some (sim, neighbors)

/-! ## `get_P_closest` (lines 213-231) -/

/-- The function `get_P_closest`.  `cosineSimilarity nb user` stands for
`nb->cosineSimilarity(&user)` of `cust_vector.hpp`; the neighbour handles are the
vectors they point to; `P` is a non-negative limit.  The result is the returned
similarity vector and the `neighbors` vector as the call leaves it.  The sort is called
with `high = size - 1`, which is `-1` for an empty vector, and with the size as fuel. -/
def get_P_closest (cosineSimilarity : CustVector → CustVector → ℚ)
    (neighbors : List CustVector) (user : CustVector) (P : Nat) :
    Option (List ℚ × List CustVector) :=
  let similarities := neighbors.map (fun nb => cosineSimilarity nb user)
  match parallel_quickSort similarities.length similarities neighbors 0
      ((similarities.length : Int) - 1) with
  | none => none
  | some (sims, neigh) =>
    if neigh.length > P then some (sims.take P, neigh.take P) else some (sims, neigh)

/-- The key (similarity) stored at position `k` of a list of pairs, `0` outside it. -/
def keyAt {β : Type} (z : List (ℚ × β)) (k : Nat) : ℚ :=
  match z[k]? with
  | some p => p.1
  | none => 0

/-! ## `tweets_to_user_vectors`, `clusters_to_user_vectors` (lines 78-210) -/

/-- Modelled from the spec: the four-argument constructor
`CustVector(id, dimensions, unknown_indexes, mean)` of `cust_vector.hpp`, which is not
part of the sources at hand; it stores the id, the dimensions, the unknown indexes and
the known mean.  The cluster assignment of a new vector is not described; the model
takes `0`, and no property below depends on it. -/
def CustVector.new (id : String) (dims : List ℚ) (unknown_indexes : List Nat) (mean : ℚ) :
    CustVector :=
  ⟨id, dims, unknown_indexes, mean, 0⟩

/-- The pair of per-subject buffers: the entry of `user_map` (accumulated scores) and the
entry of `known_index_map` (0/1 flags).  The source emplaces both under the same key
together (lines 89-95), so one association list holds the pair. -/
abbrev Buffers := List ℚ × List Nat

/-- The body of the loop over a tweet's indexes, lines 97-102 (and 166-171), on the
buffers of the subject: `if (score > 0) scores[index] += score; known[index] = 1`. -/
def accumulate (score : ℚ) (buf : Buffers) (index : Nat) : Option Buffers := do
  let scores ← if score > 0 then (do
      let old ← buf.1[index]?
      writeAt buf.1 index (old + score))
    else some buf.1
  let known ← writeAt buf.2 index 1
  pure (scores, known)

/-- The update `m[key] = f (m[key])` of an entry that is present. -/
def mapUpdate (m : List (String × Buffers)) (key : String) (f : Buffers → Option Buffers) :
    Option (List (String × Buffers)) :=
  match m with
  | [] => none
  | (k, b) :: rest =>
    if k = key then (f b).map (fun b1 => (k, b1) :: rest)
    else (mapUpdate rest key f).map (fun rest1 => (k, b) :: rest1)

/-- Lines 98-101 for one index of a tweet of `user_id`: the buffers `user_map[user_id]`
and `known_index_map[user_id]` are updated at `index`. -/
def touchIndex (user_id : String) (score : ℚ) (m : List (String × Buffers)) (index : Nat) :
    Option (List (String × Buffers)) :=
  mapUpdate m user_id (fun buf => accumulate score buf index)

/-- Lines 85-102: one tweet.  A subject seen for the first time gets two zero-filled
buffers of size `crypto_num`; then every index of the tweet is accumulated. -/
def addTweet (crypto_num : Nat) (m : List (String × Buffers)) (tweet : Tweet) :
    Option (List (String × Buffers)) :=
  let user_id := tweet.userId
  let score := tweet.sentimentScore
  let m1 := if m.all (fun e => e.1 != user_id) then
      m ++ [(user_id, (List.replicate crypto_num 0, List.replicate crypto_num 0))]
    else m
  tweet.cryptoIndexes.foldlM (touchIndex user_id score) m1

/-- The state of the scan of lines 109-124 (and 179-194). -/
structure Scan where
  sum : ℚ
  known_number : Nat
  unknown_indexes : List Nat
  useless : Bool
deriving DecidableEq

/-- One iteration of the scan, lines 113-124.  The `std::set` of unknown indexes receives
the indexes in increasing order, so `emplace` appends. -/
def scanStep (scores : List ℚ) (known : List Nat) (st : Scan) (i : Nat) : Option Scan := do
  let flag ← known[i]?
  let x ← scores[i]?
  let st1 : Scan := if flag = 0 then { st with unknown_indexes := st.unknown_indexes ++ [i] }
    else { st with sum := st.sum + x, known_number := st.known_number + 1 }
  pure (if x ≠ 0 then { st1 with useless := false } else st1)

/-- Lines 109-136 (and 179-206): the vector of one subject, or nothing when every
accumulated score is zero. -/
def buildVector (id : String) (buf : Buffers) : Option (Option CustVector) := do
  let st ← (List.range buf.1.length).foldlM (scanStep buf.1 buf.2) ⟨0, 0, [], true⟩
  if !st.useless then
    let mean := st.sum / (st.known_number : ℚ)
    let dims ← st.unknown_indexes.foldlM (fun d index => writeAt d index mean) buf.1
    pure (some (CustVector.new id dims st.unknown_indexes mean))
  else pure none

/-- One iteration of the loop of lines 107-137: the vector of the subject, when it is
kept, is appended to `user_vectors`. -/
def collectVector (user_vectors : List CustVector) (e : String × Buffers) :
    Option (List CustVector) := do
  let r ← buildVector e.1 e.2
  pure (match r with
    | some v => user_vectors ++ [v]
    | none => user_vectors)

/-- The loop of lines 107-137: one vector per kept subject. -/
def buildVectors (m : List (String × Buffers)) : Option (List CustVector) :=
  m.foldlM collectVector []

/-- The function `tweets_to_user_vectors`; `tweets` is the tweet map as the list of its
`(tweet id, tweet)` entries in iteration order. -/
def tweets_to_user_vectors (tweets : List (String × Tweet)) (crypto_num : Nat) :
    Option (List CustVector) := do
  let m ← tweets.foldlM (fun m t => addTweet crypto_num m t.2) []
  buildVectors m

/-- The closed form of the scan of lines 109-124 over the first `m` indexes. -/
def scanResult (scores : List ℚ) (known : List Nat) (m : Nat) : Scan :=
  { sum := (((List.range m).filter (fun i => known.getD i 0 ≠ 0)).map
      (fun i => scores.getD i 0)).sum
    known_number := ((List.range m).filter (fun i => known.getD i 0 ≠ 0)).length
    unknown_indexes := (List.range m).filter (fun i => known.getD i 0 = 0)
    useless := (List.range m).all (fun i => decide (scores.getD i 0 = 0)) }

/-- The buffers stored under `key`, if any. -/
def findBuf (m : List (String × Buffers)) (key : String) : Option Buffers :=
  match m with
  | [] => none
  | (k, b) :: rest => if k = key then some b else findBuf rest key

/-- Some signal of the collection belongs to subject `s`. -/
def hasSubject (tweets : List (String × Tweet)) (s : String) : Prop :=
  ∃ t ∈ tweets, t.2.userId = s

/-- Some signal of subject `s` touches catalog index `i`. -/
def touches (tweets : List (String × Tweet)) (s : String) (i : Nat) : Prop :=
  ∃ t ∈ tweets, t.2.userId = s ∧ i ∈ t.2.cryptoIndexes

instance (tweets : List (String × Tweet)) (s : String) : Decidable (hasSubject tweets s) := by
  unfold hasSubject; infer_instance

instance (tweets : List (String × Tweet)) (s : String) (i : Nat) :
    Decidable (touches tweets s i) := by
  unfold touches; infer_instance

/-- The sum of the positive sentiment scores of subject `s` at index `i`, one term for
every occurrence of `i` in the index list of a signal. -/
def scoreSum (tweets : List (String × Tweet)) (s : String) (i : Nat) : ℚ :=
  (tweets.map (fun t =>
    if t.2.userId = s ∧ t.2.sentimentScore > 0 then
      (t.2.cryptoIndexes.count i : ℚ) * t.2.sentimentScore
    else 0)).sum

/-- The sum of the positive sentiment scores over the signals of subject `s` that touch
index `i`, one term for every such signal. -/
def signalSum (tweets : List (String × Tweet)) (s : String) (i : Nat) : ℚ :=
  (tweets.map (fun t =>
    if t.2.userId = s ∧ i ∈ t.2.cryptoIndexes ∧ t.2.sentimentScore > 0 then
      t.2.sentimentScore
    else 0)).sum

/-- The buffers of subject `s` once every signal of `tweets` is accumulated. -/
def expectedBuf (n : Nat) (tweets : List (String × Tweet)) (s : String) : Buffers :=
  ((List.range n).map (scoreSum tweets s),
   (List.range n).map (fun i => if touches tweets s i then 1 else 0))

/-- The state of the subject map once the signals `tweets` are accumulated: distinct
keys, and under every subject with a signal the accumulated buffers. -/
def MapInv (n : Nat) (tweets : List (String × Tweet)) (m : List (String × Buffers)) : Prop :=
  (m.map Prod.fst).Nodup ∧
    ∀ u, findBuf m u = if hasSubject tweets u then some (expectedBuf n tweets u) else none

/-- Every catalog index of every signal lies in `[0, n)`. -/
def IndexesInRange (n : Nat) (tweets : List (String × Tweet)) : Prop :=
  ∀ t ∈ tweets, ∀ i ∈ t.2.cryptoIndexes, i < n

/-- The known indexes of a vector: the indexes of its dimensions that are not in its
unknown set, in increasing order (the list `known_indexes` of lines 399-403). -/
def knownIndexes (v : CustVector) : List Nat :=
  (List.range v.dimensions.length).filter (fun i => i ∉ v.unknownIndexes)

/-- The scenario of the specification, catalog size 3: two signals of "alice". -/
def aliceTweets : List (String × Tweet) :=
  [("t1", ⟨"alice", [0], 1/2⟩), ("t2", ⟨"alice", [1], -1/5⟩)]

/-- One signal that lists catalog index `0` twice. -/
def dupTweets : List (String × Tweet) := [("t1", ⟨"bob", [0, 0], 1/2⟩)]

/-- The lookup `tweets.count(id) > 0` / `tweets.at(id)` of lines 159-161. -/
def tweetAt (tweets : List (String × Tweet)) (id : String) : Option Tweet :=
  match tweets with
  | [] => none
  | (k, t) :: rest => if k = id then some t else tweetAt rest id

/-- The update `bufs[cluster] = f (bufs[cluster])` of the per-cluster buffers
(`inter_vectors[vec.getCluster()]` and `known_indexes[vec.getCluster()]`). -/
def clusterUpdate (bufs : List Buffers) (cluster : Int) (f : Buffers → Option Buffers) :
    Option (List Buffers) :=
  if 0 ≤ cluster then
    match bufs[cluster.toNat]? with
    | none => none
    | some b => (f b).map (fun b1 => bufs.set cluster.toNat b1)
  else none

/-- Lines 167-170 for one index of the tweet of a vector assigned to `cluster`. -/
def touchCluster (cluster : Int) (score : ℚ) (bufs : List Buffers) (index : Nat) :
    Option (List Buffers) :=
  clusterUpdate bufs cluster (fun buf => accumulate score buf index)

/-- Lines 158-173 for one input vector: when the tweet map has a tweet under the id of
the vector, its indexes are accumulated into the buffers of the vector's cluster. -/
def addVector (tweets : List (String × Tweet)) (bufs : List Buffers) (vec : CustVector) :
    Option (List Buffers) :=
  match tweetAt tweets vec.id with
  | none => some bufs
  | some currTweet =>
    currTweet.cryptoIndexes.foldlM (touchCluster vec.cluster currTweet.sentimentScore) bufs

/-- One iteration of the loop of lines 177-207: the vector of cluster `user_index`, named
by the decimal string of the index, is appended when it is kept. -/
def collectCluster (bufs : List Buffers) (user_vectors : List CustVector) (user_index : Nat) :
    Option (List CustVector) := do
  let buf ← bufs[user_index]?
  let r ← buildVector (toString user_index) buf
  pure (match r with
    | some v => user_vectors ++ [v]
    | none => user_vectors)

/-- The function `clusters_to_user_vectors`: `user_num` pairs of zero-filled buffers of
size `crypto_num`, the accumulation over the input vectors, one vector per kept
cluster. -/
def clusters_to_user_vectors (tweets : List (String × Tweet)) (vectors : List CustVector)
    (crypto_num user_num : Nat) : Option (List CustVector) := do
  let init : List Buffers :=
    List.replicate user_num (List.replicate crypto_num 0, List.replicate crypto_num 0)
  let bufs ← vectors.foldlM (addVector tweets) init
  (List.range bufs.length).foldlM (collectCluster bufs) []

/-- Every pair of buffers has size `n`. -/
def AllLen (n : Nat) (bufs : List Buffers) : Prop :=
  ∀ b ∈ bufs, b.1.length = n ∧ b.2.length = n

/-- Every input vector is assigned to a cluster in `[0, user_num)`. -/
def ClustersInRange (user_num : Nat) (vectors : List CustVector) : Prop :=
  ∀ vec ∈ vectors, 0 ≤ vec.cluster ∧ vec.cluster < (user_num : Int)

/-- The vectors of the two builders are well formed: `n` dimensions, unknown indexes
inside `[0, n)`, and the known mean stored at every unknown index. -/
def Imputed (n : Nat) (v : CustVector) : Prop :=
  WellFormed n v ∧ ∀ i ∈ v.unknownIndexes, v.dimensions[i]? = some v.knownMean

/-- Input vectors of the cluster mode: tweet `t1` in cluster 1, tweet `t2` in cluster 0. -/
def aliceVectors : List CustVector :=
  [⟨"t1", [], [], 0, 1⟩, ⟨"t2", [], [], 0, 0⟩]

/-! ## `hide_one_score` (lines 393-449) -/

/-- One iteration of the loop of lines 422-430 over the dimensions `dims`; the state is
`(new_mean, known_num, useless)`. -/
def remeanStep (dims : List ℚ) (hide_index : Nat) (st : ℚ × Nat × Bool) (i : Nat) :
    Option (ℚ × Nat × Bool) :=
  if i ≠ hide_index then do
    let x ← dims[i]?
    pure (st.1 + x, st.2.1 + 1, if x ≠ 0 then false else st.2.2)
  else some st

/-- The function `hide_one_score`.  `old_score` is the value `*old_score` holds before
the call and `rand` the value `rand()` returns.  The result is the returned flag, the
vector as the call leaves it, and `*old_score` after the call. -/
def hide_one_score (inVector : CustVector) (old_score : ℚ) (rand : Nat) :
    Option (Bool × CustVector × ℚ) :=
  let in_dimensions := inVector.dimensions
  -- lines 399-403: all known indexes
  let known_indexes := knownIndexes inVector
  if known_indexes.length < 2 then some (false, inVector, old_score)
  else do
    -- lines 410-412
    let hide_index := rand % known_indexes.length
    let old_score1 ← in_dimensions[hide_index]?
    -- lines 415-416, in place
    let dims1 ← inVector.unknownIndexes.foldlM (fun d i => writeAt d i 0) in_dimensions
    -- lines 419-430
    let st ← (List.range dims1.length).foldlM (remeanStep dims1 hide_index) (0, 0, true)
    if st.2.2 then some (false, { inVector with dimensions := dims1 }, old_score1)
    else
      -- lines 436-446
      let new_mean := st.1 / (st.2.1 : ℚ)
      let dims2 ← writeAt dims1 hide_index new_mean
      some (true, { inVector with dimensions := dims2, knownMean := new_mean,
                                  unknownIndexes := [hide_index] }, old_score1)

/-- The closed form of the loop of lines 422-430 over the first `m` indexes. -/
def remeanResult (dims : List ℚ) (hide_index m : Nat) : ℚ × Nat × Bool :=
  ((((List.range m).filter (fun i => i ≠ hide_index)).map (fun i => dims.getD i 0)).sum,
   ((List.range m).filter (fun i => i ≠ hide_index)).length,
   ((List.range m).filter (fun i => i ≠ hide_index)).all (fun i => decide (dims.getD i 0 = 0)))

/-- A vector whose index `0` is unknown and whose indexes `1`, `2` are known. -/
def unknownFirst : CustVector := ⟨"u", [1/4, 1/2, 0], [0], 1/4, 0⟩

/-- A vector with the known values `1/2`, `0` and the unknown index `2`. -/
def singlePositive : CustVector := ⟨"u", [1/2, 0, 1/4], [2], 1/4, 0⟩

/-- A vector with one known index. -/
def oneKnown : CustVector := ⟨"u", [1/2, 1/2, 1/2], [1, 2], 1/2, 0⟩

/-- A vector with the known values `1/2`, `1` and the unknown index `2`. -/
def twoPositive : CustVector := ⟨"u", [1/2, 1, 3/4], [2], 3/4, 0⟩

/-- The vector `twoPositive` once index `1` is hidden. -/
def twoPositiveHidden : CustVector := ⟨"u", [1/2, 1/4, 0], [1], 1/4, 0⟩

/-! ## `get_top_N_recom` (lines 309-345) -/

/-- The loop of lines 317-318 (and 338-339):
`unknown_predicted[i] = predicted_scores[unknown_indexes[i]]`. -/
def gatherPredicted (predicted_scores : List ℚ) : List Nat → Option (List ℚ)
  | [] => some []
  | index :: rest =>
    match predicted_scores[index]? with
    | none => none
    | some x => (gatherPredicted predicted_scores rest).map (fun xs => x :: xs)

/-- The call `v.resize(N)` on a `std::vector<int>`: the first `N` elements when `N` is at
most the size, and otherwise the vector followed by `N - size` value-initialised
elements, that is zeros. -/
def resizeInt (v : List Nat) (N : Nat) : List Nat :=
  v.take N ++ List.replicate (N - v.length) 0

/-- The function `get_top_N_recom` with a similarity vector (lines 309-324); `N` is a
non-negative limit.  The sort is called with `high = size - 1` and the size as fuel. -/
def get_top_N_recom (neighbors : List CustVector) (user : CustVector) (N : Nat)
    (similarities : List ℚ) : Option (List Nat) :=
  match get_predicted_user_sim neighbors user similarities with
  | none => none
  | some predicted_scores =>
    let unknown_indexes := user.unknownIndexes
    match gatherPredicted predicted_scores unknown_indexes with
    | none => none
    | some unknown_predicted =>
      match parallel_quickSort unknown_predicted.length unknown_predicted unknown_indexes 0
          ((unknown_predicted.length : Int) - 1) with
      | none => none
      | some (_, sorted_indexes) => some (resizeInt sorted_indexes N)

/-- The function `get_top_N_recom` without a similarity vector (lines 327-345): the
cosine similarity of every neighbour and the user is computed first. -/
def get_top_N_recom_cosine (cosineSimilarity : CustVector → CustVector → ℚ)
    (neighbors : List CustVector) (user : CustVector) (N : Nat) : Option (List Nat) :=
  let similarities := neighbors.map (fun nb => cosineSimilarity nb user)
  match get_predicted_user_sim neighbors user similarities with
  | none => none
  | some predicted_scores =>
    let unknown_indexes := user.unknownIndexes
    match gatherPredicted predicted_scores unknown_indexes with
    | none => none
    | some unknown_predicted =>
      match parallel_quickSort unknown_predicted.length unknown_predicted unknown_indexes 0
          ((unknown_predicted.length : Int) - 1) with
      | none => none
      | some (_, sorted_indexes) => some (resizeInt sorted_indexes N)

/-- A target with the known indexes `0`, `1` and the unknown index `2`. -/
def topUser : CustVector := ⟨"u", [1, 2, 3/2], [2], 3/2, 0⟩

/-- A target with the known index `0` and the unknown indexes `1`, `2`. -/
def topUser2 : CustVector := ⟨"u", [1, 1, 1], [1, 2], 1, 0⟩

/-- One neighbour over a catalog of size 3. -/
def topNeighbors : List CustVector := [⟨"n", [1, 1, 4], [], 2, 0⟩]

/-- One neighbour with the value `4` at index `0` and known mean `1`. -/
def singleNeighbor : CustVector := ⟨"n", [4], [], 1, 0⟩

/-! ## `split_to_10`, `merge_except_for` (lines 348-390) -/

/-- The inner loop of `split_to_10`, lines 357-362, with `left` iterations left before
`curr_size` reaches `each_vector_size`.  The state is the pool `input_vectors`, the
number of calls of `rand()` made so far and `curr_split`; `rand k` is the value of the
`k`-th call. -/
def fillFold {α : Type} (rand : Nat → Nat) :
    Nat → List α → Nat → List α → Option (List α × Nat × List α)
  | 0, pool, calls, curr_split => some (pool, calls, curr_split)
  | left + 1, pool, calls, curr_split =>
    if pool.length > 0 then
      let rand_i := rand calls % pool.length
      match pool[rand_i]? with
      | none => none
      | some x => fillFold rand left (pool.eraseIdx rand_i) (calls + 1) (curr_split ++ [x])
    else some (pool, calls, curr_split)

/-- One iteration of the outer loop of `split_to_10`, lines 354-364. -/
def splitStep {α : Type} (rand : Nat → Nat) (each_vector_size : Nat)
    (st : List α × Nat × List (List α)) (_i : Nat) : Option (List α × Nat × List (List α)) :=
  match fillFold rand each_vector_size st.1 st.2.1 [] with
  | none => none
  | some (pool, calls, curr_split) => some (pool, calls, st.2.2 ++ [curr_split])

/-- The function `split_to_10`; the elements are copied and never inspected, so their
type is a parameter. -/
def split_to_10 {α : Type} (rand : Nat → Nat) (input_vectors : List α) :
    Option (List (List α)) :=
  let each_vector_size := input_vectors.length / 10
  match (List.range 10).foldlM (splitStep rand each_vector_size) (input_vectors, 0, []) with
  | none => none
  | some (_, _, split_vectors) => some split_vectors

/-- The function `merge_except_for`, lines 383-389 (the first loop only computes the
capacity to reserve). -/
def merge_except_for {α : Type} (vectors_to_merge : List (List α)) (not_merge_index : Int) :
    List α :=
  (List.range vectors_to_merge.length).foldl
    (fun (merged : List α) (i : Nat) =>
      if (i : Int) ≠ not_merge_index then merged ++ vectors_to_merge.getD i [] else merged)
    []

/-- The value `whole_size` of lines 374-378. -/
def merge_whole_size {α : Type} (vectors_to_merge : List (List α)) (not_merge_index : Int) :
    Nat :=
  (List.range vectors_to_merge.length).foldl
    (fun (whole_size : Nat) (i : Nat) =>
      if (i : Int) ≠ not_merge_index then whole_size + (vectors_to_merge.getD i []).length
      else whole_size)
    0

/-- Two pairs of parallel arrays hold the same entries at every position of
`[lo, hi]`. -/
def AgreeOn {β : Type} (lo hi : Nat) (sim : List ℚ) (nb : List β) (sim1 : List ℚ)
    (nb1 : List β) : Prop :=
  ∀ k, lo ≤ k → k ≤ hi → sim1[k]? = sim[k]? ∧ nb1[k]? = nb[k]?

/-- Two pairs of parallel arrays hold the same entries at every position outside
`[lo, hi]`. -/
def AgreeOff {β : Type} (lo hi : Nat) (sim : List ℚ) (nb : List β) (sim1 : List ℚ)
    (nb1 : List β) : Prop :=
  ∀ k, (k < lo ∨ hi < k) → sim1[k]? = sim[k]? ∧ nb1[k]? = nb[k]?

/-- Three similarities for the partition example. -/
def sampleSim : List ℚ := [1, 3, 2]

/-- The companion array of `sampleSim`. -/
def sampleNames : List String := ["a", "b", "c"]

/-- The number a list of decimal digit characters denotes. -/
def digitsValue (cs : List Char) : Nat :=
  cs.foldl (fun acc c => 10 * acc + (c.toNat - 48)) 0

/-- The signals the cluster mode reads, as a signal collection of the per-user mode: for
every input vector whose id is the key of a signal, that signal under the same key, its
subject replaced by the decimal string of the cluster index of the vector. -/
def relabel (tweets : List (String × Tweet)) (vectors : List CustVector) :
    List (String × Tweet) :=
  vectors.filterMap (fun vec =>
    match tweetAt tweets vec.id with
    | some t => some (vec.id, { t with userId := toString vec.cluster.toNat })
    | none => none)

/-- The state of the per-cluster buffers once the signals `signals` are accumulated. -/
def ClusterInv (n user_num : Nat) (signals : List (String × Tweet)) (bufs : List Buffers) :
    Prop :=
  bufs.length = user_num ∧
    ∀ c, c < user_num → bufs[c]? = some (expectedBuf n signals (toString c))

/-- The data of a vector that the builders set: id, dimensions, unknown indexes and
known mean. -/
def vectorData (v : CustVector) : String × List ℚ × List Nat × ℚ :=
  (v.id, v.dimensions, v.unknownIndexes, v.knownMean)

/-- An emitted vector has a known index, a positive known mean, non-negative dimensions
and positive entries at its unknown indexes. -/
def PositiveVector (v : CustVector) : Prop :=
  knownIndexes v ≠ [] ∧ 0 < v.knownMean ∧ (∀ x ∈ v.dimensions, 0 ≤ x) ∧
    ∀ i ∈ v.unknownIndexes, ∃ x, v.dimensions[i]? = some x ∧ 0 < x

/-! # Properties -/

/-! ## Proofs: `get_predicted_user_sim` -/

theorem neighborLoop_eq (neighbors : List CustVector) (similarities : List ℚ) (index : Nat)
    (hlen : similarities.length = neighbors.length)
    (hnb : ∀ nb ∈ neighbors, index < nb.dimensions.length) :
    ∀ n, n ≤ neighbors.length →
      (List.range n).foldlM (neighborStep neighbors similarities index) (0, 0)
        = some (∑ k in Finset.range n, similarities.getD k 0 *
                  ((neighbors.getD k default).dimensions.getD index 0
                    - (neighbors.getD k default).knownMean),
                ∑ k in Finset.range n, |similarities.getD k 0|) := by
  intro n
  induction n with
  | zero => intro _; rfl
  | succ n ih =>
    intro hn
    have hn1 : n < neighbors.length := hn
    have hn2 : n < similarities.length := by omega
    have hd : index < (neighbors[n]).dimensions.length := hnb _ (List.getElem_mem hn1)
    rw [List.range_succ, List.foldlM_append, ih (by omega)]
    simp only [Option.bind_eq_bind, Option.some_bind, List.foldlM_cons, List.foldlM_nil,
      neighborStep, List.getElem?_eq_getElem hn1, List.getElem?_eq_getElem hn2,
      List.getElem?_eq_getElem hd, Option.pure_def, Option.bind_some,
      Finset.sum_range_succ, List.getD_eq_getElem?_getD, Option.getD_some]

theorem predictIndex_eq (neighbors : List CustVector) (user : CustVector)
    (similarities : List ℚ) (index : Nat)
    (hlen : similarities.length = neighbors.length)
    (hnb : ∀ nb ∈ neighbors, index < nb.dimensions.length) :
    predictIndex neighbors user similarities index
      = some (mainSum neighbors similarities index / normSum neighbors similarities
              + user.knownMean) := by
  unfold predictIndex
  rw [neighborLoop_eq neighbors similarities index hlen hnb _ le_rfl]
  rfl

theorem predictLoop_spec (neighbors : List CustVector) (user : CustVector)
    (similarities : List ℚ) (n : Nat)
    (hlen : similarities.length = neighbors.length)
    (hnb : ∀ nb ∈ neighbors, nb.dimensions.length = n) :
    ∀ (idxs : List Nat) (acc : List ℚ), acc.length = n → (∀ j ∈ idxs, j < n) →
      ∃ out, idxs.foldlM (predictStep neighbors user similarities) acc = some out ∧
        out.length = n ∧
        ∀ j, out[j]? = if j ∈ idxs then
            some (mainSum neighbors similarities j / normSum neighbors similarities
                  + user.knownMean)
          else acc[j]? := by
  intro idxs
  induction idxs with
  | nil => intro acc hacc _; exact ⟨acc, rfl, hacc, fun j => by simp⟩
  | cons a rest ih =>
    intro acc hacc hidx
    have ha : a < n := hidx a (List.mem_cons_self _ _)
    have hstep : predictStep neighbors user similarities acc a
        = some (acc.set a (mainSum neighbors similarities a / normSum neighbors similarities
              + user.knownMean)) := by
      unfold predictStep
      rw [predictIndex_eq neighbors user similarities a hlen
        (fun nb h => by rw [hnb nb h]; exact ha)]
      simp [writeAt, hacc, ha]
    obtain ⟨out, hout, hl, hget⟩ := ih (acc.set a _) (by simpa using hacc)
      (fun j hj => hidx j (List.mem_cons_of_mem _ hj))
    refine ⟨out, ?_, hl, ?_⟩
    · rw [List.foldlM_cons, hstep]; exact hout
    · intro j
      rw [hget j]
      by_cases hjr : j ∈ rest
      · simp [hjr]
      · by_cases hja : j = a
        · subst hja
          simp [hjr, List.getElem?_set_self, hacc, ha]
        · have : ¬ j ∈ a :: rest := by simp [hja, hjr]
          simp only [hjr, this, if_false]
          exact List.getElem?_set_ne (Ne.symm hja)

/-- C1: for a well-formed target, neighbours over the same catalog and a similarity list
of the same length with non-zero `normSum`, `get_predicted_user_sim` returns a vector
whose entry at every unknown index `i` of the target is
`target.knownMean + mainSum i / normSum`. -/
theorem get_predicted_user_sim_unknown (neighbors : List CustVector) (user : CustVector)
    (similarities : List ℚ) (n i : Nat)
    (hlen : similarities.length = neighbors.length)
    (huser : WellFormed n user)
    (hnb : ∀ nb ∈ neighbors, nb.dimensions.length = n)
    (_hnorm : normSum neighbors similarities ≠ 0)
    (hi : i ∈ user.unknownIndexes) :
    ∃ out, get_predicted_user_sim neighbors user similarities = some out ∧
      out[i]? = some (user.knownMean
        + mainSum neighbors similarities i / normSum neighbors similarities) := by
  obtain ⟨out, hout, _, hget⟩ := predictLoop_spec neighbors user similarities n hlen hnb
    user.unknownIndexes user.dimensions huser.1 huser.2
  refine ⟨out, hout, ?_⟩
  rw [hget i, if_pos hi, add_comm]

theorem get_predicted_user_sim_unknown_witness :
    ∃ out, get_predicted_user_sim scenarioNeighbors (scenarioUser 3) [4/5, 1/5] = some out ∧
      out[0]? = some ((scenarioUser 3).knownMean + 22/5) := by
  have h := get_predicted_user_sim_unknown scenarioNeighbors (scenarioUser 3) [4/5, 1/5] 1 0
    rfl ⟨rfl, by simp [scenarioUser]⟩ (by simp [scenarioNeighbors])
    (by norm_num [normSum, scenarioNeighbors, Finset.sum_range_succ, abs_of_pos])
    (by simp [scenarioUser])
  have e : mainSum scenarioNeighbors [4/5, 1/5] 0 / normSum scenarioNeighbors [4/5, 1/5]
      = 22/5 := by
    norm_num [mainSum, normSum, scenarioNeighbors, Finset.sum_range_succ, abs_of_pos]
  rw [e] at h
  exact h

/-! ## Proofs: the parallel sort -/

theorem cons_set_perm {α : Type} : ∀ (l : List α) (j : Nat) (a y : α),
    l[j]? = some y → List.Perm (y :: l.set j a) (a :: l) := by
  intro l
  induction l with
  | nil => intro j a y h; simp at h
  | cons b t ih =>
    intro j a y h
    cases j with
    | zero =>
      simp at h
      subst h
      simpa using List.Perm.swap a b t
    | succ j =>
      simp at h
      have h1 := ih j a y h
      simp only [List.set_cons_succ]
      exact (List.Perm.swap b y _).trans (((h1.cons b)).trans (List.Perm.swap a b t))

theorem set_set_perm_of_get {α : Type} : ∀ (l : List α) (i j : Nat) (x y : α),
    l[i]? = some x → l[j]? = some y → List.Perm ((l.set i y).set j x) l := by
  intro l
  induction l with
  | nil => intro i j x y h; simp at h
  | cons b t ih =>
    intro i j x y hi hj
    cases i with
    | zero =>
      simp at hi
      subst hi
      cases j with
      | zero => simp at hj; subst hj; simp
      | succ j =>
        simp at hj
        simpa using cons_set_perm t j b y hj
    | succ i =>
      simp at hi
      cases j with
      | zero =>
        simp at hj
        subst hj
        simpa using cons_set_perm t i b x hi
      | succ j =>
        simp at hj
        simpa using (ih i j x y hi hj)

theorem zip_set {α β : Type} : ∀ (l₁ : List α) (l₂ : List β) (i : Nat) (a : α) (b : β),
    List.zip (l₁.set i a) (l₂.set i b) = (List.zip l₁ l₂).set i (a, b) := by
  intro l₁
  induction l₁ with
  | nil => intro l₂ i a b; simp
  | cons x t ih =>
    intro l₂ i a b
    cases l₂ with
    | nil => simp
    | cons y u =>
      cases i with
      | zero => simp
      | succ i => simp [ih]

theorem getElem?_zip {α β : Type} (l₁ : List α) (l₂ : List β) (k : Nat) (a : α) (b : β)
    (h₁ : l₁[k]? = some a) (h₂ : l₂[k]? = some b) : (List.zip l₁ l₂)[k]? = some (a, b) := by
  rw [List.getElem?_zip_eq_some]
  exact ⟨h₁, h₂⟩

theorem parallelSwap_spec {β : Type} (sim : List ℚ) (nb : List β) (i j : Nat)
    (hlen : sim.length = nb.length) (hi : i < sim.length) (hj : j < sim.length) :
    ∃ sim1 nb1, parallelSwap sim nb (i : Int) (j : Int) = some (sim1, nb1) ∧
      sim1.length = sim.length ∧ nb1.length = nb.length ∧
      List.Perm (List.zip sim1 nb1) (List.zip sim nb) ∧
      ∀ k, (List.zip sim1 nb1)[k]? =
        if k = j then (List.zip sim nb)[i]?
        else if k = i then (List.zip sim nb)[j]? else (List.zip sim nb)[k]? := by
  have hi2 : i < nb.length := by omega
  have hj2 : j < nb.length := by omega
  have zi : (List.zip sim nb)[i]? = some (sim[i], nb[i]) :=
    getElem?_zip _ _ _ _ _ (List.getElem?_eq_getElem hi) (List.getElem?_eq_getElem hi2)
  have zj : (List.zip sim nb)[j]? = some (sim[j], nb[j]) :=
    getElem?_zip _ _ _ _ _ (List.getElem?_eq_getElem hj) (List.getElem?_eq_getElem hj2)
  have hzlen : (List.zip sim nb).length = sim.length := by simp [hlen]
  refine ⟨(sim.set i sim[j]).set j sim[i], (nb.set i nb[j]).set j nb[i], ?_, by simp,
    by simp, ?_, ?_⟩
  · simp [parallelSwap, List.getElem?_eq_getElem hi, List.getElem?_eq_getElem hj,
      List.getElem?_eq_getElem hi2, List.getElem?_eq_getElem hj2]
  · rw [zip_set, zip_set]
    exact set_set_perm_of_get _ i j _ _ zi zj
  · intro k
    rw [zip_set, zip_set, zi, zj]
    by_cases hkj : k = j
    · subst hkj
      simp [hzlen, hj]
    · by_cases hki : k = i
      · subst hki
        rw [List.getElem?_set_ne (Ne.symm hkj)]
        simp [hkj, hzlen, hi]
      · rw [List.getElem?_set_ne (Ne.symm hkj), List.getElem?_set_ne (Ne.symm hki)]
        simp [hkj, hki]

theorem keyAt_congr {β : Type} {z z1 : List (ℚ × β)} {k k1 : Nat} (h : z1[k1]? = z[k]?) :
    keyAt z1 k1 = keyAt z k := by
  unfold keyAt
  rw [h]

theorem keyAt_zip {β : Type} (sim : List ℚ) (nb : List β) (k : Nat)
    (hlen : sim.length = nb.length) (x : ℚ) (h : sim[k]? = some x) :
    keyAt (List.zip sim nb) k = x := by
  have hk : k < sim.length := by
    rcases List.getElem?_eq_some_iff.mp h with ⟨hk, _⟩
    exact hk
  have hk2 : k < nb.length := by omega
  unfold keyAt
  rw [getElem?_zip sim nb k x nb[k] h (List.getElem?_eq_getElem hk2)]

theorem partitionLoop_spec {β : Type} (pivot : ℚ) (lo hi : Nat) :
    ∀ (steps : Nat) (sim : List ℚ) (nb : List β) (a b : Nat),
      sim.length = nb.length → hi < sim.length → b + steps = hi → lo ≤ a → a ≤ b →
      (∀ k, lo ≤ k → k < a → pivot ≤ keyAt (List.zip sim nb) k) →
      (∀ k, a ≤ k → k < b → keyAt (List.zip sim nb) k < pivot) →
      ∃ sim1 nb1, ∃ a1 : Nat,
        partitionLoop pivot steps sim nb ((a : Int) - 1) (b : Int)
          = some (sim1, nb1, (a1 : Int) - 1) ∧
        lo ≤ a1 ∧ a1 ≤ hi ∧ sim1.length = sim.length ∧ nb1.length = nb.length ∧
        List.Perm (List.zip sim1 nb1) (List.zip sim nb) ∧
        (∀ k, (k < lo ∨ hi ≤ k) → (List.zip sim1 nb1)[k]? = (List.zip sim nb)[k]?) ∧
        (∀ k, lo ≤ k → k < hi →
          ∃ k1, lo ≤ k1 ∧ k1 < hi ∧ (List.zip sim1 nb1)[k]? = (List.zip sim nb)[k1]?) ∧
        (∀ k, lo ≤ k → k < a1 → pivot ≤ keyAt (List.zip sim1 nb1) k) ∧
        (∀ k, a1 ≤ k → k < hi → keyAt (List.zip sim1 nb1) k < pivot) := by
  intro steps
  induction steps with
  | zero =>
    intro sim nb a b _ _ hb hloa hab hL hR
    have hbh : b = hi := by omega
    subst hbh
    exact ⟨sim, nb, a, rfl, hloa, hab, rfl, rfl, List.Perm.refl _, fun _ _ => rfl,
      fun k h1 h2 => ⟨k, h1, h2, rfl⟩, hL, hR⟩
  | succ steps ih =>
    intro sim nb a b hlen hhi hb hloa hab hL hR
    have hbs : b < sim.length := by omega
    have hkb : keyAt (List.zip sim nb) b = sim[b] :=
      keyAt_zip sim nb b hlen _ (List.getElem?_eq_getElem hbs)
    have e1 : ((a : Int) - 1 + 1) = (a : Int) := by ring
    have e2 : ((a : Int) - 1 + 1) = (((a + 1 : Nat) : Int) - 1) := by push_cast; ring
    have e3 : ((b : Int) + 1) = ((b + 1 : Nat) : Int) := by push_cast; ring
    by_cases hp : sim[b] ≥ pivot
    · obtain ⟨sim1, nb1, hsw, hl1, hl2, hperm, hget⟩ :=
        parallelSwap_spec sim nb a b hlen (by omega) hbs
      obtain ⟨sim2, nb2, a2, hrun, h1, h2, h3, h4, h5, h6, h7, h8, h9⟩ :=
        ih sim1 nb1 (a + 1) (b + 1) (by omega) (by omega) (by omega) (by omega) (by omega)
          (by
            intro k hk1 hk2
            by_cases hka : k = a
            · subst hka
              rw [keyAt_congr (z := List.zip sim nb) (k := b)
                (by rw [hget k]; by_cases hkb2 : k = b
                    · subst hkb2; simp
                    · simp [hkb2])]
              rw [hkb]; exact hp
            · rw [keyAt_congr (z := List.zip sim nb) (k := k)
                (by rw [hget k]; simp [hka, show k ≠ b by omega])]
              exact hL k hk1 (by omega))
          (by
            intro k hk1 hk2
            by_cases hkb2 : k = b
            · subst hkb2
              rw [keyAt_congr (z := List.zip sim nb) (k := a) (by rw [hget k]; simp)]
              exact hR a (le_refl _) (by omega)
            · rw [keyAt_congr (z := List.zip sim nb) (k := k)
                (by rw [hget k]; simp [hkb2, show k ≠ a by omega])]
              exact hR k (by omega) (by omega))
      refine ⟨sim2, nb2, a2, ?_, by omega, h2, by omega, by omega, h5.trans hperm, ?_, ?_,
        h8, h9⟩
      · rw [partitionLoop]
        simp only [Int.toNat_ofNat, List.getElem?_eq_getElem hbs, Int.natCast_nonneg,
          if_true, hp, e1, hsw]
        rw [← e1, e2, e3]
        exact hrun
      · intro k hk
        rw [h6 k hk, hget k]
        have : k ≠ b := by omega
        have : k ≠ a := by omega
        simp [*]
      · intro k hk1 hk2
        obtain ⟨k1, hk3, hk4, hk5⟩ := h7 k hk1 hk2
        rw [hk5, hget k1]
        by_cases hkb2 : k1 = b
        · exact ⟨a, hloa, by omega, by simp [hkb2]⟩
        · by_cases hka : k1 = a
          · exact ⟨b, by omega, by omega, by subst hka; simp [hkb2]⟩
          · exact ⟨k1, hk3, hk4, by simp [hkb2, hka]⟩
    · obtain ⟨sim2, nb2, a2, hrun, h1, h2, h3, h4, h5, h6, h7, h8, h9⟩ :=
        ih sim nb a (b + 1) hlen hhi (by omega) hloa (by omega) hL
          (by
            intro k hk1 hk2
            by_cases hkb2 : k = b
            · subst hkb2
              rw [hkb]; exact lt_of_not_ge hp
            · exact hR k hk1 (by omega))
      refine ⟨sim2, nb2, a2, ?_, h1, h2, h3, h4, h5, h6, h7, h8, h9⟩
      rw [partitionLoop]
      simp only [Int.toNat_ofNat, List.getElem?_eq_getElem hbs, Int.natCast_nonneg,
        if_true, hp, if_false]
      rw [e3]
      exact hrun

theorem parralel_partition_spec {β : Type} (sim : List ℚ) (nb : List β) (lo hi : Nat)
    (hlen : sim.length = nb.length) (hlohi : lo ≤ hi) (hhi : hi < sim.length) :
    ∃ sim1 nb1, ∃ pi : Nat,
      parralel_partition sim nb (lo : Int) (hi : Int) = some (sim1, nb1, (pi : Int)) ∧
      lo ≤ pi ∧ pi ≤ hi ∧ sim1.length = sim.length ∧ nb1.length = nb.length ∧
      List.Perm (List.zip sim1 nb1) (List.zip sim nb) ∧
      (∀ k, (k < lo ∨ hi < k) → (List.zip sim1 nb1)[k]? = (List.zip sim nb)[k]?) ∧
      (∀ k, lo ≤ k → k ≤ hi →
        ∃ k1, lo ≤ k1 ∧ k1 ≤ hi ∧ (List.zip sim1 nb1)[k]? = (List.zip sim nb)[k1]?) ∧
      (List.zip sim1 nb1)[pi]? = (List.zip sim nb)[hi]? ∧
      (∀ k, lo ≤ k → k < pi → keyAt (List.zip sim nb) hi ≤ keyAt (List.zip sim1 nb1) k) ∧
      (∀ k, pi < k → k ≤ hi → keyAt (List.zip sim1 nb1) k < keyAt (List.zip sim nb) hi) := by
  have hkp : keyAt (List.zip sim nb) hi = sim[hi] :=
    keyAt_zip sim nb hi hlen _ (List.getElem?_eq_getElem hhi)
  have hsteps : ((hi : Int) - (lo : Int)).toNat = hi - lo := by omega
  obtain ⟨sim1, nb1, a1, hrun, h1, h2, h3, h4, h5, h6, h7, h8, h9⟩ :=
    partitionLoop_spec (β := β) sim[hi] lo hi (hi - lo) sim nb lo lo hlen hhi (by omega)
      (le_refl _) (le_refl _) (fun k hk1 hk2 => by omega) (fun k hk1 hk2 => by omega)
  obtain ⟨sim2, nb2, hsw, hl1, hl2, hperm, hget⟩ :=
    parallelSwap_spec sim1 nb1 a1 hi (by omega) (by omega) (by omega)
  have e1 : ((a1 : Int) - 1 + 1) = (a1 : Int) := by ring
  refine ⟨sim2, nb2, a1, ?_, h1, h2, by omega, by omega, hperm.trans h5, ?_, ?_, ?_, ?_, ?_⟩
  · unfold parralel_partition
    simp only [Int.toNat_ofNat, List.getElem?_eq_getElem hhi, Int.natCast_nonneg, if_true,
      hsteps, hrun, e1, hsw]
  · intro k hk
    rw [hget k, ← h6 k (by omega)]
    have : k ≠ hi := by omega
    have : k ≠ a1 := by omega
    simp [*]
  · intro k hk1 hk2
    have hmap : ∀ k0, lo ≤ k0 → k0 ≤ hi →
        ∃ k1, lo ≤ k1 ∧ k1 ≤ hi ∧ (List.zip sim1 nb1)[k0]? = (List.zip sim nb)[k1]? := by
      intro k0 hk3 hk4
      by_cases hk5 : k0 = hi
      · exact ⟨hi, hlohi, le_refl _, by rw [hk5]; exact h6 hi (Or.inr (le_refl _))⟩
      · obtain ⟨k1, hk6, hk7, hk8⟩ := h7 k0 hk3 (by omega)
        exact ⟨k1, hk6, by omega, hk8⟩
    rw [hget k]
    by_cases hkh : k = hi
    · simpa [hkh] using hmap a1 h1 h2
    · by_cases hka : k = a1
      · subst hka
        simpa [hkh] using hmap hi hlohi (le_refl _)
      · simpa [hkh, hka] using hmap k hk1 hk2
  · rw [hget a1, ← h6 hi (Or.inr (le_refl _))]
    by_cases hah : a1 = hi
    · simp [hah]
    · simp [hah]
  · intro k hk1 hk2
    rw [hkp, keyAt_congr (z := List.zip sim1 nb1) (k := k)
      (by rw [hget k]; simp [show k ≠ hi by omega, show k ≠ a1 by omega])]
    exact h8 k hk1 hk2
  · intro k hk1 hk2
    rw [hkp]
    by_cases hkh : k = hi
    · rw [keyAt_congr (z := List.zip sim1 nb1) (k := a1) (by rw [hget k]; simp [hkh])]
      exact h9 a1 (le_refl _) (by omega)
    · rw [keyAt_congr (z := List.zip sim1 nb1) (k := k)
        (by rw [hget k]; simp [hkh, show k ≠ a1 by omega])]
      exact h9 k (by omega) (by omega)

theorem parallel_quickSort_spec {β : Type} :
    ∀ (fuel : Nat) (sim : List ℚ) (nb : List β) (low high : Int),
      sim.length = nb.length → 0 ≤ low → high < (sim.length : Int) →
      (high - low).toNat ≤ fuel →
      ∃ sim1 nb1, parallel_quickSort fuel sim nb low high = some (sim1, nb1) ∧
        sim1.length = sim.length ∧ nb1.length = nb.length ∧
        List.Perm (List.zip sim1 nb1) (List.zip sim nb) ∧
        (∀ k : Nat, ((k : Int) < low ∨ high < (k : Int)) →
          (List.zip sim1 nb1)[k]? = (List.zip sim nb)[k]?) ∧
        (∀ k : Nat, low ≤ (k : Int) → (k : Int) ≤ high →
          ∃ k1 : Nat, low ≤ (k1 : Int) ∧ (k1 : Int) ≤ high ∧
            (List.zip sim1 nb1)[k]? = (List.zip sim nb)[k1]?) ∧
        (∀ k1 k2 : Nat, low ≤ (k1 : Int) → k1 ≤ k2 → (k2 : Int) ≤ high →
          keyAt (List.zip sim1 nb1) k2 ≤ keyAt (List.zip sim1 nb1) k1) := by
  have base : ∀ (sim : List ℚ) (nb : List β) (low high : Int), ¬ low < high →
      sim.length = sim.length ∧ nb.length = nb.length ∧
        List.Perm (List.zip sim nb) (List.zip sim nb) ∧
        (∀ k : Nat, ((k : Int) < low ∨ high < (k : Int)) →
          (List.zip sim nb)[k]? = (List.zip sim nb)[k]?) ∧
        (∀ k : Nat, low ≤ (k : Int) → (k : Int) ≤ high →
          ∃ k1 : Nat, low ≤ (k1 : Int) ∧ (k1 : Int) ≤ high ∧
            (List.zip sim nb)[k]? = (List.zip sim nb)[k1]?) ∧
        (∀ k1 k2 : Nat, low ≤ (k1 : Int) → k1 ≤ k2 → (k2 : Int) ≤ high →
          keyAt (List.zip sim nb) k2 ≤ keyAt (List.zip sim nb) k1) := by
    intro sim nb low high hlt
    refine ⟨rfl, rfl, List.Perm.refl _, fun _ _ => rfl, fun k h1 h2 => ⟨k, h1, h2, rfl⟩, ?_⟩
    intro k1 k2 h1 h2 h3
    have : k1 = k2 := by omega
    rw [this]
  intro fuel
  induction fuel with
  | zero =>
    intro sim nb low high _ _ _ hf
    have hlt : ¬ low < high := by omega
    exact ⟨sim, nb, by simp [parallel_quickSort, hlt], base sim nb low high hlt⟩
  | succ fuel ih =>
    intro sim nb low high hlen h0 hhi hf
    by_cases hlt : low < high
    · obtain ⟨lo, rfl⟩ := Int.eq_ofNat_of_zero_le h0
      obtain ⟨hi, rfl⟩ := Int.eq_ofNat_of_zero_le (show (0 : Int) ≤ high by omega)
      obtain ⟨sim1, nb1, pi, hpart, p1, p2, p3, p4, p5, p6, p7, p8, p9, p10⟩ :=
        parralel_partition_spec sim nb lo hi hlen (by omega) (by omega)
      obtain ⟨sim2, nb2, hleft, l1, l2, l3, l4, l5, l6⟩ :=
        ih sim1 nb1 (lo : Int) ((pi : Int) - 1) (by omega) (by omega) (by omega) (by omega)
      obtain ⟨sim3, nb3, hright, r1, r2, r3, r4, r5, r6⟩ :=
        ih sim2 nb2 ((pi : Int) + 1) (hi : Int) (by omega) (by omega) (by omega) (by omega)
      have G1 : ∀ k, lo ≤ k → k < pi →
          keyAt (List.zip sim nb) hi ≤ keyAt (List.zip sim3 nb3) k := by
        intro k hk1 hk2
        obtain ⟨k1, hk3, hk4, hk5⟩ := l5 k (by omega) (by omega)
        rw [keyAt_congr (r4 k (Or.inl (by omega))), keyAt_congr hk5]
        exact p9 k1 (by omega) (by omega)
      have G2 : keyAt (List.zip sim3 nb3) pi = keyAt (List.zip sim nb) hi := by
        rw [keyAt_congr (r4 pi (Or.inl (by omega))), keyAt_congr (l4 pi (Or.inr (by omega))),
          keyAt_congr p8]
      have G3 : ∀ k, pi < k → k ≤ hi →
          keyAt (List.zip sim3 nb3) k < keyAt (List.zip sim nb) hi := by
        intro k hk1 hk2
        obtain ⟨k1, hk3, hk4, hk5⟩ := r5 k (by omega) (by omega)
        rw [keyAt_congr hk5, keyAt_congr (l4 k1 (Or.inr (by omega)))]
        exact p10 k1 (by omega) (by omega)
      have Gle : ∀ k, lo ≤ k → k ≤ pi →
          keyAt (List.zip sim nb) hi ≤ keyAt (List.zip sim3 nb3) k := by
        intro k hk1 hk2
        by_cases hkp : k = pi
        · rw [hkp, G2]
        · exact G1 k hk1 (by omega)
      have Gge : ∀ k, pi ≤ k → k ≤ hi →
          keyAt (List.zip sim3 nb3) k ≤ keyAt (List.zip sim nb) hi := by
        intro k hk1 hk2
        by_cases hkp : k = pi
        · rw [hkp, G2]
        · exact le_of_lt (G3 k (by omega) hk2)
      refine ⟨sim3, nb3, ?_, by omega, by omega, (r3.trans l3).trans p5, ?_, ?_, ?_⟩
      · rw [parallel_quickSort]
        simp only [hlt, if_true, hpart, hleft, hright]
      · intro k hk
        rw [r4 k (by omega), l4 k (by omega), p6 k (by omega)]
      · intro k hk1 hk2
        have hmapP : ∀ k0 : Nat, lo ≤ k0 → k0 ≤ hi →
            ∃ k1 : Nat, ((lo : Int) ≤ (k1 : Int)) ∧ ((k1 : Int) ≤ (hi : Int)) ∧
              (List.zip sim1 nb1)[k0]? = (List.zip sim nb)[k1]? := by
          intro k0 hk3 hk4
          obtain ⟨k1, hk5, hk6, hk7⟩ := p7 k0 hk3 hk4
          exact ⟨k1, by omega, by omega, hk7⟩
        by_cases hkp : pi < k
        · obtain ⟨k1, hk3, hk4, hk5⟩ := r5 k (by omega) (by omega)
          rw [hk5, l4 k1 (Or.inr (by omega))]
          exact hmapP k1 (by omega) (by omega)
        · rw [r4 k (Or.inl (by omega))]
          by_cases hkp2 : k = pi
          · rw [l4 k (Or.inr (by omega))]
            exact hmapP k (by omega) (by omega)
          · obtain ⟨k1, hk3, hk4, hk5⟩ := l5 k (by omega) (by omega)
            rw [hk5]
            exact hmapP k1 (by omega) (by omega)
      · intro k1 k2 hk1 hk2 hk3
        by_cases hc1 : k2 < pi
        · rw [keyAt_congr (r4 k2 (Or.inl (by omega))), keyAt_congr (r4 k1 (Or.inl (by omega)))]
          exact l6 k1 k2 (by omega) hk2 (by omega)
        · by_cases hc2 : pi < k1
          · exact r6 k1 k2 (by omega) hk2 (by omega)
          · exact le_trans (Gge k2 (by omega) (by omega)) (Gle k1 (by omega) (by omega))
    · exact ⟨sim, nb, by simp [parallel_quickSort, hlt], base sim nb low high hlt⟩

theorem parallel_quickSort_full {β : Type} (fuel : Nat) (sim : List ℚ) (nb : List β)
    (hlen : sim.length = nb.length) (hfuel : sim.length ≤ fuel) :
    ∃ sim1 nb1,
      parallel_quickSort fuel sim nb 0 ((sim.length : Int) - 1) = some (sim1, nb1) ∧
      sim1.length = sim.length ∧ nb1.length = nb.length ∧
      List.Perm (List.zip sim1 nb1) (List.zip sim nb) ∧
      List.Sorted (fun x y => x ≥ y) sim1 := by
  obtain ⟨sim1, nb1, hrun, h1, h2, h3, _, _, h6⟩ :=
    parallel_quickSort_spec fuel sim nb 0 ((sim.length : Int) - 1) hlen (le_refl _)
      (by omega) (by omega)
  refine ⟨sim1, nb1, hrun, h1, h2, h3, ?_⟩
  unfold List.Sorted
  rw [List.pairwise_iff_getElem]
  intro i j hi hj hij
  have hk := h6 i j (by omega) (by omega) (by omega)
  rw [keyAt_zip sim1 nb1 i (by omega) _ (List.getElem?_eq_getElem hi),
    keyAt_zip sim1 nb1 j (by omega) _ (List.getElem?_eq_getElem hj)] at hk
  exact hk

theorem fst_eq_of_mem_zip_map {α γ : Type} (f : α → γ) :
    ∀ (l : List α) (p : γ × α), p ∈ List.zip (l.map f) l → p.1 = f p.2 := by
  intro l
  induction l with
  | nil => intro p hp; simp at hp
  | cons a t ih =>
    intro p hp
    simp only [List.map_cons, List.zip_cons_cons, List.mem_cons] at hp
    rcases hp with rfl | hp
    · rfl
    · exact ih p hp

theorem eq_map_of_zip_perm {α γ : Type} (f : α → γ) (l : List α) (s1 : List γ) (n1 : List α)
    (hlen : s1.length = n1.length)
    (hperm : List.Perm (List.zip s1 n1) (List.zip (l.map f) l)) :
    s1 = n1.map f ∧ List.Perm n1 l := by
  constructor
  · have e1 : s1 = (List.zip s1 n1).map Prod.fst := (List.map_fst_zip s1 n1 (by omega)).symm
    have e2 : n1 = (List.zip s1 n1).map Prod.snd := (List.map_snd_zip s1 n1 (by omega)).symm
    have e3 : (List.zip s1 n1).map Prod.fst = (List.zip s1 n1).map (fun p => f p.2) :=
      List.map_congr_left
        (fun p hp => fst_eq_of_mem_zip_map f l p ((hperm.mem_iff).mp hp))
    calc s1 = (List.zip s1 n1).map Prod.fst := e1
      _ = (List.zip s1 n1).map (fun p => f p.2) := e3
      _ = ((List.zip s1 n1).map Prod.snd).map f := by rw [List.map_map]; rfl
      _ = n1.map f := by rw [← e2]
  · have h := hperm.map Prod.snd
    rw [List.map_snd_zip s1 n1 (by omega), List.map_snd_zip _ _ (by simp)] at h
    exact h

/-- C2: for every candidate list, target and limit `P`, `get_P_closest` returns; the
similarity list and the neighbour list it leaves both have length `min P n`, where `n`
is the number of candidates; and the similarity list is non-increasing. -/
theorem get_P_closest_length_sorted (cosineSimilarity : CustVector → CustVector → ℚ)
    (neighbors : List CustVector) (user : CustVector) (P : Nat) :
    ∃ sims neigh, get_P_closest cosineSimilarity neighbors user P = some (sims, neigh) ∧
      sims.length = min P neighbors.length ∧ neigh.length = min P neighbors.length ∧
      List.Sorted (fun x y => x ≥ y) sims := by
  obtain ⟨sim1, nb1, hrun, h1, h2, _, h4⟩ :=
    parallel_quickSort_full (neighbors.map (fun nb => cosineSimilarity nb user)).length
      (neighbors.map (fun nb => cosineSimilarity nb user)) neighbors (by simp) (le_refl _)
  simp only [List.length_map] at h1
  by_cases hP : nb1.length > P
  · refine ⟨sim1.take P, nb1.take P, ?_, ?_, ?_, ?_⟩
    · simp only [get_P_closest, hrun, hP, if_true]
    · rw [List.length_take]; omega
    · rw [List.length_take]; omega
    · exact List.Pairwise.sublist (List.take_sublist P sim1) h4
  · refine ⟨sim1, nb1, ?_, ?_, ?_, h4⟩
    · simp only [get_P_closest, hrun, hP, if_false]
    · omega
    · omega

/-- C3: on arrays of equal length `n`, `parallel_quickSort(sim, neighbors, 0, n - 1)`
returns (with fuel `n` or more), the list of pairs `(sim[k], neighbors[k])` it leaves is
a permutation of the input list of pairs and `sim` is non-increasing.  In
`get_P_closest` the returned similarity at every position is the cosine similarity of
the neighbour left at that position and the target, and the neighbours kept are a
sub-multiset of the candidates. -/
theorem parallel_quickSort_perm_sorted {β : Type} (fuel : Nat) (sim : List ℚ)
    (neighbors : List β) (hlen : sim.length = neighbors.length) (hfuel : sim.length ≤ fuel) :
    (∃ sim1 nb1,
      parallel_quickSort fuel sim neighbors 0 ((sim.length : Int) - 1) = some (sim1, nb1) ∧
      sim1.length = sim.length ∧ nb1.length = neighbors.length ∧
      List.Perm (List.zip sim1 nb1) (List.zip sim neighbors) ∧
      List.Sorted (fun x y => x ≥ y) sim1) ∧
    (∀ (cosineSimilarity : CustVector → CustVector → ℚ) (candidates : List CustVector)
        (user : CustVector) (P : Nat),
      ∃ sims neigh, get_P_closest cosineSimilarity candidates user P = some (sims, neigh) ∧
        sims = neigh.map (fun nb => cosineSimilarity nb user) ∧
        List.Subperm neigh candidates) := by
  refine ⟨parallel_quickSort_full fuel sim neighbors hlen hfuel, ?_⟩
  intro cosineSimilarity candidates user P
  obtain ⟨sim1, nb1, hrun, h1, h2, h3, _⟩ :=
    parallel_quickSort_full (candidates.map (fun nb => cosineSimilarity nb user)).length
      (candidates.map (fun nb => cosineSimilarity nb user)) candidates (by simp) (le_refl _)
  simp only [List.length_map] at h1
  obtain ⟨e1, e2⟩ := eq_map_of_zip_perm (fun nb => cosineSimilarity nb user) candidates
    sim1 nb1 (by omega) h3
  by_cases hP : nb1.length > P
  · refine ⟨sim1.take P, nb1.take P, ?_, ?_, ?_⟩
    · simp only [get_P_closest, hrun, hP, if_true]
    · rw [e1, List.map_take]
    · exact (List.take_sublist P nb1).subperm.trans e2.subperm
  · refine ⟨sim1, nb1, ?_, e1, e2.subperm⟩
    simp only [get_P_closest, hrun, hP, if_false]

theorem parallel_quickSort_perm_sorted_witness :
    ([1, 3, 2] : List ℚ).length = ["a", "b", "c"].length ∧
    ([1, 3, 2] : List ℚ).length ≤ 3 ∧
    ∃ sim1 nb1,
      parallel_quickSort 3 [1, 3, 2] ["a", "b", "c"] 0 ((([1, 3, 2] : List ℚ).length : Int) - 1)
        = some (sim1, nb1) ∧
      sim1.length = ([1, 3, 2] : List ℚ).length ∧ nb1.length = ["a", "b", "c"].length ∧
      List.Perm (List.zip sim1 nb1) (List.zip [1, 3, 2] ["a", "b", "c"]) ∧
      List.Sorted (fun x y => x ≥ y) sim1 :=
  ⟨rfl, le_refl _,
    (parallel_quickSort_perm_sorted 3 [1, 3, 2] ["a", "b", "c"] rfl (le_refl _)).1⟩

/-! ## Proofs: the vector builders -/

theorem scan_eq (scores : List ℚ) (known : List Nat) (n : Nat)
    (h1 : scores.length = n) (h2 : known.length = n) :
    ∀ m, m ≤ n →
      (List.range m).foldlM (scanStep scores known) ⟨0, 0, [], true⟩
        = some (scanResult scores known m) := by
  intro m
  induction m with
  | zero => intro _; rfl
  | succ m ih =>
    intro hm
    have hm1 : m < scores.length := by omega
    have hm2 : m < known.length := by omega
    rw [List.range_succ, List.foldlM_append, ih (by omega)]
    simp only [Option.bind_eq_bind, Option.some_bind, List.foldlM_cons, List.foldlM_nil,
      scanStep, List.getElem?_eq_getElem hm1, List.getElem?_eq_getElem hm2,
      Option.pure_def, Option.bind_some]
    have g1 : known[m]? = some known[m] := List.getElem?_eq_getElem hm2
    have g2 : scores[m]? = some scores[m] := List.getElem?_eq_getElem hm1
    by_cases hf : known[m] = 0 <;> by_cases hx : scores[m] = 0 <;>
      simp [scanResult, List.filter_append, List.range_succ, List.filter_cons, g1, g2, hf, hx]

theorem imputeLoop_spec (mean : ℚ) (n : Nat) :
    ∀ (idxs : List Nat) (acc : List ℚ), acc.length = n → (∀ j ∈ idxs, j < n) →
      ∃ out, idxs.foldlM (fun d index => writeAt d index mean) acc = some out ∧
        out.length = n ∧
        ∀ j, out[j]? = if j ∈ idxs then some mean else acc[j]? := by
  intro idxs
  induction idxs with
  | nil => intro acc hacc _; exact ⟨acc, rfl, hacc, fun j => by simp⟩
  | cons a rest ih =>
    intro acc hacc hidx
    have ha : a < n := hidx a (List.mem_cons_self _ _)
    obtain ⟨out, hout, hl, hget⟩ := ih (acc.set a mean) (by simpa using hacc)
      (fun j hj => hidx j (List.mem_cons_of_mem _ hj))
    refine ⟨out, ?_, hl, ?_⟩
    · rw [List.foldlM_cons]
      simp only [writeAt, hacc, ha, if_true, Option.bind_eq_bind, Option.some_bind]
      exact hout
    · intro j
      rw [hget j]
      by_cases hjr : j ∈ rest
      · simp [hjr]
      · by_cases hja : j = a
        · subst hja
          simp [hjr, List.getElem?_set_self, hacc, ha]
        · have : ¬ j ∈ a :: rest := by simp [hja, hjr]
          simp only [hjr, this, if_false]
          exact List.getElem?_set_ne (Ne.symm hja)

theorem buildVector_spec (id : String) (buf : Buffers) (n : Nat)
    (h1 : buf.1.length = n) (h2 : buf.2.length = n) :
    ∃ r, buildVector id buf = some r ∧
      ((scanResult buf.1 buf.2 n).useless = true → r = none) ∧
      ((scanResult buf.1 buf.2 n).useless = false →
        ∃ dims, r = some (CustVector.new id dims (scanResult buf.1 buf.2 n).unknown_indexes
            ((scanResult buf.1 buf.2 n).sum / ((scanResult buf.1 buf.2 n).known_number : ℚ))) ∧
          dims.length = n ∧
          ∀ j, dims[j]? = if j ∈ (scanResult buf.1 buf.2 n).unknown_indexes then
              some ((scanResult buf.1 buf.2 n).sum
                / ((scanResult buf.1 buf.2 n).known_number : ℚ))
            else buf.1[j]?) := by
  have hscan := scan_eq buf.1 buf.2 n h1 h2 n (le_refl _)
  by_cases hu : (scanResult buf.1 buf.2 n).useless = true
  · refine ⟨none, ?_, fun _ => rfl, fun h => (by rw [hu] at h; cases h)⟩
    simp [buildVector, h1, hscan, hu]
  · have hu2 : (scanResult buf.1 buf.2 n).useless = false := by
      cases h : (scanResult buf.1 buf.2 n).useless
      · rfl
      · exact absurd h hu
    obtain ⟨dims, hd1, hd2, hd3⟩ := imputeLoop_spec
      ((scanResult buf.1 buf.2 n).sum / ((scanResult buf.1 buf.2 n).known_number : ℚ)) n
      (scanResult buf.1 buf.2 n).unknown_indexes buf.1 h1
      (fun j hj => by
        simp only [scanResult, List.mem_filter, List.mem_range] at hj
        exact hj.1)
    refine ⟨some (CustVector.new id dims (scanResult buf.1 buf.2 n).unknown_indexes
      ((scanResult buf.1 buf.2 n).sum / ((scanResult buf.1 buf.2 n).known_number : ℚ))),
      ?_, fun h => (by rw [hu2] at h; cases h), fun _ => ⟨dims, rfl, hd2, hd3⟩⟩
    simp [buildVector, h1, hscan, hu2, hd1]

theorem buildVectors_eq :
    ∀ (m : List (String × Buffers)) (acc : List CustVector),
      (∀ e ∈ m, ∃ r, buildVector e.1 e.2 = some r) →
      m.foldlM collectVector acc
        = some (acc ++ m.filterMap (fun e => (buildVector e.1 e.2).join)) := by
  intro m
  induction m with
  | nil => intro acc _; simp
  | cons e rest ih =>
    intro acc h
    obtain ⟨r, hr⟩ := h e (List.mem_cons_self _ _)
    rw [List.foldlM_cons]
    cases r with
    | none =>
      have hstep : collectVector acc e = some acc := by simp [collectVector, hr]
      rw [hstep]
      simp only [Option.bind_eq_bind, Option.some_bind]
      rw [ih _ (fun e1 h1 => h e1 (List.mem_cons_of_mem _ h1))]
      simp [List.filterMap_cons, hr]
    | some v =>
      have hstep : collectVector acc e = some (acc ++ [v]) := by simp [collectVector, hr]
      rw [hstep]
      simp only [Option.bind_eq_bind, Option.some_bind]
      rw [ih _ (fun e1 h1 => h e1 (List.mem_cons_of_mem _ h1))]
      simp [List.filterMap_cons, hr]

theorem getElem?_tab {α : Type} (n : Nat) (f : Nat → α) (i : Nat) :
    ((List.range n).map f)[i]? = if i < n then some (f i) else none := by
  by_cases h : i < n
  · simp [h, List.getElem?_range]
  · simp only [h, if_false]
    apply List.getElem?_eq_none
    simp only [List.length_map, List.length_range]
    omega

theorem tab_getD {α : Type} (l : List α) (n : Nat) (d : α) (h : l.length = n) :
    (List.range n).map (fun i => l.getD i d) = l := by
  apply List.ext_getElem?
  intro i
  rw [getElem?_tab]
  by_cases hi : i < n
  · simp [hi, List.getD_eq_getElem?_getD, List.getElem?_eq_getElem (show i < l.length by omega)]
  · simp [hi, List.getElem?_eq_none (show l.length ≤ i by omega)]

theorem getD_set {α : Type} (l : List α) (a i : Nat) (v d : α) (ha : a < l.length) :
    (l.set a v).getD i d = if i = a then v else l.getD i d := by
  simp only [List.getD_eq_getElem?_getD, List.getElem?_set]
  by_cases h : a = i
  · subst h; simp [ha]
  · simp [h, Ne.symm h]

theorem accumulate_eq (score : ℚ) (b : Buffers) (a n : Nat)
    (h1 : b.1.length = n) (h2 : b.2.length = n) (ha : a < n) :
    accumulate score b a
      = some (if score > 0 then b.1.set a (b.1.getD a 0 + score) else b.1, b.2.set a 1) := by
  have hx : b.1[a]? = some b.1[a] := List.getElem?_eq_getElem (by omega)
  have hd : b.1.getD a 0 = b.1[a] := by simp [List.getD_eq_getElem?_getD, hx]
  rw [hd]
  by_cases hs : score > 0
  · simp [accumulate, writeAt, h1, h2, ha, hs, hx]
  · simp [accumulate, writeAt, h2, ha, hs]

theorem accLoop_spec (score : ℚ) (n : Nat) :
    ∀ (idxs : List Nat) (b : Buffers), b.1.length = n → b.2.length = n →
      (∀ i ∈ idxs, i < n) →
      idxs.foldlM (accumulate score) b
        = some ((List.range n).map (fun i =>
                  b.1.getD i 0 + if score > 0 then (idxs.count i : ℚ) * score else 0),
                (List.range n).map (fun i => if i ∈ idxs then 1 else b.2.getD i 0)) := by
  intro idxs
  induction idxs with
  | nil =>
    intro b h1 h2 _
    simp only [List.foldlM_nil, List.count_nil, Nat.cast_zero, zero_mul, ite_self, add_zero,
      List.not_mem_nil, if_false]
    rw [tab_getD b.1 n 0 h1, tab_getD b.2 n 0 h2]
    rfl
  | cons a rest ih =>
    intro b h1 h2 hidx
    have ha : a < n := hidx a (List.mem_cons_self _ _)
    rw [List.foldlM_cons, accumulate_eq score b a n h1 h2 ha]
    simp only [Option.bind_eq_bind, Option.some_bind]
    rw [ih _ (by split <;> simp [h1]) (by simp [h2])
      (fun i hi => hidx i (List.mem_cons_of_mem _ hi))]
    congr 2
    · apply List.map_congr_left
      intro i _
      by_cases hs : score > 0
      · simp only [hs, if_true]
        rw [getD_set _ _ _ _ _ (by omega), List.count_cons]
        by_cases hia : i = a
        · subst hia; simp; ring
        · have : ¬ ((a == i) = true) := by simp [Ne.symm hia]
          simp [hia, this]
      · simp [hs]
    · apply List.map_congr_left
      intro i _
      rw [getD_set _ _ _ _ _ (by omega)]
      by_cases hia : i = a
      · subst hia; simp
      · simp [hia]

theorem mapUpdate_find (u : String) (f : Buffers → Option Buffers) (b b1 : Buffers)
    (hf : f b = some b1) :
    ∀ (m : List (String × Buffers)), findBuf m u = some b →
      ∃ m1, mapUpdate m u f = some m1 ∧ findBuf m1 u = some b1 ∧
        (∀ k, k ≠ u → findBuf m1 k = findBuf m k) ∧
        m1.map Prod.fst = m.map Prod.fst := by
  intro m
  induction m with
  | nil => intro h; simp [findBuf] at h
  | cons e rest ih =>
    intro h
    obtain ⟨k0, b0⟩ := e
    by_cases hk : k0 = u
    · simp only [findBuf, hk, if_true, Option.some.injEq] at h
      subst h
      refine ⟨(k0, b1) :: rest, by simp [mapUpdate, hk, hf], by simp [findBuf, hk], ?_, rfl⟩
      intro k hku
      simp [findBuf, hk, Ne.symm hku]
    · simp only [findBuf, hk, if_false] at h
      obtain ⟨m1, h1, h2, h3, h4⟩ := ih h
      refine ⟨(k0, b0) :: m1, by simp [mapUpdate, hk, h1], by simp [findBuf, hk, h2], ?_, ?_⟩
      · intro k hku
        simp only [findBuf]
        rw [h3 k hku]
      · simp [h4]

theorem touchLoop_spec (u : String) (score : ℚ) :
    ∀ (idxs : List Nat) (m : List (String × Buffers)) (b b1 : Buffers),
      findBuf m u = some b → idxs.foldlM (accumulate score) b = some b1 →
      ∃ m1, idxs.foldlM (touchIndex u score) m = some m1 ∧ findBuf m1 u = some b1 ∧
        (∀ k, k ≠ u → findBuf m1 k = findBuf m k) ∧
        m1.map Prod.fst = m.map Prod.fst := by
  intro idxs
  induction idxs with
  | nil =>
    intro m b b1 hm hb
    simp only [List.foldlM_nil, Option.pure_def, Option.some.injEq] at hb
    subst hb
    exact ⟨m, rfl, hm, fun _ _ => rfl, rfl⟩
  | cons a rest ih =>
    intro m b b1 hm hb
    rw [List.foldlM_cons] at hb
    cases hacc : accumulate score b a with
    | none => rw [hacc] at hb; simp at hb
    | some b2 =>
      rw [hacc] at hb
      simp only [Option.bind_eq_bind, Option.some_bind] at hb
      obtain ⟨m2, h1, h2, h3, h4⟩ :=
        mapUpdate_find u (fun buf => accumulate score buf a) b b2 hacc m hm
      obtain ⟨m3, g1, g2, g3, g4⟩ := ih m2 b2 b1 h2 hb
      refine ⟨m3, ?_, g2, fun k hk => by rw [g3 k hk, h3 k hk], by rw [g4, h4]⟩
      rw [List.foldlM_cons]
      simp only [touchIndex, h1, Option.bind_eq_bind, Option.some_bind]
      exact g1

theorem all_ne_iff_findBuf (u : String) :
    ∀ (m : List (String × Buffers)),
      m.all (fun e => e.1 != u) = true ↔ findBuf m u = none := by
  intro m
  induction m with
  | nil => simp [findBuf]
  | cons e rest ih =>
    obtain ⟨k0, b0⟩ := e
    by_cases hk : k0 = u
    · simp [findBuf, hk]
    · simp only [List.all_cons, findBuf, hk, if_false, Bool.and_eq_true]
      rw [ih]
      simp [hk]

theorem findBuf_none_iff (u : String) :
    ∀ (m : List (String × Buffers)), findBuf m u = none ↔ u ∉ m.map Prod.fst := by
  intro m
  induction m with
  | nil => simp [findBuf]
  | cons e rest ih =>
    obtain ⟨k0, b0⟩ := e
    by_cases hk : k0 = u
    · simp [findBuf, hk]
    · simp only [findBuf, hk, if_false, List.map_cons, List.mem_cons, not_or]
      rw [ih]
      exact ⟨fun h => ⟨Ne.symm hk, h⟩, fun h => h.2⟩

theorem findBuf_append_new (u : String) (b : Buffers) (k : String) :
    ∀ (m : List (String × Buffers)),
      findBuf (m ++ [(u, b)]) k
        = match findBuf m k with
          | some x => some x
          | none => if u = k then some b else none := by
  intro m
  induction m with
  | nil => simp [findBuf]
  | cons e rest ih =>
    obtain ⟨k0, b0⟩ := e
    by_cases hk : k0 = k
    · simp [findBuf, hk]
    · simp only [List.cons_append, findBuf, hk, if_false]
      exact ih

theorem findBuf_of_mem (u : String) (b : Buffers) :
    ∀ (m : List (String × Buffers)), (m.map Prod.fst).Nodup → (u, b) ∈ m →
      findBuf m u = some b := by
  intro m
  induction m with
  | nil => intro _ h; simp at h
  | cons e rest ih =>
    intro hnd hmem
    obtain ⟨k0, b0⟩ := e
    simp only [List.map_cons, List.nodup_cons] at hnd
    rcases List.mem_cons.mp hmem with heq | hrest
    · cases heq
      simp [findBuf]
    · have hne : k0 ≠ u := by
        intro h
        apply hnd.1
        rw [h]
        exact List.mem_map_of_mem Prod.fst hrest
      simp only [findBuf, hne, if_false]
      exact ih hnd.2 hrest

theorem scoreSum_append (ts : List (String × Tweet)) (x : String × Tweet) (u : String)
    (i : Nat) :
    scoreSum (ts ++ [x]) u i = scoreSum ts u i +
      (if x.2.userId = u ∧ x.2.sentimentScore > 0 then
        (x.2.cryptoIndexes.count i : ℚ) * x.2.sentimentScore else 0) := by
  simp [scoreSum, List.map_append, List.sum_append]

theorem touches_append (ts : List (String × Tweet)) (x : String × Tweet) (u : String)
    (i : Nat) :
    touches (ts ++ [x]) u i ↔ touches ts u i ∨ (x.2.userId = u ∧ i ∈ x.2.cryptoIndexes) := by
  unfold touches
  constructor
  · rintro ⟨t, ht, h1, h2⟩
    rcases List.mem_append.mp ht with h | h
    · exact Or.inl ⟨t, h, h1, h2⟩
    · rw [List.mem_singleton] at h
      subst h
      exact Or.inr ⟨h1, h2⟩
  · rintro (⟨t, ht, h1, h2⟩ | ⟨h1, h2⟩)
    · exact ⟨t, List.mem_append_left _ ht, h1, h2⟩
    · exact ⟨x, List.mem_append_right _ (List.mem_singleton_self x), h1, h2⟩

theorem hasSubject_append (ts : List (String × Tweet)) (x : String × Tweet) (u : String) :
    hasSubject (ts ++ [x]) u ↔ hasSubject ts u ∨ x.2.userId = u := by
  unfold hasSubject
  constructor
  · rintro ⟨t, ht, h1⟩
    rcases List.mem_append.mp ht with h | h
    · exact Or.inl ⟨t, h, h1⟩
    · rw [List.mem_singleton] at h
      subst h
      exact Or.inr h1
  · rintro (⟨t, ht, h1⟩ | h1)
    · exact ⟨t, List.mem_append_left _ ht, h1⟩
    · exact ⟨x, List.mem_append_right _ (List.mem_singleton_self x), h1⟩

theorem scoreSum_of_not_hasSubject (ts : List (String × Tweet)) (u : String) (i : Nat)
    (h : ¬ hasSubject ts u) : scoreSum ts u i = 0 := by
  unfold scoreSum
  apply List.sum_eq_zero
  intro x hx
  obtain ⟨t, ht, rfl⟩ := List.mem_map.mp hx
  have : ¬ t.2.userId = u := fun e => h ⟨t, ht, e⟩
  simp [this]

theorem not_touches_of_not_hasSubject (ts : List (String × Tweet)) (u : String) (i : Nat)
    (h : ¬ hasSubject ts u) : ¬ touches ts u i := by
  rintro ⟨t, ht, h1, _⟩
  exact h ⟨t, ht, h1⟩

theorem expectedBuf_new (n : Nat) (ts : List (String × Tweet)) (u : String)
    (h : ¬ hasSubject ts u) :
    expectedBuf n ts u = (List.replicate n 0, List.replicate n 0) := by
  unfold expectedBuf
  congr 1
  · apply List.ext_getElem?
    intro i
    rw [getElem?_tab, List.getElem?_replicate, scoreSum_of_not_hasSubject ts u i h]
  · apply List.ext_getElem?
    intro i
    rw [getElem?_tab, List.getElem?_replicate]
    simp [not_touches_of_not_hasSubject ts u i h]

theorem expectedBuf_fst_getD (n : Nat) (ts : List (String × Tweet)) (u : String) (i : Nat)
    (hi : i < n) : (expectedBuf n ts u).1.getD i 0 = scoreSum ts u i := by
  simp [expectedBuf, List.getD_eq_getElem?_getD, getElem?_tab, hi]

theorem expectedBuf_snd_getD (n : Nat) (ts : List (String × Tweet)) (u : String) (i : Nat)
    (hi : i < n) :
    (expectedBuf n ts u).2.getD i 0 = if touches ts u i then 1 else 0 := by
  simp only [expectedBuf, List.getD_eq_getElem?_getD, getElem?_tab, hi, if_true,
    Option.getD_some]

theorem expectedBuf_step_same (n : Nat) (ts : List (String × Tweet)) (x : String × Tweet) :
    ((List.range n).map (fun i => (expectedBuf n ts x.2.userId).1.getD i 0 +
        if x.2.sentimentScore > 0 then
          (x.2.cryptoIndexes.count i : ℚ) * x.2.sentimentScore else 0),
      (List.range n).map (fun i => if i ∈ x.2.cryptoIndexes then 1
        else (expectedBuf n ts x.2.userId).2.getD i 0))
      = expectedBuf n (ts ++ [x]) x.2.userId := by
  unfold expectedBuf
  congr 1
  · apply List.map_congr_left
    intro i hi
    have hi2 : i < n := List.mem_range.mp hi
    have := expectedBuf_fst_getD n ts x.2.userId i hi2
    unfold expectedBuf at this
    rw [this, scoreSum_append]
    simp
  · apply List.map_congr_left
    intro i hi
    have hi2 : i < n := List.mem_range.mp hi
    have := expectedBuf_snd_getD n ts x.2.userId i hi2
    unfold expectedBuf at this
    rw [this]
    by_cases h1 : i ∈ x.2.cryptoIndexes
    · have : touches (ts ++ [x]) x.2.userId i := (touches_append ts x _ i).mpr (Or.inr ⟨rfl, h1⟩)
      simp [h1, this]
    · by_cases h2 : touches ts x.2.userId i
      · have : touches (ts ++ [x]) x.2.userId i := (touches_append ts x _ i).mpr (Or.inl h2)
        simp [h1, h2, this]
      · have : ¬ touches (ts ++ [x]) x.2.userId i := by
          rw [touches_append]
          rintro (h | ⟨_, h⟩)
          · exact h2 h
          · exact h1 h
        simp [h1, h2, this]

theorem expectedBuf_step_other (n : Nat) (ts : List (String × Tweet)) (x : String × Tweet)
    (k : String) (hk : k ≠ x.2.userId) :
    expectedBuf n (ts ++ [x]) k = expectedBuf n ts k := by
  have hne : ¬ x.2.userId = k := fun e => hk e.symm
  unfold expectedBuf
  congr 1
  · apply List.map_congr_left
    intro i _
    rw [scoreSum_append]
    simp [hne]
  · apply List.map_congr_left
    intro i _
    have : touches (ts ++ [x]) k i ↔ touches ts k i := by
      rw [touches_append]
      exact ⟨fun h => h.elim id (fun h2 => absurd h2.1 hne), Or.inl⟩
    simp only [this]

theorem addTweet_spec (n : Nat) (ts : List (String × Tweet)) (x : String × Tweet)
    (m : List (String × Buffers)) (hinv : MapInv n ts m)
    (hx : ∀ i ∈ x.2.cryptoIndexes, i < n) :
    ∃ m1, addTweet n m x.2 = some m1 ∧ MapInv n (ts ++ [x]) m1 := by
  obtain ⟨hnd, hfind⟩ := hinv
  -- the map after the subject is registered
  have hm1 : ∃ m0 : List (String × Buffers),
      (if m.all (fun e => e.1 != x.2.userId) then
          m ++ [(x.2.userId, (List.replicate n (0 : ℚ), List.replicate n (0 : Nat)))]
        else m) = m0 ∧
      (m0.map Prod.fst).Nodup ∧ findBuf m0 x.2.userId = some (expectedBuf n ts x.2.userId) ∧
      ∀ k, k ≠ x.2.userId → findBuf m0 k = findBuf m k := by
    by_cases hs : hasSubject ts x.2.userId
    · have hf : findBuf m x.2.userId = some (expectedBuf n ts x.2.userId) := by
        rw [hfind, if_pos hs]
      have hall : ¬ (m.all (fun e => e.1 != x.2.userId) = true) := by
        rw [all_ne_iff_findBuf, hf]; simp
      exact ⟨m, by simp [hall], hnd, hf, fun _ _ => rfl⟩
    · have hf : findBuf m x.2.userId = none := by rw [hfind, if_neg hs]
      have hall : m.all (fun e => e.1 != x.2.userId) = true := by
        rw [all_ne_iff_findBuf, hf]
      refine ⟨m ++ [(x.2.userId, (List.replicate n (0 : ℚ), List.replicate n (0 : Nat)))],
        by simp [hall], ?_, ?_, ?_⟩
      · rw [List.map_append, List.nodup_append]
        refine ⟨hnd, by simp, ?_⟩
        intro a ha hb
        simp only [List.map_cons, List.map_nil, List.mem_singleton] at hb
        subst hb
        exact (findBuf_none_iff _ m).mp hf ha
      · rw [findBuf_append_new, hf, expectedBuf_new n ts _ hs]
        simp
      · intro k hk
        rw [findBuf_append_new]
        cases findBuf m k with
        | none => simp [Ne.symm hk]
        | some b => rfl
  obtain ⟨m0, hm0, hnd0, hf0, hother0⟩ := hm1
  have hacc := accLoop_spec x.2.sentimentScore n x.2.cryptoIndexes
    (expectedBuf n ts x.2.userId) (by simp [expectedBuf]) (by simp [expectedBuf]) hx
  rw [expectedBuf_step_same] at hacc
  obtain ⟨m1, h1, h2, h3, h4⟩ := touchLoop_spec x.2.userId x.2.sentimentScore
    x.2.cryptoIndexes m0 _ _ hf0 hacc
  refine ⟨m1, ?_, by rw [h4]; exact hnd0, ?_⟩
  · unfold addTweet
    simp only [hm0]
    exact h1
  · intro k
    by_cases hk : k = x.2.userId
    · subst hk
      have : hasSubject (ts ++ [x]) x.2.userId := (hasSubject_append ts x _).mpr (Or.inr rfl)
      rw [h2, if_pos this]
    · rw [h3 k hk, hother0 k hk, hfind k, expectedBuf_step_other n ts x k hk]
      have : hasSubject (ts ++ [x]) k ↔ hasSubject ts k := by
        rw [hasSubject_append]
        exact ⟨fun h => h.elim id (fun h2 => absurd h2.symm hk), Or.inl⟩
      by_cases hs : hasSubject ts k
      · rw [if_pos hs, if_pos (this.mpr hs)]
      · rw [if_neg hs, if_neg (fun h => hs (this.mp h))]

theorem tweetsLoop_spec (n : Nat) :
    ∀ (ts : List (String × Tweet)), IndexesInRange n ts →
      ∃ m, ts.foldlM (fun m t => addTweet n m t.2) [] = some m ∧ MapInv n ts m := by
  intro ts
  induction ts using List.reverseRecOn with
  | nil =>
    intro _
    refine ⟨[], rfl, by simp, ?_⟩
    intro u
    have : ¬ hasSubject [] u := by rintro ⟨t, ht, _⟩; simp at ht
    simp [findBuf, this]
  | append_singleton l a ih =>
    intro hr
    obtain ⟨m, hm, hinv⟩ := ih (fun t ht => hr t (List.mem_append_left _ ht))
    obtain ⟨m1, h1, h2⟩ := addTweet_spec n l a m hinv
      (hr a (List.mem_append_right _ (List.mem_singleton_self a)))
    refine ⟨m1, ?_, h2⟩
    rw [List.foldlM_append, hm]
    simp only [Option.bind_eq_bind, Option.some_bind, List.foldlM_cons, List.foldlM_nil, h1]
    rfl

theorem findBuf_mem (u : String) (b : Buffers) :
    ∀ (m : List (String × Buffers)), findBuf m u = some b → (u, b) ∈ m := by
  intro m
  induction m with
  | nil => intro h; simp [findBuf] at h
  | cons e rest ih =>
    intro h
    obtain ⟨k0, b0⟩ := e
    by_cases hk : k0 = u
    · simp only [findBuf, hk, if_true, Option.some.injEq] at h
      subst h; subst hk
      exact List.mem_cons_self _ _
    · simp only [findBuf, hk, if_false] at h
      exact List.mem_cons_of_mem _ (ih h)

theorem buildVector_some (id : String) (buf : Buffers) (n : Nat) (v : CustVector)
    (h1 : buf.1.length = n) (h2 : buf.2.length = n)
    (hv : buildVector id buf = some (some v)) :
    (scanResult buf.1 buf.2 n).useless = false ∧ v.id = id ∧ v.dimensions.length = n ∧
      v.unknownIndexes = (scanResult buf.1 buf.2 n).unknown_indexes ∧
      v.knownMean = (scanResult buf.1 buf.2 n).sum
        / ((scanResult buf.1 buf.2 n).known_number : ℚ) ∧
      ∀ j, v.dimensions[j]? = if j ∈ v.unknownIndexes then some v.knownMean else buf.1[j]? := by
  obtain ⟨r, hr, hnone, hsome⟩ := buildVector_spec id buf n h1 h2
  rw [hr] at hv
  have hrv : r = some v := Option.some.inj hv
  have hu : (scanResult buf.1 buf.2 n).useless = false := by
    cases h : (scanResult buf.1 buf.2 n).useless
    · rfl
    · rw [hnone h] at hrv; cases hrv
  obtain ⟨dims, hd1, hd2, hd3⟩ := hsome hu
  rw [hd1] at hrv
  have hv2 := (Option.some.inj hrv).symm
  subst hv2
  exact ⟨hu, rfl, hd2, rfl, rfl, hd3⟩

theorem buildVector_id (id : String) (buf : Buffers) (v : CustVector)
    (hv : buildVector id buf = some (some v)) : v.id = id := by
  unfold buildVector at hv
  cases hscan : (List.range buf.1.length).foldlM (scanStep buf.1 buf.2) ⟨0, 0, [], true⟩ with
  | none => rw [hscan] at hv; simp at hv
  | some st =>
    rw [hscan] at hv
    simp only [Option.bind_eq_bind, Option.some_bind] at hv
    by_cases hu : st.useless = true
    · simp [hu] at hv
    · simp only [hu, Bool.not_false, if_true] at hv
      cases hd : st.unknown_indexes.foldlM
          (fun d index => writeAt d index (st.sum / (st.known_number : ℚ))) buf.1 with
      | none => simp [hd] at hv
      | some dims =>
        simp [hd] at hv
        rw [← hv]
        rfl

theorem buildVector_total (id : String) (buf : Buffers) (n : Nat)
    (h1 : buf.1.length = n) (h2 : buf.2.length = n) :
    (∃ r, buildVector id buf = some r) ∧
      ((scanResult buf.1 buf.2 n).useless = false → ∃ v, buildVector id buf = some (some v)) := by
  obtain ⟨r, hr, _, hsome⟩ := buildVector_spec id buf n h1 h2
  refine ⟨⟨r, hr⟩, fun hu => ?_⟩
  obtain ⟨dims, hd1, _, _⟩ := hsome hu
  exact ⟨_, by rw [hr, hd1]⟩

theorem filterMap_map_sublist {α β γ : Type} (g : α → Option β) (h : β → γ) (f : α → γ)
    (hg : ∀ e v, g e = some v → h v = f e) :
    ∀ (m : List α), List.Sublist ((m.filterMap g).map h) (m.map f) := by
  intro m
  induction m with
  | nil => simp
  | cons e rest ih =>
    cases hge : g e with
    | none =>
      rw [List.filterMap_cons_none hge, List.map_cons]
      exact List.Sublist.cons _ ih
    | some v =>
      rw [List.filterMap_cons_some hge, List.map_cons, List.map_cons, hg e v hge]
      exact List.Sublist.cons₂ _ ih

theorem tweets_out_spec (n : Nat) (tweets : List (String × Tweet))
    (hr : IndexesInRange n tweets) :
    ∃ out, tweets_to_user_vectors tweets n = some out ∧
      (out.map CustVector.id).Nodup ∧
      ∀ v, v ∈ out ↔
        ∃ u, hasSubject tweets u ∧ buildVector u (expectedBuf n tweets u) = some (some v) := by
  obtain ⟨m, hm, hnd, hfind⟩ := tweetsLoop_spec n tweets hr
  have hentry : ∀ e ∈ m, hasSubject tweets e.1 ∧ e.2 = expectedBuf n tweets e.1 := by
    intro e he
    have h1 := findBuf_of_mem e.1 e.2 m hnd he
    rw [hfind e.1] at h1
    by_cases hs : hasSubject tweets e.1
    · rw [if_pos hs] at h1
      exact ⟨hs, (Option.some.inj h1).symm⟩
    · rw [if_neg hs] at h1; cases h1
  have htotal : ∀ e ∈ m, ∃ r, buildVector e.1 e.2 = some r := by
    intro e he
    rw [(hentry e he).2]
    exact (buildVector_total e.1 _ n (by simp [expectedBuf]) (by simp [expectedBuf])).1
  refine ⟨m.filterMap (fun e => (buildVector e.1 e.2).join), ?_, ?_, ?_⟩
  · unfold tweets_to_user_vectors
    rw [hm]
    simp only [Option.bind_eq_bind, Option.some_bind, buildVectors]
    rw [buildVectors_eq m [] htotal]
    rfl
  · refine List.Nodup.sublist (filterMap_map_sublist _ CustVector.id Prod.fst ?_ m) hnd
    intro e v hev
    rw [Option.join_eq_some] at hev
    exact buildVector_id e.1 e.2 v hev
  · intro v
    rw [List.mem_filterMap]
    constructor
    · rintro ⟨e, he, hev⟩
      rw [Option.join_eq_some] at hev
      obtain ⟨hs, hb⟩ := hentry e he
      exact ⟨e.1, hs, by rw [← hb]; exact hev⟩
    · rintro ⟨u, hs, hv⟩
      have hf : findBuf m u = some (expectedBuf n tweets u) := by rw [hfind u, if_pos hs]
      exact ⟨(u, expectedBuf n tweets u), findBuf_mem u _ m hf, by
        rw [Option.join_eq_some]; exact hv⟩

theorem mem_unknown_scan (sc : List ℚ) (kn : List Nat) (n i : Nat) :
    i ∈ (scanResult sc kn n).unknown_indexes ↔ i < n ∧ kn.getD i 0 = 0 := by
  simp [scanResult, List.mem_filter]

theorem buildVector_mean (id : String) (buf : Buffers) (n : Nat) (v : CustVector)
    (h1 : buf.1.length = n) (h2 : buf.2.length = n)
    (hv : buildVector id buf = some (some v)) :
    v.knownMean = ((knownIndexes v).map (fun i => v.dimensions.getD i 0)).sum
      / ((knownIndexes v).length : ℚ) := by
  obtain ⟨_, _, hlen, hunk, hmean, hdims⟩ := buildVector_some id buf n v h1 h2 hv
  have hk : knownIndexes v = (List.range n).filter (fun i => buf.2.getD i 0 ≠ 0) := by
    unfold knownIndexes
    rw [hlen]
    apply List.filter_congr
    intro i hi
    have hi2 : i < n := List.mem_range.mp hi
    rw [hunk]
    have := mem_unknown_scan buf.1 buf.2 n i
    by_cases h0 : buf.2.getD i 0 = 0
    · have hm : i ∈ (scanResult buf.1 buf.2 n).unknown_indexes := this.mpr ⟨hi2, h0⟩
      rw [decide_eq_decide]
      exact ⟨fun h => absurd hm h, fun h => absurd h0 h⟩
    · have hm : i ∉ (scanResult buf.1 buf.2 n).unknown_indexes := fun h => h0 (this.mp h).2
      rw [decide_eq_decide]
      exact ⟨fun _ => h0, fun _ => hm⟩
  have hmap : (knownIndexes v).map (fun i => v.dimensions.getD i 0)
      = ((List.range n).filter (fun i => buf.2.getD i 0 ≠ 0)).map (fun i => buf.1.getD i 0) := by
    rw [hk]
    apply List.map_congr_left
    intro i hi
    have hi3 : i ∉ v.unknownIndexes := by
      rw [hunk, mem_unknown_scan]
      intro h
      exact absurd h.2 (of_decide_eq_true (List.mem_filter.mp hi).2)
    simp only [List.getD_eq_getElem?_getD, hdims i, hi3, if_false]
  rw [hmap, hk, hmean]
  rfl

theorem buildVector_wf (id : String) (buf : Buffers) (n : Nat) (v : CustVector)
    (h1 : buf.1.length = n) (h2 : buf.2.length = n)
    (hv : buildVector id buf = some (some v)) :
    v.dimensions.length = n ∧ (∀ i ∈ v.unknownIndexes, i < n) ∧
      ∀ i ∈ v.unknownIndexes, v.dimensions[i]? = some v.knownMean := by
  obtain ⟨_, _, hlen, hunk, _, hdims⟩ := buildVector_some id buf n v h1 h2 hv
  refine ⟨hlen, ?_, ?_⟩
  · intro i hi
    rw [hunk, mem_unknown_scan] at hi
    exact hi.1
  · intro i hi
    rw [hdims i, if_pos hi]

theorem scoreSum_nonneg (ts : List (String × Tweet)) (u : String) (i : Nat) :
    0 ≤ scoreSum ts u i := by
  unfold scoreSum
  apply List.sum_nonneg
  intro x hx
  obtain ⟨t, _, rfl⟩ := List.mem_map.mp hx
  by_cases h : t.2.userId = u ∧ t.2.sentimentScore > 0
  · rw [if_pos h]
    exact mul_nonneg (Nat.cast_nonneg _) (le_of_lt h.2)
  · rw [if_neg h]

theorem scoreSum_ne_zero_iff (ts : List (String × Tweet)) (u : String) (i : Nat) :
    scoreSum ts u i ≠ 0 ↔
      ∃ t ∈ ts, t.2.userId = u ∧ t.2.sentimentScore > 0 ∧ i ∈ t.2.cryptoIndexes := by
  constructor
  · intro h
    by_contra hne
    apply h
    unfold scoreSum
    apply List.sum_eq_zero
    intro x hx
    obtain ⟨t, ht, rfl⟩ := List.mem_map.mp hx
    by_cases hc : t.2.userId = u ∧ t.2.sentimentScore > 0
    · rw [if_pos hc]
      have hni : i ∉ t.2.cryptoIndexes := fun hi => hne ⟨t, ht, hc.1, hc.2, hi⟩
      rw [List.count_eq_zero_of_not_mem hni]
      simp
    · rw [if_neg hc]
  · rintro ⟨t, ht, h1, h2, h3⟩
    have hterm : (0 : ℚ) < (t.2.cryptoIndexes.count i : ℚ) * t.2.sentimentScore :=
      mul_pos (Nat.cast_pos.mpr (List.count_pos_iff.mpr h3)) h2
    have hle : (t.2.cryptoIndexes.count i : ℚ) * t.2.sentimentScore ≤ scoreSum ts u i := by
      unfold scoreSum
      apply List.single_le_sum
      · intro x hx
        obtain ⟨t1, _, rfl⟩ := List.mem_map.mp hx
        by_cases h : t1.2.userId = u ∧ t1.2.sentimentScore > 0
        · rw [if_pos h]
          exact mul_nonneg (Nat.cast_nonneg _) (le_of_lt h.2)
        · rw [if_neg h]
      · apply List.mem_map.mpr
        exact ⟨t, ht, by rw [if_pos ⟨h1, h2⟩]⟩
    exact ne_of_gt (lt_of_lt_of_le hterm hle)

theorem useless_expectedBuf (n : Nat) (ts : List (String × Tweet)) (u : String) :
    (scanResult (expectedBuf n ts u).1 (expectedBuf n ts u).2 n).useless = false ↔
      ∃ i, i < n ∧ scoreSum ts u i ≠ 0 := by
  have hall : (scanResult (expectedBuf n ts u).1 (expectedBuf n ts u).2 n).useless = true ↔
      ∀ i, i < n → scoreSum ts u i = 0 := by
    simp only [scanResult, List.all_eq_true, List.mem_range, decide_eq_true_eq]
    constructor
    · intro h i hi
      rw [← expectedBuf_fst_getD n ts u i hi]
      exact h i hi
    · intro h i hi
      rw [expectedBuf_fst_getD n ts u i hi]
      exact h i hi
  constructor
  · intro hf
    by_contra hne
    have : (scanResult (expectedBuf n ts u).1 (expectedBuf n ts u).2 n).useless = true :=
      hall.mpr (fun i hi => by
        by_contra h0
        exact hne ⟨i, hi, h0⟩)
    rw [hf] at this
    cases this
  · rintro ⟨i, hi, h0⟩
    cases h : (scanResult (expectedBuf n ts u).1 (expectedBuf n ts u).2 n).useless
    · rfl
    · exact absurd (hall.mp h i hi) h0

theorem built_vector_facts (n : Nat) (tweets : List (String × Tweet)) (u : String)
    (v : CustVector) (hb : buildVector u (expectedBuf n tweets u) = some (some v)) :
    v.id = u ∧
      (∀ i, i < n → (i ∈ v.unknownIndexes ↔ ¬ touches tweets u i)) ∧
      (∀ i, i < n → i ∉ v.unknownIndexes → v.dimensions[i]? = some (scoreSum tweets u i)) ∧
      (∃ i, i < n ∧ scoreSum tweets u i ≠ 0) := by
  have hl1 : (expectedBuf n tweets u).1.length = n := by simp [expectedBuf]
  have hl2 : (expectedBuf n tweets u).2.length = n := by simp [expectedBuf]
  obtain ⟨hu, hid, hlen, hunk, _, hdims⟩ := buildVector_some u _ n v hl1 hl2 hb
  refine ⟨hid, ?_, ?_, (useless_expectedBuf n tweets u).mp hu⟩
  · intro i hi
    rw [hunk, mem_unknown_scan, expectedBuf_snd_getD n tweets u i hi]
    by_cases ht : touches tweets u i
    · simp [ht]
    · simp [ht, hi]
  · intro i hi hnot
    rw [hdims i, if_neg hnot]
    simp [expectedBuf, getElem?_tab, hi]

/-- C4 (amended): for a signal collection whose catalog indexes lie in `[0, n)`,
`tweets_to_user_vectors` returns, and for every vector `v` it returns: an index `i < n`
is in `unknownIndexes` iff no signal of the subject touches `i`; at every known index
the dimension is the sum, over the signals of the subject with a positive sentiment
score, of the score once for every occurrence of `i` in the signal's index list; and
`knownMean` is the sum of the known entries divided by the number of known indexes.
When no signal lists an index twice, that sum is the sum over the signals touching
`i`. -/
theorem tweets_to_user_vectors_aggregates (n : Nat) (tweets : List (String × Tweet))
    (hr : IndexesInRange n tweets) :
    (∃ out, tweets_to_user_vectors tweets n = some out ∧ ∀ v ∈ out,
      (∀ i, i < n → (i ∈ v.unknownIndexes ↔ ¬ touches tweets v.id i)) ∧
      (∀ i, i < n → i ∉ v.unknownIndexes →
        v.dimensions[i]? = some (scoreSum tweets v.id i)) ∧
      v.knownMean = ((knownIndexes v).map (fun i => v.dimensions.getD i 0)).sum
        / ((knownIndexes v).length : ℚ)) ∧
    ((∀ t ∈ tweets, t.2.cryptoIndexes.Nodup) →
      ∀ s i, scoreSum tweets s i = signalSum tweets s i) := by
  constructor
  · obtain ⟨out, hout, _, hmem⟩ := tweets_out_spec n tweets hr
    refine ⟨out, hout, ?_⟩
    intro v hv
    obtain ⟨u, _, hb⟩ := (hmem v).mp hv
    obtain ⟨hid, hunk, hdims, _⟩ := built_vector_facts n tweets u v hb
    rw [hid]
    exact ⟨hunk, hdims, buildVector_mean u _ n v (by simp [expectedBuf])
      (by simp [expectedBuf]) hb⟩
  · intro hnd s i
    unfold scoreSum signalSum
    congr 1
    apply List.map_congr_left
    intro t ht
    by_cases hmem : i ∈ t.2.cryptoIndexes
    · rw [List.count_eq_one_of_mem (hnd t ht) hmem]
      simp [hmem]
    · rw [List.count_eq_zero_of_not_mem hmem]
      simp [hmem]

theorem aliceTweets_eval :
    tweets_to_user_vectors aliceTweets 3
      = some [CustVector.new "alice" [1/2, 0, 1/4] [2] (1/4)] := by
  have r3 : List.range 3 = [0, 1, 2] := by decide
  norm_num [tweets_to_user_vectors, aliceTweets, addTweet, touchIndex, mapUpdate, accumulate,
    writeAt, buildVectors, List.replicate, collectVector, buildVector, scanStep, r3,
    CustVector.new]

theorem dupTweets_eval :
    tweets_to_user_vectors dupTweets 1 = some [CustVector.new "bob" [1] [] 1] := by
  have r1 : List.range 1 = [0] := by decide
  norm_num [tweets_to_user_vectors, dupTweets, addTweet, touchIndex, mapUpdate, accumulate,
    writeAt, buildVectors, List.replicate, collectVector, buildVector, scanStep, r1,
    CustVector.new]

/-- The scenario of the specification: catalog size 3, "alice" with the signals
`([0], 0.5)` and `([1], -0.2)` yields dimensions `[0.5, 0, 0.25]`, known mean `0.25` and
unknown indexes `{2}`. -/
theorem tweets_to_user_vectors_aggregates_witness :
    IndexesInRange 3 aliceTweets ∧
    tweets_to_user_vectors aliceTweets 3
      = some [CustVector.new "alice" [1/2, 0, 1/4] [2] (1/4)] ∧
    ∃ out, tweets_to_user_vectors aliceTweets 3 = some out ∧ ∀ v ∈ out,
      (∀ i, i < 3 → (i ∈ v.unknownIndexes ↔ ¬ touches aliceTweets v.id i)) ∧
      (∀ i, i < 3 → i ∉ v.unknownIndexes →
        v.dimensions[i]? = some (scoreSum aliceTweets v.id i)) ∧
      v.knownMean = ((knownIndexes v).map (fun i => v.dimensions.getD i 0)).sum
        / ((knownIndexes v).length : ℚ) :=
  ⟨by simp [IndexesInRange, aliceTweets], aliceTweets_eval,
    (tweets_to_user_vectors_aggregates 3 aliceTweets
      (by simp [IndexesInRange, aliceTweets])).1⟩

/-- C4 (counterexample to the claim as stated): a signal lists index `0` twice with
score `1/2`; the vector built holds `1` at
index `0`, while the sum over the signals touching the index is `1/2`. -/
theorem tweets_to_user_vectors_signalSum_counterexample :
    IndexesInRange 1 dupTweets ∧
    ∃ out, tweets_to_user_vectors dupTweets 1 = some out ∧
      ¬ (∀ v ∈ out, ∀ i, i < 1 → i ∉ v.unknownIndexes →
          v.dimensions[i]? = some (signalSum dupTweets v.id i)) := by
  refine ⟨by simp [IndexesInRange, dupTweets], _, dupTweets_eval, ?_⟩
  intro h
  have h0 := h (CustVector.new "bob" [1] [] 1) (List.mem_singleton_self _) 0 (by decide)
    (by simp [CustVector.new])
  norm_num [CustVector.new, signalSum, dupTweets] at h0

theorem filter_id_length (s : String) :
    ∀ (l : List CustVector),
      (l.filter (fun v => v.id = s)).length = (l.map CustVector.id).count s := by
  intro l
  induction l with
  | nil => rfl
  | cons w rest ih =>
    by_cases h : w.id = s
    · simp [List.filter_cons, h, ih]
    · have h2 : ¬ ((w.id == s) = true) := by simp [h]
      simp [List.filter_cons, h, List.count_cons, h2, ih]

/-- C6: for a signal collection whose catalog indexes lie in `[0, n)`,
`tweets_to_user_vectors` returns, and for every subject id `s` the output holds a vector
with id `s` iff some signal of `s` has a positive sentiment score and a non-empty index
list; in that case it holds exactly one; and every output vector has a known index with
a non-zero value, so no vector whose aggregated dimensions are all zero is emitted. -/
theorem tweets_to_user_vectors_emits_iff (n : Nat) (tweets : List (String × Tweet))
    (hr : IndexesInRange n tweets) :
    ∃ out, tweets_to_user_vectors tweets n = some out ∧
      (∀ s, (∃ v ∈ out, v.id = s) ↔
        ∃ t ∈ tweets, t.2.userId = s ∧ t.2.sentimentScore > 0 ∧ t.2.cryptoIndexes ≠ []) ∧
      (∀ s, (∃ v ∈ out, v.id = s) → (out.filter (fun v => v.id = s)).length = 1) ∧
      (∀ v ∈ out, ∃ i x, i ∉ v.unknownIndexes ∧ v.dimensions[i]? = some x ∧ x ≠ 0) := by
  obtain ⟨out, hout, hnd, hmem⟩ := tweets_out_spec n tweets hr
  refine ⟨out, hout, ?_, ?_, ?_⟩
  · intro s
    constructor
    · rintro ⟨v, hv, hvs⟩
      obtain ⟨u, _, hb⟩ := (hmem v).mp hv
      obtain ⟨hid, _, _, i, _, hne⟩ := built_vector_facts n tweets u v hb
      obtain ⟨t, ht, h1, h2, h3⟩ := (scoreSum_ne_zero_iff tweets u i).mp hne
      refine ⟨t, ht, by rw [h1, ← hid, hvs], h2, ?_⟩
      intro hnil
      rw [hnil] at h3
      simp at h3
    · rintro ⟨t, ht, h1, h2, h3⟩
      obtain ⟨i, hi⟩ := List.exists_mem_of_ne_nil _ h3
      have hin : i < n := hr t ht i hi
      have hne : scoreSum tweets s i ≠ 0 :=
        (scoreSum_ne_zero_iff tweets s i).mpr ⟨t, ht, h1, h2, hi⟩
      have hu := (useless_expectedBuf n tweets s).mpr ⟨i, hin, hne⟩
      obtain ⟨v, hb⟩ := (buildVector_total s (expectedBuf n tweets s) n
        (by simp [expectedBuf]) (by simp [expectedBuf])).2 hu
      exact ⟨v, (hmem v).mpr ⟨s, ⟨t, ht, h1⟩, hb⟩, buildVector_id s _ v hb⟩
  · rintro s ⟨v, hv, hvs⟩
    have hcount : (out.map CustVector.id).count s = 1 :=
      List.count_eq_one_of_mem hnd (List.mem_map.mpr ⟨v, hv, hvs⟩)
    rw [← hcount]
    exact filter_id_length s out
  · intro v hv
    obtain ⟨u, _, hb⟩ := (hmem v).mp hv
    obtain ⟨_, hunk, hdims, i, hi, hne⟩ := built_vector_facts n tweets u v hb
    obtain ⟨t, ht, h1, _, h3⟩ := (scoreSum_ne_zero_iff tweets u i).mp hne
    have hknown : i ∉ v.unknownIndexes := fun h => (hunk i hi).mp h ⟨t, ht, h1, h3⟩
    exact ⟨i, scoreSum tweets u i, hknown, hdims i hi hknown, hne⟩

theorem tweets_to_user_vectors_emits_iff_witness :
    IndexesInRange 3 aliceTweets ∧
    ∃ out, tweets_to_user_vectors aliceTweets 3 = some out ∧
      (∀ s, (∃ v ∈ out, v.id = s) ↔
        ∃ t ∈ aliceTweets, t.2.userId = s ∧ t.2.sentimentScore > 0 ∧ t.2.cryptoIndexes ≠ []) ∧
      (∀ s, (∃ v ∈ out, v.id = s) → (out.filter (fun v => v.id = s)).length = 1) ∧
      (∀ v ∈ out, ∃ i x, i ∉ v.unknownIndexes ∧ v.dimensions[i]? = some x ∧ x ≠ 0) :=
  ⟨by simp [IndexesInRange, aliceTweets],
    tweets_to_user_vectors_emits_iff 3 aliceTweets (by simp [IndexesInRange, aliceTweets])⟩

theorem tweetAt_mem (id : String) (t : Tweet) :
    ∀ (tweets : List (String × Tweet)), tweetAt tweets id = some t → (id, t) ∈ tweets := by
  intro tweets
  induction tweets with
  | nil => intro h; simp [tweetAt] at h
  | cons e rest ih =>
    intro h
    obtain ⟨k0, t0⟩ := e
    by_cases hk : k0 = id
    · simp only [tweetAt, hk, if_true, Option.some.injEq] at h
      subst h; subst hk
      exact List.mem_cons_self _ _
    · simp only [tweetAt, hk, if_false] at h
      exact List.mem_cons_of_mem _ (ih h)

theorem clusterLoop_len (n : Nat) (c : Int) (score : ℚ) (hc : 0 ≤ c) :
    ∀ (idxs : List Nat) (bufs : List Buffers), AllLen n bufs → (∀ i ∈ idxs, i < n) →
      c.toNat < bufs.length →
      ∃ bufs1, idxs.foldlM (touchCluster c score) bufs = some bufs1 ∧ AllLen n bufs1 ∧
        bufs1.length = bufs.length := by
  intro idxs
  induction idxs with
  | nil => intro bufs h _ _; exact ⟨bufs, rfl, h, rfl⟩
  | cons a rest ih =>
    intro bufs hall hidx hlt
    have ha : a < n := hidx a (List.mem_cons_self _ _)
    have hb := hall bufs[c.toNat] (List.getElem_mem hlt)
    have hacc := accumulate_eq score bufs[c.toNat] a n hb.1 hb.2 ha
    have hstep : touchCluster c score bufs a = some (bufs.set c.toNat
        (if score > 0 then bufs[c.toNat].1.set a (bufs[c.toNat].1.getD a 0 + score)
          else bufs[c.toNat].1, bufs[c.toNat].2.set a 1)) := by
      simp only [touchCluster, clusterUpdate, hc, if_true, List.getElem?_eq_getElem hlt, hacc,
        Option.map_some']
    have hall1 : AllLen n (bufs.set c.toNat
        (if score > 0 then bufs[c.toNat].1.set a (bufs[c.toNat].1.getD a 0 + score)
          else bufs[c.toNat].1, bufs[c.toNat].2.set a 1)) := by
      intro b hbm
      rcases List.mem_or_eq_of_mem_set hbm with h | h
      · exact hall b h
      · subst h
        constructor
        · split <;> simp [hb.1]
        · simp [hb.2]
    obtain ⟨bufs1, h1, h2, h3⟩ := ih _ hall1
      (fun i hi => hidx i (List.mem_cons_of_mem _ hi)) (by simpa using hlt)
    refine ⟨bufs1, ?_, h2, by rw [h3]; simp⟩
    rw [List.foldlM_cons, hstep]
    exact h1

theorem vectorsLoop_len (n user_num : Nat) (tweets : List (String × Tweet))
    (hr : IndexesInRange n tweets) :
    ∀ (vectors : List CustVector) (bufs : List Buffers), AllLen n bufs →
      bufs.length = user_num → ClustersInRange user_num vectors →
      ∃ bufs1, vectors.foldlM (addVector tweets) bufs = some bufs1 ∧ AllLen n bufs1 ∧
        bufs1.length = user_num := by
  intro vectors
  induction vectors with
  | nil => intro bufs h hl _; exact ⟨bufs, rfl, h, hl⟩
  | cons vec rest ih =>
    intro bufs hall hl hcl
    have hrest : ClustersInRange user_num rest :=
      fun w hw => hcl w (List.mem_cons_of_mem _ hw)
    have hvec := hcl vec (List.mem_cons_self _ _)
    have hstep : ∃ bufs1, addVector tweets bufs vec = some bufs1 ∧ AllLen n bufs1 ∧
        bufs1.length = user_num := by
      unfold addVector
      cases ht : tweetAt tweets vec.id with
      | none => exact ⟨bufs, rfl, hall, hl⟩
      | some t =>
        obtain ⟨bufs1, h1, h2, h3⟩ := clusterLoop_len n vec.cluster t.sentimentScore hvec.1
          t.cryptoIndexes bufs hall (hr (vec.id, t) (tweetAt_mem vec.id t tweets ht))
          (by omega)
        exact ⟨bufs1, h1, h2, by rw [h3, hl]⟩
    obtain ⟨bufs1, h1, h2, h3⟩ := hstep
    obtain ⟨bufs2, g1, g2, g3⟩ := ih bufs1 h2 h3 hrest
    refine ⟨bufs2, ?_, g2, g3⟩
    rw [List.foldlM_cons, h1]
    exact g1

theorem collectClusters_eq (bufs : List Buffers) :
    ∀ (l : List Nat) (acc : List CustVector),
      (∀ i ∈ l, ∃ b, bufs[i]? = some b ∧ ∃ r, buildVector (toString i) b = some r) →
      l.foldlM (collectCluster bufs) acc
        = some (acc ++ l.filterMap
            (fun i => (bufs[i]?.bind (fun b => buildVector (toString i) b)).join)) := by
  intro l
  induction l with
  | nil => intro acc _; simp
  | cons i rest ih =>
    intro acc h
    obtain ⟨b, hb, r, hr⟩ := h i (List.mem_cons_self _ _)
    rw [List.foldlM_cons]
    cases r with
    | none =>
      have hstep : collectCluster bufs acc i = some acc := by simp [collectCluster, hb, hr]
      rw [hstep]
      simp only [Option.bind_eq_bind, Option.some_bind]
      rw [ih _ (fun e1 h1 => h e1 (List.mem_cons_of_mem _ h1))]
      simp [List.filterMap_cons, hb, hr]
    | some v =>
      have hstep : collectCluster bufs acc i = some (acc ++ [v]) := by
        simp [collectCluster, hb, hr]
      rw [hstep]
      simp only [Option.bind_eq_bind, Option.some_bind]
      rw [ih _ (fun e1 h1 => h e1 (List.mem_cons_of_mem _ h1))]
      simp [List.filterMap_cons, hb, hr]

theorem clusters_out_spec (n user_num : Nat) (tweets : List (String × Tweet))
    (vectors : List CustVector) (hr : IndexesInRange n tweets)
    (hcl : ClustersInRange user_num vectors) :
    ∃ bufs out, AllLen n bufs ∧ bufs.length = user_num ∧
      vectors.foldlM (addVector tweets)
        (List.replicate user_num (List.replicate n (0 : ℚ), List.replicate n (0 : Nat)))
        = some bufs ∧
      clusters_to_user_vectors tweets vectors n user_num = some out ∧
      out = (List.range user_num).filterMap
        (fun i => (bufs[i]?.bind (fun b => buildVector (toString i) b)).join) := by
  have hinit : AllLen n
      (List.replicate user_num (List.replicate n (0 : ℚ), List.replicate n (0 : Nat))) := by
    intro b hb
    rw [List.eq_of_mem_replicate hb]
    simp
  obtain ⟨bufs, h1, h2, h3⟩ := vectorsLoop_len n user_num tweets hr vectors _ hinit
    (by simp) hcl
  refine ⟨bufs, _, h2, h3, h1, ?_, rfl⟩
  unfold clusters_to_user_vectors
  simp only [h1, Option.bind_eq_bind, Option.some_bind, h3]
  rw [collectClusters_eq bufs (List.range user_num) []]
  · rfl
  · intro i hi
    have hi2 : i < bufs.length := by rw [h3]; exact List.mem_range.mp hi
    have hb := h2 bufs[i] (List.getElem_mem hi2)
    exact ⟨bufs[i], List.getElem?_eq_getElem hi2,
      (buildVector_total (toString i) bufs[i] n hb.1 hb.2).1⟩

/-- C5: for signals whose catalog indexes lie in `[0, n)` (and, in cluster mode, input
vectors assigned to clusters in `[0, user_num)`), `tweets_to_user_vectors` and
`clusters_to_user_vectors` return, and every vector they return has exactly `n`
dimensions, unknown indexes inside `[0, n)`, and its known mean stored at every unknown
index. -/
theorem user_vectors_imputed (n user_num : Nat) (tweets : List (String × Tweet))
    (vectors : List CustVector) (hr : IndexesInRange n tweets)
    (hcl : ClustersInRange user_num vectors) :
    (∃ out, tweets_to_user_vectors tweets n = some out ∧ ∀ v ∈ out, Imputed n v) ∧
    (∃ out, clusters_to_user_vectors tweets vectors n user_num = some out ∧
      ∀ v ∈ out, Imputed n v) := by
  constructor
  · obtain ⟨out, hout, _, hmem⟩ := tweets_out_spec n tweets hr
    refine ⟨out, hout, ?_⟩
    intro v hv
    obtain ⟨u, _, hb⟩ := (hmem v).mp hv
    obtain ⟨h1, h2, h3⟩ := buildVector_wf u _ n v (by simp [expectedBuf])
      (by simp [expectedBuf]) hb
    exact ⟨⟨h1, h2⟩, h3⟩
  · obtain ⟨bufs, out, hall, _, _, hout, hdef⟩ := clusters_out_spec n user_num tweets vectors
      hr hcl
    refine ⟨out, hout, ?_⟩
    intro v hv
    rw [hdef, List.mem_filterMap] at hv
    obtain ⟨i, _, hiv⟩ := hv
    rw [Option.join_eq_some] at hiv
    cases hb : bufs[i]? with
    | none => rw [hb] at hiv; simp at hiv
    | some b =>
      rw [hb] at hiv
      simp only [Option.some_bind] at hiv
      have hlen := hall b (List.getElem?_mem hb)
      obtain ⟨h1, h2, h3⟩ := buildVector_wf (toString i) b n v hlen.1 hlen.2 hiv
      exact ⟨⟨h1, h2⟩, h3⟩

theorem user_vectors_imputed_witness :
    IndexesInRange 3 aliceTweets ∧ ClustersInRange 2 aliceVectors ∧
    (∃ out, tweets_to_user_vectors aliceTweets 3 = some out ∧ ∀ v ∈ out, Imputed 3 v) ∧
    (∃ out, clusters_to_user_vectors aliceTweets aliceVectors 3 2 = some out ∧
      ∀ v ∈ out, Imputed 3 v) :=
  ⟨by simp [IndexesInRange, aliceTweets], by simp [ClustersInRange, aliceVectors],
    user_vectors_imputed 3 2 aliceTweets aliceVectors (by simp [IndexesInRange, aliceTweets])
      (by simp [ClustersInRange, aliceVectors])⟩

/-! ## Proofs: `hide_one_score` -/

theorem remean_eq (dims : List ℚ) (h : Nat) :
    ∀ m, m ≤ dims.length →
      (List.range m).foldlM (remeanStep dims h) (0, 0, true)
        = some (remeanResult dims h m) := by
  intro m
  induction m with
  | zero => intro _; rfl
  | succ m ih =>
    intro hm
    have hm1 : m < dims.length := by omega
    have g : dims[m]? = some dims[m] := List.getElem?_eq_getElem hm1
    rw [List.range_succ, List.foldlM_append, ih (by omega)]
    simp only [Option.bind_eq_bind, Option.some_bind, List.foldlM_cons, List.foldlM_nil,
      remeanStep, Option.pure_def]
    by_cases hmh : m = h
    · simp [remeanResult, List.filter_append, List.range_succ, List.filter_cons, hmh]
    · by_cases hx : dims[m] = 0 <;>
        simp [remeanResult, List.filter_append, List.range_succ, List.filter_cons, hmh, g, hx]

theorem filter_ne_length (h : Nat) :
    ∀ n, ((List.range n).filter (fun i => i ≠ h)).length = if h < n then n - 1 else n := by
  intro n
  induction n with
  | zero => simp
  | succ n ih =>
    rw [List.range_succ, List.filter_append, List.length_append, ih]
    by_cases h1 : h < n
    · have : n ≠ h := by omega
      simp [List.filter_cons, h1, this, show h < n + 1 by omega]
      omega
    · by_cases h2 : n = h
      · simp [List.filter_cons, h2]
      · simp [List.filter_cons, h1, h2, show ¬ h < n + 1 by omega]

theorem writeLoop_inRange (x : ℚ) :
    ∀ (idxs : List Nat) (acc out : List ℚ),
      idxs.foldlM (fun d i => writeAt d i x) acc = some out → ∀ j ∈ idxs, j < acc.length := by
  intro idxs
  induction idxs with
  | nil => intro acc out _ j hj; simp at hj
  | cons a rest ih =>
    intro acc out hrun j hj
    rw [List.foldlM_cons] at hrun
    by_cases ha : a < acc.length
    · simp only [writeAt, ha, if_true, Option.bind_eq_bind, Option.some_bind] at hrun
      rcases List.mem_cons.mp hj with rfl | hrest
      · exact ha
      · have := ih _ out hrun j hrest
        simpa using this
    · simp [writeAt, ha] at hrun

theorem knownIndexes_length_le (v : CustVector) :
    (knownIndexes v).length ≤ v.dimensions.length := by
  unfold knownIndexes
  calc ((List.range v.dimensions.length).filter _).length
      ≤ (List.range v.dimensions.length).length := List.length_filter_le _ _
    _ = v.dimensions.length := List.length_range _

theorem hide_one_score_eq (v : CustVector) (old_score : ℚ) (rand : Nat) (dims1 : List ℚ)
    (hk : 2 ≤ (knownIndexes v).length)
    (hz : v.unknownIndexes.foldlM (fun d i => writeAt d i 0) v.dimensions = some dims1) :
    dims1.length = v.dimensions.length ∧
    rand % (knownIndexes v).length < v.dimensions.length ∧
    hide_one_score v old_score rand
      = some (
          if (remeanResult dims1 (rand % (knownIndexes v).length) v.dimensions.length).2.2
          then (false, { v with dimensions := dims1 },
                v.dimensions.getD (rand % (knownIndexes v).length) 0)
          else (true,
                { v with
                  dimensions := dims1.set (rand % (knownIndexes v).length)
                    ((remeanResult dims1 (rand % (knownIndexes v).length)
                        v.dimensions.length).1 / ((v.dimensions.length - 1 : Nat) : ℚ))
                  knownMean := (remeanResult dims1 (rand % (knownIndexes v).length)
                        v.dimensions.length).1 / ((v.dimensions.length - 1 : Nat) : ℚ)
                  unknownIndexes := [rand % (knownIndexes v).length] },
                v.dimensions.getD (rand % (knownIndexes v).length) 0)) := by
  have hin := writeLoop_inRange 0 v.unknownIndexes v.dimensions dims1 hz
  obtain ⟨out, hout, hlen, _⟩ := imputeLoop_spec 0 v.dimensions.length v.unknownIndexes
    v.dimensions rfl hin
  rw [hz] at hout
  have hd : dims1 = out := Option.some.inj hout
  subst hd
  have hh : rand % (knownIndexes v).length < v.dimensions.length :=
    lt_of_lt_of_le (Nat.mod_lt _ (by omega)) (knownIndexes_length_le v)
  refine ⟨hlen, hh, ?_⟩
  have hget : v.dimensions[rand % (knownIndexes v).length]?
      = some (v.dimensions.getD (rand % (knownIndexes v).length) 0) := by
    rw [List.getD_eq_getElem?_getD, List.getElem?_eq_getElem hh]
    rfl
  have hloop := remean_eq dims1 (rand % (knownIndexes v).length) dims1.length (le_refl _)
  have hcount : (remeanResult dims1 (rand % (knownIndexes v).length) dims1.length).2.1
      = v.dimensions.length - 1 := by
    simp only [remeanResult]
    rw [filter_ne_length, hlen, if_pos hh]
  unfold hide_one_score
  simp only [show ¬ (knownIndexes v).length < 2 by omega, if_false, hget, hz, hloop,
    Option.bind_eq_bind, Option.some_bind]
  rw [hlen] at hcount ⊢
  by_cases hu : (remeanResult dims1 (rand % (knownIndexes v).length) v.dimensions.length).2.2
      = true
  · simp only [hu, if_true]
  · simp only [hu, if_false, writeAt, hlen, hh, if_true, hcount, Option.some_bind]
    rfl

theorem unknownFirst_eval :
    hide_one_score unknownFirst 0 0 = some (true, ⟨"u", [1/4, 1/2, 0], [0], 1/4, 0⟩, 1/4) := by
  have r3 : List.range 3 = [0, 1, 2] := by decide
  norm_num [hide_one_score, unknownFirst, knownIndexes, writeAt, remeanStep, r3,
    List.filter_cons]

theorem singlePositive_eval :
    hide_one_score singlePositive 0 0
      = some (false, ⟨"u", [1/2, 0, 0], [2], 1/4, 0⟩, 1/2) := by
  have r3 : List.range 3 = [0, 1, 2] := by decide
  norm_num [hide_one_score, singlePositive, knownIndexes, writeAt, remeanStep, r3,
    List.filter_cons]

theorem twoPositive_eval :
    hide_one_score twoPositive 7 1 = some (true, twoPositiveHidden, 1) := by
  have r3 : List.range 3 = [0, 1, 2] := by decide
  norm_num [hide_one_score, twoPositive, twoPositiveHidden, knownIndexes, writeAt,
    remeanStep, r3, List.filter_cons]

/-- C7 (the code at the failing input): the vector has the known indexes `1` and `2`;
with the draw `0` the call returns true, the index it hides is `0`, which is in the
original unknown set and not a known index, and the old score it reports is the imputed
value stored there. -/
theorem hide_one_score_hides_unknown :
    knownIndexes unknownFirst = [1, 2] ∧
    hide_one_score unknownFirst 0 0
      = some (true, ⟨"u", [1/4, 1/2, 0], [0], 1/4, 0⟩, 1/4) ∧
    0 ∈ unknownFirst.unknownIndexes ∧ 0 ∉ knownIndexes unknownFirst := by
  have hk : knownIndexes unknownFirst = [1, 2] := by
    have r3 : List.range 3 = [0, 1, 2] := by decide
    simp [knownIndexes, unknownFirst, r3, List.filter_cons]
  refine ⟨hk, unknownFirst_eval, by simp [unknownFirst], ?_⟩
  rw [hk]
  decide

/-- C8: for a vector with fewer than two known indexes `hide_one_score` returns false
and leaves the vector and `old_score` as they were. -/
theorem hide_one_score_few_known (v : CustVector) (old_score : ℚ) (rand : Nat)
    (h : (knownIndexes v).length < 2) :
    hide_one_score v old_score rand = some (false, v, old_score) := by
  unfold hide_one_score
  simp only [h, if_true]

theorem hide_one_score_few_known_witness :
    (knownIndexes oneKnown).length < 2 ∧
    hide_one_score oneKnown 7 1 = some (false, oneKnown, 7) :=
  ⟨by
      have r3 : List.range 3 = [0, 1, 2] := by decide
      simp [knownIndexes, oneKnown, r3, List.filter_cons],
    hide_one_score_few_known oneKnown 7 1 (by
      have r3 : List.range 3 = [0, 1, 2] := by decide
      simp [knownIndexes, oneKnown, r3, List.filter_cons])⟩

/-- C10 (the code at the failing input): the vector has the known indexes `0` and `1`;
with the draw `0` the index hidden is `0`, every other index is zero once the former
unknown index `2` is zeroed, and the call returns false, but the dimensions it leaves
are `[1/2, 0, 0]` and not the original `[1/2, 0, 1/4]`. -/
theorem hide_one_score_useless_mutates :
    knownIndexes singlePositive = [0, 1] ∧
    (∃ v1 old1, hide_one_score singlePositive 0 0 = some (false, v1, old1) ∧
      v1.dimensions = [1/2, 0, 0] ∧ v1.unknownIndexes = [2] ∧ v1.knownMean = 1/4) ∧
    singlePositive.dimensions = [1/2, 0, 1/4] ∧
    ([1/2, 0, 0] : List ℚ) ≠ [1/2, 0, 1/4] := by
  have hk : knownIndexes singlePositive = [0, 1] := by
    have r3 : List.range 3 = [0, 1, 2] := by decide
    simp [knownIndexes, singlePositive, r3, List.filter_cons]
  refine ⟨hk, ⟨_, _, singlePositive_eval, rfl, rfl, rfl⟩, rfl, ?_⟩
  norm_num

/-- C9: whenever `hide_one_score` returns true on a vector of length `n`, with
`h = rand % (number of known indexes)` the index it hides: `h < n`, the new unknown set
is `{h}`, the length is kept, every other index of the original unknown set holds `0`,
every other known index is unchanged, and `dimensions[h]` and `knownMean` are both the
sum of the resulting dimensions over the indexes other than `h` divided by `n - 1`. -/
theorem hide_one_score_success (v : CustVector) (old_score : ℚ) (rand : Nat)
    (v1 : CustVector) (old1 : ℚ)
    (hrun : hide_one_score v old_score rand = some (true, v1, old1)) :
    ∃ h, h = rand % (knownIndexes v).length ∧ h < v.dimensions.length ∧
      v1.unknownIndexes = [h] ∧
      v1.dimensions.length = v.dimensions.length ∧
      (∀ i ∈ v.unknownIndexes, i ≠ h → v1.dimensions[i]? = some 0) ∧
      (∀ i, i < v.dimensions.length → i ∉ v.unknownIndexes → i ≠ h →
        v1.dimensions[i]? = v.dimensions[i]?) ∧
      v1.dimensions[h]? = some v1.knownMean ∧
      v1.knownMean
        = (((List.range v.dimensions.length).filter (fun i => i ≠ h)).map
            (fun i => v1.dimensions.getD i 0)).sum
          / ((v.dimensions.length - 1 : Nat) : ℚ) := by
  have hk : 2 ≤ (knownIndexes v).length := by
    by_contra hlt
    have hlt2 : (knownIndexes v).length < 2 := by omega
    unfold hide_one_score at hrun
    simp [hlt2] at hrun
  cases hz : v.unknownIndexes.foldlM (fun d i => writeAt d i 0) v.dimensions with
  | none =>
    unfold hide_one_score at hrun
    simp only [show ¬ (knownIndexes v).length < 2 by omega, if_false, hz,
      Option.bind_eq_bind, Option.bind_none, Option.bind_some] at hrun
    cases hg : v.dimensions[rand % (knownIndexes v).length]? with
    | none => rw [hg] at hrun; simp at hrun
    | some x => rw [hg] at hrun; simp at hrun
  | some dims1 =>
    obtain ⟨hlen, hh, heq⟩ := hide_one_score_eq v old_score rand dims1 hk hz
    have hin := writeLoop_inRange 0 v.unknownIndexes v.dimensions dims1 hz
    obtain ⟨out, hout, _, hget⟩ := imputeLoop_spec 0 v.dimensions.length v.unknownIndexes
      v.dimensions rfl hin
    rw [hz] at hout
    have hd : dims1 = out := Option.some.inj hout
    subst hd
    rw [heq] at hrun
    by_cases hu : (remeanResult dims1 (rand % (knownIndexes v).length)
        v.dimensions.length).2.2 = true
    · rw [if_pos hu] at hrun
      simp at hrun
    · rw [if_neg hu] at hrun
      have hv := (Prod.mk.inj (Prod.mk.inj (Option.some.inj hrun)).2).1
      subst hv
      refine ⟨rand % (knownIndexes v).length, rfl, hh, rfl, by simp [hlen], ?_, ?_, ?_, ?_⟩
      · intro i hi hne
        show (dims1.set _ _)[i]? = some 0
        rw [List.getElem?_set_ne (Ne.symm hne), hget i, if_pos hi]
      · intro i _ hi hne
        show (dims1.set _ _)[i]? = v.dimensions[i]?
        rw [List.getElem?_set_ne (Ne.symm hne), hget i, if_neg hi]
      · show (dims1.set _ _)[rand % (knownIndexes v).length]? = some _
        rw [List.getElem?_set_self (by omega)]
      · show (remeanResult dims1 (rand % (knownIndexes v).length) v.dimensions.length).1
            / ((v.dimensions.length - 1 : Nat) : ℚ) = _
        congr 1
        simp only [remeanResult]
        congr 1
        apply List.map_congr_left
        intro i hi
        have hne : i ≠ rand % (knownIndexes v).length :=
          of_decide_eq_true (List.mem_filter.mp hi).2
        simp only [List.getD_eq_getElem?_getD, List.getElem?_set_ne (Ne.symm hne)]

theorem hide_one_score_success_witness :
    hide_one_score twoPositive 7 1 = some (true, twoPositiveHidden, 1) ∧
    ∃ h, h = 1 % (knownIndexes twoPositive).length ∧ h < twoPositive.dimensions.length ∧
      twoPositiveHidden.unknownIndexes = [h] ∧
      twoPositiveHidden.dimensions.length = twoPositive.dimensions.length ∧
      (∀ i ∈ twoPositive.unknownIndexes, i ≠ h → twoPositiveHidden.dimensions[i]? = some 0) ∧
      (∀ i, i < twoPositive.dimensions.length → i ∉ twoPositive.unknownIndexes → i ≠ h →
        twoPositiveHidden.dimensions[i]? = twoPositive.dimensions[i]?) ∧
      twoPositiveHidden.dimensions[h]? = some twoPositiveHidden.knownMean ∧
      twoPositiveHidden.knownMean
        = (((List.range twoPositive.dimensions.length).filter (fun i => i ≠ h)).map
            (fun i => twoPositiveHidden.dimensions.getD i 0)).sum
          / ((twoPositive.dimensions.length - 1 : Nat) : ℚ) :=
  ⟨twoPositive_eval, hide_one_score_success twoPositive 7 1 _ 1 twoPositive_eval⟩

/-! ## Proofs: `get_top_N_recom` -/

theorem gatherPredicted_eq (pred : List ℚ) :
    ∀ (idxs : List Nat), (∀ i ∈ idxs, i < pred.length) →
      gatherPredicted pred idxs = some (idxs.map (fun i => pred.getD i 0)) := by
  intro idxs
  induction idxs with
  | nil => intro _; rfl
  | cons a rest ih =>
    intro h
    have ha : a < pred.length := h a (List.mem_cons_self _ _)
    have hx : pred[a]? = some pred[a] := List.getElem?_eq_getElem ha
    have hd : pred.getD a 0 = pred[a] := by simp [List.getD_eq_getElem?_getD, hx]
    rw [gatherPredicted, hx, ih (fun i hi => h i (List.mem_cons_of_mem _ hi))]
    simp only [Option.map_some', List.map_cons, hd]

theorem topN_sorted_spec (pred : List ℚ) (idxs : List Nat)
    (h : ∀ i ∈ idxs, i < pred.length) :
    ∃ up sp si, gatherPredicted pred idxs = some up ∧
      parallel_quickSort up.length up idxs 0 ((up.length : Int) - 1) = some (sp, si) ∧
      List.Perm si idxs ∧ List.Sorted (fun x y => x ≥ y) (si.map (fun i => pred.getD i 0)) := by
  obtain ⟨sp, si, hrun, h1, h2, h3, h4⟩ :=
    parallel_quickSort_full (idxs.map (fun i => pred.getD i 0)).length
      (idxs.map (fun i => pred.getD i 0)) idxs (by simp) (le_refl _)
  simp only [List.length_map] at h1
  obtain ⟨e1, e2⟩ := eq_map_of_zip_perm (fun i => pred.getD i 0) idxs sp si (by omega) h3
  refine ⟨_, sp, si, gatherPredicted_eq pred idxs h, hrun, e2, ?_⟩
  rw [← e1]
  exact h4

theorem get_top_N_recom_eq (neighbors : List CustVector) (user : CustVector) (N : Nat)
    (similarities : List ℚ) (n : Nat)
    (hlen : similarities.length = neighbors.length)
    (huser : WellFormed n user)
    (hnb : ∀ nb ∈ neighbors, nb.dimensions.length = n) :
    ∃ pred si, get_predicted_user_sim neighbors user similarities = some pred ∧
      get_top_N_recom neighbors user N similarities = some (resizeInt si N) ∧
      List.Perm si user.unknownIndexes ∧
      List.Sorted (fun x y => x ≥ y) (si.map (fun i => pred.getD i 0)) := by
  obtain ⟨pred, hpred, hl, _⟩ := predictLoop_spec neighbors user similarities n hlen hnb
    user.unknownIndexes user.dimensions huser.1 huser.2
  have hpred2 : get_predicted_user_sim neighbors user similarities = some pred := hpred
  obtain ⟨up, sp, si, hg, hrun, hperm, hsorted⟩ := topN_sorted_spec pred user.unknownIndexes
    (fun i hi => by rw [hl]; exact huser.2 i hi)
  refine ⟨pred, si, hpred2, ?_, hperm, hsorted⟩
  simp only [get_top_N_recom, hpred2, hg, hrun]

theorem get_top_N_recom_cosine_eq (cosineSimilarity : CustVector → CustVector → ℚ)
    (neighbors : List CustVector) (user : CustVector) (N : Nat) :
    get_top_N_recom_cosine cosineSimilarity neighbors user N
      = get_top_N_recom neighbors user N (neighbors.map (fun nb => cosineSimilarity nb user)) :=
  rfl

theorem topN_take_spec (f : Nat → ℚ) (si idxs : List Nat) (N : Nat)
    (hperm : List.Perm si idxs) (hnd : idxs.Nodup) (hN : N ≤ idxs.length)
    (hsorted : List.Sorted (fun x y => x ≥ y) (si.map f)) :
    resizeInt si N = si.take N ∧ (si.take N).length = N ∧ (si.take N).Nodup ∧
      (∀ i ∈ si.take N, i ∈ idxs) ∧
      List.Sorted (fun x y => x ≥ y) ((si.take N).map f) ∧
      (∀ j ∈ idxs, j ∉ si.take N → ∀ i ∈ si.take N, f j ≤ f i) := by
  have hl : si.length = idxs.length := hperm.length_eq
  have hsplit : si.map f = (si.take N).map f ++ (si.drop N).map f := by
    rw [← List.map_append, List.take_append_drop]
  have hpw : List.Pairwise (fun x y => x ≥ y) ((si.take N).map f ++ (si.drop N).map f) := by
    rw [← hsplit]; exact hsorted
  rw [List.pairwise_append] at hpw
  refine ⟨?_, ?_, ?_, ?_, hpw.1, ?_⟩
  · unfold resizeInt
    rw [show N - si.length = 0 by omega]
    simp
  · rw [List.length_take]; omega
  · exact List.Nodup.sublist (List.take_sublist N si) ((hperm.nodup_iff).mpr hnd)
  · intro i hi
    exact (hperm.mem_iff).mp (List.mem_of_mem_take hi)
  · intro j hj hnot i hi
    have hjs : j ∈ si := (hperm.mem_iff).mpr hj
    rw [← List.take_append_drop N si, List.mem_append] at hjs
    rcases hjs with h | h
    · exact absurd h hnot
    · exact hpw.2.2 (f i) (List.mem_map_of_mem f hi) (f j) (List.mem_map_of_mem f h)

/-- C11: for a well-formed target with pairwise distinct unknown indexes, neighbours
over the same catalog, a similarity list of the same length with non-zero `normSum` and
a limit `N` at most the number of unknown indexes, `get_top_N_recom` returns exactly `N`
pairwise distinct indexes, all of them unknown indexes of the target, listed in
non-increasing order of the score `get_predicted_user_sim` predicts, and every unknown
index that is not returned has a predicted score at most that of every returned index.
The overload without similarities returns the same list for the cosine similarities. -/
theorem get_top_N_recom_top (neighbors : List CustVector) (user : CustVector) (N : Nat)
    (similarities : List ℚ) (n : Nat)
    (hlen : similarities.length = neighbors.length)
    (huser : WellFormed n user)
    (hnb : ∀ nb ∈ neighbors, nb.dimensions.length = n)
    (hnd : user.unknownIndexes.Nodup)
    (_hnorm : normSum neighbors similarities ≠ 0)
    (hN : N ≤ user.unknownIndexes.length) :
    ∃ pred res, get_predicted_user_sim neighbors user similarities = some pred ∧
      get_top_N_recom neighbors user N similarities = some res ∧
      (∀ cosineSimilarity : CustVector → CustVector → ℚ,
        similarities = neighbors.map (fun nb => cosineSimilarity nb user) →
        get_top_N_recom_cosine cosineSimilarity neighbors user N = some res) ∧
      res.length = N ∧ res.Nodup ∧ (∀ i ∈ res, i ∈ user.unknownIndexes) ∧
      List.Sorted (fun x y => x ≥ y) (res.map (fun i => pred.getD i 0)) ∧
      (∀ j ∈ user.unknownIndexes, j ∉ res → ∀ i ∈ res, pred.getD j 0 ≤ pred.getD i 0) := by
  obtain ⟨pred, si, hpred, hrun, hperm, hsorted⟩ :=
    get_top_N_recom_eq neighbors user N similarities n hlen huser hnb
  obtain ⟨e, h1, h2, h3, h4, h5⟩ :=
    topN_take_spec (fun i => pred.getD i 0) si user.unknownIndexes N hperm hnd hN hsorted
  rw [e] at hrun
  refine ⟨pred, si.take N, hpred, hrun, ?_, h1, h2, h3, h4, h5⟩
  intro cosineSimilarity hcos
  rw [get_top_N_recom_cosine_eq, ← hcos]
  exact hrun

theorem get_top_N_recom_top_witness :
    ([1] : List ℚ).length = topNeighbors.length ∧ WellFormed 3 topUser2 ∧
    (∀ nb ∈ topNeighbors, nb.dimensions.length = 3) ∧ topUser2.unknownIndexes.Nodup ∧
    normSum topNeighbors [1] ≠ 0 ∧ 1 ≤ topUser2.unknownIndexes.length ∧
    ∃ pred res, get_predicted_user_sim topNeighbors topUser2 [1] = some pred ∧
      get_top_N_recom topNeighbors topUser2 1 [1] = some res ∧
      (∀ cosineSimilarity : CustVector → CustVector → ℚ,
        [1] = topNeighbors.map (fun nb => cosineSimilarity nb topUser2) →
        get_top_N_recom_cosine cosineSimilarity topNeighbors topUser2 1 = some res) ∧
      res.length = 1 ∧ res.Nodup ∧ (∀ i ∈ res, i ∈ topUser2.unknownIndexes) ∧
      List.Sorted (fun x y => x ≥ y) (res.map (fun i => pred.getD i 0)) ∧
      (∀ j ∈ topUser2.unknownIndexes, j ∉ res → ∀ i ∈ res, pred.getD j 0 ≤ pred.getD i 0) :=
  ⟨rfl, ⟨rfl, by simp [topUser2]⟩, by simp [topNeighbors], by simp [topUser2],
    by norm_num [normSum, topNeighbors, Finset.sum_range_succ],
    by simp [topUser2],
    get_top_N_recom_top topNeighbors topUser2 1 [1] 3 rfl ⟨rfl, by simp [topUser2]⟩
      (by simp [topNeighbors]) (by simp [topUser2])
      (by norm_num [normSum, topNeighbors, Finset.sum_range_succ]) (by simp [topUser2])⟩

theorem topUser_eval : get_top_N_recom topNeighbors topUser 3 [1] = some [2, 0, 0] := by
  obtain ⟨pred, si, _, hrun, hperm, _⟩ :=
    get_top_N_recom_eq topNeighbors topUser 3 [1] 3 rfl ⟨rfl, by simp [topUser]⟩
      (by simp [topNeighbors])
  have hsi : si = [2] := by
    have : List.Perm si [2] := hperm
    exact List.perm_singleton.mp this
  rw [hrun, hsi]
  rfl

/-- C12 (the code at the failing input): the target has the single unknown index `2` and
the limit is `3`; `get_top_N_recom` returns `[2, 0, 0]`, a list of length `3` and not
`1`, whose padding `0` is a known index of the target. -/
theorem get_top_N_recom_pads :
    topUser.unknownIndexes = [2] ∧
    get_top_N_recom topNeighbors topUser 3 [1] = some [2, 0, 0] ∧
    ([2, 0, 0] : List Nat).length ≠ topUser.unknownIndexes.length ∧
    0 ∈ ([2, 0, 0] : List Nat) ∧ 0 ∉ topUser.unknownIndexes :=
  ⟨rfl, topUser_eval, by decide, by decide, by decide⟩

/-! ## Proofs: `get_predicted_user_sim`, zero norm, one neighbour, frame -/

theorem get_predicted_user_sim_total (neighbors : List CustVector) (user : CustVector)
    (similarities : List ℚ) (n : Nat)
    (hlen : similarities.length = neighbors.length)
    (huser : WellFormed n user)
    (hnb : ∀ nb ∈ neighbors, nb.dimensions.length = n) :
    ∃ out, get_predicted_user_sim neighbors user similarities = some out ∧
      out.length = user.dimensions.length ∧
      (∀ j, j ∉ user.unknownIndexes → out[j]? = user.dimensions[j]?) ∧
      (∀ j, j ∈ user.unknownIndexes →
        out[j]? = some (mainSum neighbors similarities j / normSum neighbors similarities
          + user.knownMean)) := by
  obtain ⟨out, hout, hl, hget⟩ := predictLoop_spec neighbors user similarities n hlen hnb
    user.unknownIndexes user.dimensions huser.1 huser.2
  refine ⟨out, hout, by rw [hl, huser.1], ?_, ?_⟩
  · intro j hj
    rw [hget j, if_neg hj]
  · intro j hj
    rw [hget j, if_pos hj]

/-- C13 (counterexample to the claim as stated): with no neighbour `normSum` is zero and
the target has unknown indexes, and `get_predicted_user_sim` returns a score vector; the
same with one neighbour of similarity zero. -/
theorem get_predicted_user_sim_zero_norm_counterexample :
    normSum [] [] = 0 ∧ topUser2.unknownIndexes ≠ [] ∧
    (∃ out, get_predicted_user_sim [] topUser2 [] = some out) ∧
    normSum topNeighbors [0] = 0 ∧
    (∃ out, get_predicted_user_sim topNeighbors topUser2 [0] = some out) := by
  refine ⟨rfl, by simp [topUser2], ?_, by norm_num [normSum, topNeighbors], ?_⟩
  · obtain ⟨out, hout, _⟩ := get_predicted_user_sim_total [] topUser2 [] 3 rfl
      ⟨rfl, by simp [topUser2]⟩ (by simp)
    exact ⟨out, hout⟩
  · obtain ⟨out, hout, _⟩ := get_predicted_user_sim_total topNeighbors topUser2 [0] 3 rfl
      ⟨rfl, by simp [topUser2]⟩ (by simp [topNeighbors])
    exact ⟨out, hout⟩

/-- C13 (amended): for a well-formed target, neighbours over the same catalog and a
similarity list of the same length whose `normSum` is zero, `get_predicted_user_sim`
signals no failure: it returns a score vector of the length of the target that holds the
target's own value at every known index. -/
theorem get_predicted_user_sim_zero_norm (neighbors : List CustVector) (user : CustVector)
    (similarities : List ℚ) (n : Nat)
    (hlen : similarities.length = neighbors.length)
    (huser : WellFormed n user)
    (hnb : ∀ nb ∈ neighbors, nb.dimensions.length = n)
    (_hzero : normSum neighbors similarities = 0) :
    ∃ out, get_predicted_user_sim neighbors user similarities = some out ∧
      out.length = user.dimensions.length ∧
      ∀ j, j ∉ user.unknownIndexes → out[j]? = user.dimensions[j]? := by
  obtain ⟨out, h1, h2, h3, _⟩ :=
    get_predicted_user_sim_total neighbors user similarities n hlen huser hnb
  exact ⟨out, h1, h2, h3⟩

theorem get_predicted_user_sim_zero_norm_witness :
    ([0] : List ℚ).length = topNeighbors.length ∧ WellFormed 3 topUser2 ∧
    (∀ nb ∈ topNeighbors, nb.dimensions.length = 3) ∧ normSum topNeighbors [0] = 0 ∧
    ∃ out, get_predicted_user_sim topNeighbors topUser2 [0] = some out ∧
      out.length = topUser2.dimensions.length ∧
      ∀ j, j ∉ topUser2.unknownIndexes → out[j]? = topUser2.dimensions[j]? :=
  ⟨rfl, ⟨rfl, by simp [topUser2]⟩, by simp [topNeighbors],
    by norm_num [normSum, topNeighbors],
    get_predicted_user_sim_zero_norm topNeighbors topUser2 [0] 3 rfl
      ⟨rfl, by simp [topUser2]⟩ (by simp [topNeighbors])
      (by norm_num [normSum, topNeighbors])⟩

/-- C14: for a well-formed target, an unknown index `i` of it and exactly one neighbour
(over the same catalog) with similarity `s ≠ 0`, `get_predicted_user_sim` yields at `i`
the value `knownMean + (x - neighbour mean)` when `s > 0` and
`knownMean - (x - neighbour mean)` when `s < 0`, where `x` is the neighbour's value at
`i`; the magnitude of `s` plays no part. -/
theorem get_predicted_user_sim_single (nb user : CustVector) (s : ℚ) (n i : Nat)
    (hs : s ≠ 0) (huser : WellFormed n user) (hnb : nb.dimensions.length = n)
    (hi : i ∈ user.unknownIndexes) :
    ∃ out x, get_predicted_user_sim [nb] user [s] = some out ∧
      nb.dimensions[i]? = some x ∧
      (0 < s → out[i]? = some (user.knownMean + (x - nb.knownMean))) ∧
      (s < 0 → out[i]? = some (user.knownMean - (x - nb.knownMean))) := by
  obtain ⟨out, h1, _, _, h4⟩ := get_predicted_user_sim_total [nb] user [s] n rfl huser
    (by intro nb1 h; rw [List.mem_singleton] at h; rw [h]; exact hnb)
  have hin : i < nb.dimensions.length := by rw [hnb]; exact huser.2 i hi
  have hx : nb.dimensions[i]? = some nb.dimensions[i] := List.getElem?_eq_getElem hin
  have hm : mainSum [nb] [s] i = s * (nb.dimensions[i] - nb.knownMean) := by
    simp [mainSum, Finset.sum_range_succ, hx]
  have hn : normSum [nb] [s] = |s| := by
    simp [normSum, Finset.sum_range_succ]
  refine ⟨out, nb.dimensions[i], h1, hx, ?_, ?_⟩
  · intro hpos
    rw [h4 i hi, hm, hn, abs_of_pos hpos, mul_div_cancel_left₀ _ hs, add_comm]
  · intro hneg
    rw [h4 i hi, hm, hn, abs_of_neg hneg, div_neg, mul_div_cancel_left₀ _ hs]
    congr 1
    ring

theorem get_predicted_user_sim_single_witness :
    (-3 : ℚ) ≠ 0 ∧ WellFormed 1 (scenarioUser 2) ∧ singleNeighbor.dimensions.length = 1 ∧
    0 ∈ (scenarioUser 2).unknownIndexes ∧
    ∃ out x, get_predicted_user_sim [singleNeighbor] (scenarioUser 2) [-3] = some out ∧
      singleNeighbor.dimensions[0]? = some x ∧
      (0 < (-3 : ℚ) → out[0]? = some ((scenarioUser 2).knownMean
        + (x - singleNeighbor.knownMean))) ∧
      ((-3 : ℚ) < 0 → out[0]? = some ((scenarioUser 2).knownMean
        - (x - singleNeighbor.knownMean))) :=
  ⟨by norm_num, ⟨rfl, by simp [scenarioUser]⟩, rfl, by simp [scenarioUser],
    get_predicted_user_sim_single singleNeighbor (scenarioUser 2) (-3) 1 0 (by norm_num)
      ⟨rfl, by simp [scenarioUser]⟩ rfl (by simp [scenarioUser])⟩

/-- C15: for a well-formed target, neighbours over the same catalog and a similarity
list of the same length, the result of `get_predicted_user_sim` has the length of
`target.dimensions` and holds the target's own value at every index that is not in
`target.unknownIndexes`.  The function writes to a copy of the dimensions only: the
target is an input of the embedded function and not part of its result. -/
theorem get_predicted_user_sim_frame (neighbors : List CustVector) (user : CustVector)
    (similarities : List ℚ) (n : Nat)
    (hlen : similarities.length = neighbors.length)
    (huser : WellFormed n user)
    (hnb : ∀ nb ∈ neighbors, nb.dimensions.length = n) :
    ∃ out, get_predicted_user_sim neighbors user similarities = some out ∧
      out.length = user.dimensions.length ∧
      ∀ j, j < user.dimensions.length → j ∉ user.unknownIndexes →
        out[j]? = user.dimensions[j]? := by
  obtain ⟨out, h1, h2, h3, _⟩ :=
    get_predicted_user_sim_total neighbors user similarities n hlen huser hnb
  exact ⟨out, h1, h2, fun j _ hj => h3 j hj⟩

theorem get_predicted_user_sim_frame_witness :
    ([1] : List ℚ).length = topNeighbors.length ∧ WellFormed 3 topUser ∧
    (∀ nb ∈ topNeighbors, nb.dimensions.length = 3) ∧
    ∃ out, get_predicted_user_sim topNeighbors topUser [1] = some out ∧
      out.length = topUser.dimensions.length ∧
      ∀ j, j < topUser.dimensions.length → j ∉ topUser.unknownIndexes →
        out[j]? = topUser.dimensions[j]? :=
  ⟨rfl, ⟨rfl, by simp [topUser]⟩, by simp [topNeighbors],
    get_predicted_user_sim_frame topNeighbors topUser [1] 3 rfl ⟨rfl, by simp [topUser]⟩
      (by simp [topNeighbors])⟩

/-! ## Proofs: `split_to_10`, `merge_except_for` -/

theorem eraseIdx_perm {α : Type} :
    ∀ (l : List α) (r : Nat) (x : α), l[r]? = some x → List.Perm (x :: l.eraseIdx r) l := by
  intro l
  induction l with
  | nil => intro r x h; simp at h
  | cons a t ih =>
    intro r x h
    cases r with
    | zero =>
      simp at h
      subst h
      simp
    | succ r =>
      simp at h
      rw [List.eraseIdx_cons_succ]
      exact (List.Perm.swap a x _).trans ((ih r x h).cons a)

theorem fillFold_spec {α : Type} (rand : Nat → Nat) :
    ∀ (left : Nat) (pool : List α) (calls : Nat) (curr : List α), left ≤ pool.length →
      ∃ pool1 calls1 curr1, fillFold rand left pool calls curr = some (pool1, calls1, curr1) ∧
        curr1.length = curr.length + left ∧ pool1.length + left = pool.length ∧
        List.Perm (curr1 ++ pool1) (curr ++ pool) := by
  intro left
  induction left with
  | zero =>
    intro pool calls curr _
    exact ⟨pool, calls, curr, rfl, rfl, rfl, List.Perm.refl _⟩
  | succ left ih =>
    intro pool calls curr hle
    have hpos : pool.length > 0 := by omega
    have hr : rand calls % pool.length < pool.length := Nat.mod_lt _ hpos
    have hx : pool[rand calls % pool.length]? = some pool[rand calls % pool.length] :=
      List.getElem?_eq_getElem hr
    obtain ⟨pool1, calls1, curr1, h1, h2, h3, h4⟩ :=
      ih (pool.eraseIdx (rand calls % pool.length)) (calls + 1)
        (curr ++ [pool[rand calls % pool.length]])
        (by rw [List.length_eraseIdx, if_pos hr]; omega)
    refine ⟨pool1, calls1, curr1, ?_, ?_, ?_, ?_⟩
    · rw [fillFold]
      simp only [hpos, if_true, hx]
      exact h1
    · rw [h2, List.length_append, List.length_singleton]; omega
    · rw [List.length_eraseIdx, if_pos hr] at h3; omega
    · refine h4.trans ?_
      rw [List.append_assoc]
      exact List.Perm.append_left curr (eraseIdx_perm pool _ _ hx)

theorem splitLoop_spec {α : Type} (rand : Nat → Nat) (e : Nat) :
    ∀ (l : List Nat) (pool : List α) (calls : Nat) (folds : List (List α)),
      e * l.length ≤ pool.length →
      ∃ pool1 calls1 new,
        l.foldlM (splitStep rand e) (pool, calls, folds) = some (pool1, calls1, folds ++ new) ∧
        new.length = l.length ∧ (∀ f ∈ new, f.length = e) ∧
        pool1.length + e * l.length = pool.length ∧
        List.Perm (new.flatten ++ pool1) pool := by
  intro l
  induction l with
  | nil =>
    intro pool calls folds _
    exact ⟨pool, calls, [], by simp, rfl, by simp, by simp, by simp⟩
  | cons i rest ih =>
    intro pool calls folds hle
    rw [List.length_cons, Nat.mul_succ] at hle
    obtain ⟨pool1, calls1, curr1, h1, h2, h3, h4⟩ :=
      fillFold_spec rand e pool calls [] (by omega)
    obtain ⟨pool2, calls2, new, g1, g2, g3, g4, g5⟩ :=
      ih pool1 calls1 (folds ++ [curr1]) (by omega)
    refine ⟨pool2, calls2, curr1 :: new, ?_, by simp [g2], ?_, ?_, ?_⟩
    · rw [List.foldlM_cons]
      simp only [splitStep, h1, Option.bind_eq_bind, Option.some_bind]
      rw [g1]
      simp
    · intro f hf
      rcases List.mem_cons.mp hf with rfl | hf
      · simpa using h2
      · exact g3 f hf
    · rw [List.length_cons, Nat.mul_succ]; omega
    · rw [List.flatten_cons, List.append_assoc]
      exact (List.Perm.append_left curr1 g5).trans (by simpa using h4)

/-- C16: for every input list of `n` elements and every sequence of random draws,
`split_to_10` returns exactly 10 folds, each of size `n / 10` (10 empty folds when
`n < 10`); the folds hold `10 * (n / 10)` elements in all; and the concatenation of the
folds followed by `n % 10` left-over elements is a permutation of the input, so no
input element is placed twice. -/
theorem split_to_10_folds {α : Type} (rand : Nat → Nat) (input_vectors : List α) :
    ∃ folds, split_to_10 rand input_vectors = some folds ∧ folds.length = 10 ∧
      (∀ f ∈ folds, f.length = input_vectors.length / 10) ∧
      folds.flatten.length = 10 * (input_vectors.length / 10) ∧
      ∃ rest, rest.length = input_vectors.length % 10 ∧
        List.Perm (folds.flatten ++ rest) input_vectors := by
  obtain ⟨pool1, calls1, new, h1, h2, h3, h4, h5⟩ :=
    splitLoop_spec rand (input_vectors.length / 10) (List.range 10) input_vectors 0 []
      (by rw [List.length_range]; omega)
  rw [List.length_range] at h2 h4
  rw [List.nil_append] at h1
  have hrest : pool1.length = input_vectors.length % 10 := by omega
  refine ⟨new, ?_, h2, h3, ?_, pool1, hrest, h5⟩
  · simp only [split_to_10, h1]
  · have := h5.length_eq
    rw [List.length_append] at this
    omega

theorem mergeLoop_spec {α : Type} (folds : List (List α)) (k : Nat) :
    ∀ m, m ≤ folds.length →
      (List.range m).foldl
        (fun (merged : List α) (i : Nat) =>
          if (i : Int) ≠ (k : Int) then merged ++ folds.getD i [] else merged) []
      = (if k < m then folds.take k ++ (folds.take m).drop (k + 1)
          else folds.take m).flatten := by
  intro m
  induction m with
  | zero => intro _; simp
  | succ m ih =>
    intro hm
    have hm1 : m < folds.length := by omega
    have hget : folds.getD m [] = folds[m] := by
      rw [List.getD_eq_getElem?_getD, List.getElem?_eq_getElem hm1]; rfl
    have htake : folds.take (m + 1) = folds.take m ++ [folds[m]] := by
      rw [List.take_succ, List.getElem?_eq_getElem hm1]; rfl
    rw [List.range_succ, List.foldl_append, ih (by omega)]
    simp only [List.foldl_cons, List.foldl_nil, hget]
    by_cases h1 : k < m
    · have hne : (m : Int) ≠ (k : Int) := by omega
      rw [if_pos hne, if_pos h1, if_pos (show k < m + 1 by omega), htake,
        List.drop_append_of_le_length (by rw [List.length_take]; omega)]
      simp [List.flatten_append]
    · by_cases h2 : k = m
      · have he : ¬ ((m : Int) ≠ (k : Int)) := by omega
        rw [if_neg he, if_neg h1, if_pos (show k < m + 1 by omega), h2,
          List.drop_eq_nil_of_le (by rw [List.length_take]; omega)]
        simp
      · have hne : (m : Int) ≠ (k : Int) := by omega
        rw [if_pos hne, if_neg h1, if_neg (show ¬ k < m + 1 by omega), htake,
          List.flatten_append, List.flatten_cons, List.flatten_nil, List.append_nil]

theorem merge_whole_size_eq {α : Type} (folds : List (List α)) (k : Int) :
    ∀ m,
      (List.range m).foldl
        (fun (whole_size : Nat) (i : Nat) =>
          if (i : Int) ≠ k then whole_size + (folds.getD i []).length else whole_size) 0
      = ((List.range m).foldl
          (fun (merged : List α) (i : Nat) =>
            if (i : Int) ≠ k then merged ++ folds.getD i [] else merged) []).length := by
  intro m
  induction m with
  | zero => rfl
  | succ m ih =>
    rw [List.range_succ, List.foldl_append, List.foldl_append, ih]
    simp only [List.foldl_cons, List.foldl_nil]
    by_cases h : (m : Int) ≠ k
    · rw [if_pos h, if_pos h, List.length_append]
    · rw [if_neg h, if_neg h]

/-- C17: for every list of folds and every index `k` below the number of folds,
`merge_except_for(folds, k)` is the concatenation, in the original fold order and with
every fold's own order kept, of all folds except fold `k`; hence its length is the total
fold size minus the size of fold `k`, which is also the capacity `whole_size` the
function reserves. -/
theorem merge_except_for_concat {α : Type} (folds : List (List α)) (k : Nat)
    (hk : k < folds.length) :
    merge_except_for folds (k : Int) = (folds.take k ++ folds.drop (k + 1)).flatten ∧
    (merge_except_for folds (k : Int)).length
      = (folds.map List.length).sum - (folds.getD k []).length ∧
    merge_whole_size folds (k : Int) = (merge_except_for folds (k : Int)).length := by
  have hmerge : merge_except_for folds (k : Int)
      = (folds.take k ++ folds.drop (k + 1)).flatten := by
    unfold merge_except_for
    rw [mergeLoop_spec folds k folds.length (le_refl _), if_pos hk, List.take_length]
  refine ⟨hmerge, ?_, merge_whole_size_eq folds (k : Int) folds.length⟩
  have hget : folds.getD k [] = folds[k] := by
    rw [List.getD_eq_getElem?_getD, List.getElem?_eq_getElem hk]; rfl
  have hsplit : folds = folds.take k ++ folds[k] :: folds.drop (k + 1) := by
    rw [List.getElem_cons_drop, List.take_append_drop]
  have htotal : (folds.map List.length).sum
      = ((folds.take k ++ folds.drop (k + 1)).map List.length).sum + folds[k].length := by
    conv_lhs => rw [hsplit]
    simp only [List.map_append, List.map_cons, List.sum_append, List.sum_cons]
    omega
  rw [hmerge, List.length_flatten, htotal, hget]
  omega

theorem merge_except_for_concat_witness :
    1 < ([[1, 2], [3], [4, 5, 6]] : List (List Nat)).length ∧
    merge_except_for [[1, 2], [3], [4, 5, 6]] ((1 : Nat) : Int)
      = (([[1, 2], [3], [4, 5, 6]] : List (List Nat)).take 1
          ++ ([[1, 2], [3], [4, 5, 6]] : List (List Nat)).drop (1 + 1)).flatten ∧
    (merge_except_for [[1, 2], [3], [4, 5, 6]] ((1 : Nat) : Int)).length
      = (([[1, 2], [3], [4, 5, 6]] : List (List Nat)).map List.length).sum
        - (([[1, 2], [3], [4, 5, 6]] : List (List Nat)).getD 1 []).length ∧
    merge_whole_size [[1, 2], [3], [4, 5, 6]] ((1 : Nat) : Int)
      = (merge_except_for [[1, 2], [3], [4, 5, 6]] ((1 : Nat) : Int)).length :=
  ⟨by decide, merge_except_for_concat [[1, 2], [3], [4, 5, 6]] 1 (by decide)⟩

/-! ## Proofs: the partition reads and writes `[low, high]` only -/

theorem zip_getElem?_eq_iff {β : Type} (sim sim1 : List ℚ) (nb nb1 : List β) (k : Nat)
    (h : sim.length = nb.length) (h1 : sim1.length = nb1.length) :
    (List.zip sim1 nb1)[k]? = (List.zip sim nb)[k]? ↔
      sim1[k]? = sim[k]? ∧ nb1[k]? = nb[k]? := by
  by_cases hk : k < sim.length
  · have hz : (List.zip sim nb)[k]? = some (sim[k], nb[k]) :=
      getElem?_zip _ _ _ _ _ (List.getElem?_eq_getElem hk) (List.getElem?_eq_getElem (by omega))
    by_cases hk1 : k < sim1.length
    · have hz1 : (List.zip sim1 nb1)[k]? = some (sim1[k], nb1[k]) :=
        getElem?_zip _ _ _ _ _ (List.getElem?_eq_getElem hk1)
          (List.getElem?_eq_getElem (by omega))
      rw [hz, hz1, List.getElem?_eq_getElem hk, List.getElem?_eq_getElem hk1,
        List.getElem?_eq_getElem (show k < nb.length by omega),
        List.getElem?_eq_getElem (show k < nb1.length by omega)]
      simp
    · have hz1 : (List.zip sim1 nb1)[k]? = none :=
        List.getElem?_eq_none (by simp; omega)
      rw [hz, hz1, List.getElem?_eq_getElem hk,
        List.getElem?_eq_none (show sim1.length ≤ k by omega)]
      simp
  · have hz : (List.zip sim nb)[k]? = none := List.getElem?_eq_none (by simp; omega)
    by_cases hk1 : k < sim1.length
    · have hz1 : (List.zip sim1 nb1)[k]? = some (sim1[k], nb1[k]) :=
        getElem?_zip _ _ _ _ _ (List.getElem?_eq_getElem hk1)
          (List.getElem?_eq_getElem (by omega))
      rw [hz, hz1, List.getElem?_eq_getElem hk1,
        List.getElem?_eq_none (show sim.length ≤ k by omega)]
      simp
    · have hz1 : (List.zip sim1 nb1)[k]? = none :=
        List.getElem?_eq_none (by simp; omega)
      rw [hz, hz1, List.getElem?_eq_none (show sim.length ≤ k by omega),
        List.getElem?_eq_none (show sim1.length ≤ k by omega),
        List.getElem?_eq_none (show nb.length ≤ k by omega),
        List.getElem?_eq_none (show nb1.length ≤ k by omega)]
      simp

theorem parallelSwap_congr {β : Type} (lo hi : Nat) (sim sim1 : List ℚ) (nb nb1 : List β)
    (i j : Nat) (h : sim.length = nb.length) (h1 : sim1.length = nb1.length)
    (hi1 : i < sim.length) (hj1 : j < sim.length) (hi2 : i < sim1.length)
    (hj2 : j < sim1.length) (hilo : lo ≤ i) (hihi : i ≤ hi) (hjlo : lo ≤ j) (hjhi : j ≤ hi)
    (hag : ∀ k, lo ≤ k → k ≤ hi → (List.zip sim1 nb1)[k]? = (List.zip sim nb)[k]?) :
    ∃ s n s1 n1, parallelSwap sim nb (i : Int) (j : Int) = some (s, n) ∧
      parallelSwap sim1 nb1 (i : Int) (j : Int) = some (s1, n1) ∧
      s.length = sim.length ∧ n.length = nb.length ∧
      s1.length = sim1.length ∧ n1.length = nb1.length ∧
      ∀ k, lo ≤ k → k ≤ hi → (List.zip s1 n1)[k]? = (List.zip s n)[k]? := by
  obtain ⟨s, n, e, l1, l2, _, hget⟩ := parallelSwap_spec sim nb i j h hi1 hj1
  obtain ⟨s1, n1, e1, l3, l4, _, hget1⟩ := parallelSwap_spec sim1 nb1 i j h1 hi2 hj2
  refine ⟨s, n, s1, n1, e, e1, l1, l2, l3, l4, ?_⟩
  intro k hk1 hk2
  rw [hget k, hget1 k]
  by_cases hkj : k = j
  · simp only [hkj, if_true]; exact hag i hilo hihi
  · by_cases hki : k = i
    · subst hki
      simp only [hkj, if_true, if_false]; exact hag j hjlo hjhi
    · simp only [hkj, hki, if_false]; exact hag k hk1 hk2

theorem partitionLoop_congr {β : Type} (pivot : ℚ) (lo hi : Nat) :
    ∀ (steps : Nat) (sim sim1 : List ℚ) (nb nb1 : List β) (a b : Nat),
      sim.length = nb.length → sim1.length = nb1.length →
      hi < sim.length → hi < sim1.length → b + steps = hi → lo ≤ a → a ≤ b →
      (∀ k, lo ≤ k → k ≤ hi → (List.zip sim1 nb1)[k]? = (List.zip sim nb)[k]?) →
      ∃ s n s1 n1, ∃ a1 : Nat,
        partitionLoop pivot steps sim nb ((a : Int) - 1) (b : Int)
          = some (s, n, (a1 : Int) - 1) ∧
        partitionLoop pivot steps sim1 nb1 ((a : Int) - 1) (b : Int)
          = some (s1, n1, (a1 : Int) - 1) ∧
        lo ≤ a1 ∧ a1 ≤ hi ∧
        s.length = sim.length ∧ n.length = nb.length ∧
        s1.length = sim1.length ∧ n1.length = nb1.length ∧
        ∀ k, lo ≤ k → k ≤ hi → (List.zip s1 n1)[k]? = (List.zip s n)[k]? := by
  intro steps
  induction steps with
  | zero =>
    intro sim sim1 nb nb1 a b _ _ _ _ hb hloa hab hag
    exact ⟨sim, nb, sim1, nb1, a, rfl, rfl, hloa, by omega, rfl, rfl, rfl, rfl, hag⟩
  | succ steps ih =>
    intro sim sim1 nb nb1 a b h h1 hhi hhi1 hb hloa hab hag
    have hbs : b < sim.length := by omega
    have hbs1 : b < sim1.length := by omega
    have hkey : sim1[b] = sim[b] := by
      have e := keyAt_congr (hag b (by omega) (by omega))
      rw [keyAt_zip sim1 nb1 b h1 _ (List.getElem?_eq_getElem hbs1),
        keyAt_zip sim nb b h _ (List.getElem?_eq_getElem hbs)] at e
      exact e
    have e1 : ((a : Int) - 1 + 1) = (a : Int) := by ring
    have e2 : ((a : Int) - 1 + 1) = (((a + 1 : Nat) : Int) - 1) := by push_cast; ring
    have e3 : ((b : Int) + 1) = ((b + 1 : Nat) : Int) := by push_cast; ring
    by_cases hp : sim[b] ≥ pivot
    · obtain ⟨s, n, s1, n1, hsw, hsw1, l1, l2, l3, l4, hag1⟩ :=
        parallelSwap_congr lo hi sim sim1 nb nb1 a b h h1 (by omega) hbs (by omega) hbs1
          hloa (by omega) (by omega) (by omega) hag
      obtain ⟨t, m, t1, m1, a1, r, r1, g1, g2, g3, g4, g5, g6, g7⟩ :=
        ih s s1 n n1 (a + 1) (b + 1) (by omega) (by omega) (by omega) (by omega) (by omega)
          (by omega) (by omega) hag1
      refine ⟨t, m, t1, m1, a1, ?_, ?_, g1, g2, by omega, by omega, by omega, by omega, g7⟩
      · rw [partitionLoop]
        simp only [Int.toNat_ofNat, List.getElem?_eq_getElem hbs, Int.natCast_nonneg,
          if_true, hp, e1, hsw]
        rw [← e1, e2, e3]
        exact r
      · rw [partitionLoop]
        simp only [Int.toNat_ofNat, List.getElem?_eq_getElem hbs1, Int.natCast_nonneg,
          if_true, hkey, hp, e1, hsw1]
        rw [← e1, e2, e3]
        exact r1
    · obtain ⟨t, m, t1, m1, a1, r, r1, g1, g2, g3, g4, g5, g6, g7⟩ :=
        ih sim sim1 nb nb1 a (b + 1) h h1 hhi hhi1 (by omega) hloa (by omega) hag
      refine ⟨t, m, t1, m1, a1, ?_, ?_, g1, g2, g3, g4, g5, g6, g7⟩
      · rw [partitionLoop]
        simp only [Int.toNat_ofNat, List.getElem?_eq_getElem hbs, Int.natCast_nonneg,
          if_true, hp, if_false]
        rw [e3]
        exact r
      · rw [partitionLoop]
        simp only [Int.toNat_ofNat, List.getElem?_eq_getElem hbs1, Int.natCast_nonneg,
          if_true, hkey, hp, if_false]
        rw [e3]
        exact r1

theorem parralel_partition_congr {β : Type} (lo hi : Nat) (sim sim1 : List ℚ)
    (nb nb1 : List β) (h : sim.length = nb.length) (h1 : sim1.length = nb1.length)
    (hlohi : lo ≤ hi) (hhi : hi < sim.length) (hhi1 : hi < sim1.length)
    (hag : ∀ k, lo ≤ k → k ≤ hi → (List.zip sim1 nb1)[k]? = (List.zip sim nb)[k]?) :
    ∃ s n s1 n1, ∃ pi : Nat,
      parralel_partition sim nb (lo : Int) (hi : Int) = some (s, n, (pi : Int)) ∧
      parralel_partition sim1 nb1 (lo : Int) (hi : Int) = some (s1, n1, (pi : Int)) ∧
      s.length = sim.length ∧ n.length = nb.length ∧
      s1.length = sim1.length ∧ n1.length = nb1.length ∧
      ∀ k, lo ≤ k → k ≤ hi → (List.zip s1 n1)[k]? = (List.zip s n)[k]? := by
  have hkey : sim1[hi] = sim[hi] := by
    have e := keyAt_congr (hag hi hlohi (le_refl _))
    rw [keyAt_zip sim1 nb1 hi h1 _ (List.getElem?_eq_getElem hhi1),
      keyAt_zip sim nb hi h _ (List.getElem?_eq_getElem hhi)] at e
    exact e
  have hsteps : ((hi : Int) - (lo : Int)).toNat = hi - lo := by omega
  obtain ⟨t, m, t1, m1, a1, r, r1, g1, g2, g3, g4, g5, g6, g7⟩ :=
    partitionLoop_congr (β := β) sim[hi] lo hi (hi - lo) sim sim1 nb nb1 lo lo h h1 hhi hhi1
      (by omega) (le_refl _) (le_refl _) hag
  obtain ⟨s, n, s1, n1, hsw, hsw1, l1, l2, l3, l4, hag1⟩ :=
    parallelSwap_congr lo hi t t1 m m1 a1 hi (by omega) (by omega) (by omega) (by omega)
      (by omega) (by omega) g1 g2 hlohi (le_refl _) g7
  have e1 : ((a1 : Int) - 1 + 1) = (a1 : Int) := by ring
  refine ⟨s, n, s1, n1, a1, ?_, ?_, by omega, by omega, by omega, by omega, hag1⟩
  · unfold parralel_partition
    simp only [Int.toNat_ofNat, List.getElem?_eq_getElem hhi, Int.natCast_nonneg, if_true,
      hsteps, r, e1, hsw]
  · unfold parralel_partition
    simp only [Int.toNat_ofNat, List.getElem?_eq_getElem hhi1, Int.natCast_nonneg, if_true,
      hsteps, hkey, r1, e1, hsw1]

theorem keyAt_eq_getD {β : Type} (sim : List ℚ) (nb : List β) (k : Nat)
    (h : sim.length = nb.length) : keyAt (List.zip sim nb) k = sim.getD k 0 := by
  by_cases hk : k < sim.length
  · rw [keyAt_zip sim nb k h _ (List.getElem?_eq_getElem hk), List.getD_eq_getElem?_getD,
      List.getElem?_eq_getElem hk]
    rfl
  · have hz : (List.zip sim nb)[k]? = none := List.getElem?_eq_none (by simp; omega)
    rw [List.getD_eq_getElem?_getD, List.getElem?_eq_none (show sim.length ≤ k by omega)]
    unfold keyAt
    rw [hz]
    rfl

/-- C20: on arrays of equal length `n` and for bounds `low ≤ high < n`,
`parralel_partition` returns an index `pi` with `low ≤ pi ≤ high`; it writes only
positions of `[low, high]` (both arrays are unchanged outside) and reads only positions
of `[low, high]` (on arrays that agree with the input on `[low, high]` it returns the
same `pi` and the same contents of `[low, high]`); afterwards `sim[pi]` is the original
pivot `sim[high]`, every `sim[j]` with `low ≤ j < pi` is at least the pivot and every
`sim[j]` with `pi < j ≤ high` is below it; both recursive calls of `parallel_quickSort`
are on strictly shorter ranges; and the sort returns on every input with `0 ≤ low` and
`high < n` as soon as the fuel is at least `high - low`, the empty call `low = 0`,
`high = -1` included. -/
theorem parralel_partition_local {β : Type} (sim : List ℚ) (nb : List β)
    (hlen : sim.length = nb.length) :
    (∀ lo hi : Nat, lo ≤ hi → hi < sim.length →
      ∃ sim1 nb1, ∃ pi : Nat,
        parralel_partition sim nb (lo : Int) (hi : Int) = some (sim1, nb1, (pi : Int)) ∧
        lo ≤ pi ∧ pi ≤ hi ∧ sim1.length = sim.length ∧ nb1.length = nb.length ∧
        AgreeOff lo hi sim nb sim1 nb1 ∧
        (∀ (simA : List ℚ) (nbA : List β), simA.length = nbA.length → hi < simA.length →
          AgreeOn lo hi sim nb simA nbA →
          ∃ simB nbB, parralel_partition simA nbA (lo : Int) (hi : Int)
              = some (simB, nbB, (pi : Int)) ∧
            AgreeOn lo hi sim1 nb1 simB nbB) ∧
        sim1[pi]? = sim[hi]? ∧
        (∀ j, lo ≤ j → j < pi → sim1.getD j 0 ≥ sim.getD hi 0) ∧
        (∀ j, pi < j → j ≤ hi → sim1.getD j 0 < sim.getD hi 0) ∧
        ((pi : Int) - 1) - (lo : Int) < (hi : Int) - (lo : Int) ∧
        (hi : Int) - ((pi : Int) + 1) < (hi : Int) - (lo : Int)) ∧
    (∀ (low high : Int) (fuel : Nat), 0 ≤ low → high < (sim.length : Int) →
      (high - low).toNat ≤ fuel → ∃ r, parallel_quickSort fuel sim nb low high = some r) ∧
    parallel_quickSort 0 sim nb 0 (-1) = some (sim, nb) := by
  refine ⟨?_, ?_, rfl⟩
  · intro lo hi hlohi hhi
    obtain ⟨sim1, nb1, pi, hpart, p1, p2, p3, p4, _, p6, _, p8, p9, p10⟩ :=
      parralel_partition_spec sim nb lo hi hlen hlohi hhi
    refine ⟨sim1, nb1, pi, hpart, p1, p2, p3, p4, ?_, ?_, ?_, ?_, ?_, by omega, by omega⟩
    · intro k hk
      exact (zip_getElem?_eq_iff sim sim1 nb nb1 k hlen (by omega)).mp (p6 k hk)
    · intro simA nbA hA hhiA hag
      obtain ⟨s, n, s1, n1, q, e, e1, _, _, l3, l4, hag1⟩ :=
        parralel_partition_congr lo hi sim simA nb nbA hlen hA hlohi hhi hhiA
          (fun k hk1 hk2 => (zip_getElem?_eq_iff sim simA nb nbA k hlen hA).mpr (hag k hk1 hk2))
      rw [hpart] at e
      have e2 := Option.some.inj e
      have hs : sim1 = s := (Prod.mk.inj e2).1
      have hn : nb1 = n := (Prod.mk.inj (Prod.mk.inj e2).2).1
      have hq : (pi : Int) = (q : Int) := (Prod.mk.inj (Prod.mk.inj e2).2).2
      subst hs; subst hn
      refine ⟨s1, n1, by rw [hq]; exact e1, ?_⟩
      intro k hk1 hk2
      exact (zip_getElem?_eq_iff sim1 s1 nb1 n1 k (by omega) (by omega)).mp (hag1 k hk1 hk2)
    · have hpi : pi < sim1.length := by omega
      have e := keyAt_congr p8
      rw [keyAt_zip sim1 nb1 pi (by omega) _ (List.getElem?_eq_getElem hpi),
        keyAt_zip sim nb hi hlen _ (List.getElem?_eq_getElem hhi)] at e
      rw [List.getElem?_eq_getElem hpi, List.getElem?_eq_getElem hhi, e]
    · intro j hj1 hj2
      have := p9 j hj1 hj2
      rw [keyAt_eq_getD sim nb hi hlen, keyAt_eq_getD sim1 nb1 j (by omega)] at this
      exact this
    · intro j hj1 hj2
      have := p10 j hj1 hj2
      rw [keyAt_eq_getD sim nb hi hlen, keyAt_eq_getD sim1 nb1 j (by omega)] at this
      exact this
  · intro low high fuel h0 hhigh hfuel
    obtain ⟨s, n, hrun, _⟩ := parallel_quickSort_spec fuel sim nb low high hlen h0 hhigh hfuel
    exact ⟨(s, n), hrun⟩

theorem parralel_partition_local_witness :
    sampleSim.length = sampleNames.length ∧
    (∃ sim1 nb1, ∃ pi : Nat,
      parralel_partition sampleSim sampleNames ((0 : Nat) : Int) ((2 : Nat) : Int)
        = some (sim1, nb1, (pi : Int)) ∧
      0 ≤ pi ∧ pi ≤ 2 ∧ sim1.length = sampleSim.length ∧ nb1.length = sampleNames.length ∧
      AgreeOff 0 2 sampleSim sampleNames sim1 nb1 ∧
      (∀ (simA : List ℚ) (nbA : List String), simA.length = nbA.length → 2 < simA.length →
        AgreeOn 0 2 sampleSim sampleNames simA nbA →
        ∃ simB nbB, parralel_partition simA nbA ((0 : Nat) : Int) ((2 : Nat) : Int)
            = some (simB, nbB, (pi : Int)) ∧
          AgreeOn 0 2 sim1 nb1 simB nbB) ∧
      sim1[pi]? = sampleSim[2]? ∧
      (∀ j, 0 ≤ j → j < pi → sim1.getD j 0 ≥ sampleSim.getD 2 0) ∧
      (∀ j, pi < j → j ≤ 2 → sim1.getD j 0 < sampleSim.getD 2 0) ∧
      ((pi : Int) - 1) - ((0 : Nat) : Int) < ((2 : Nat) : Int) - ((0 : Nat) : Int) ∧
      ((2 : Nat) : Int) - ((pi : Int) + 1) < ((2 : Nat) : Int) - ((0 : Nat) : Int)) ∧
    (∃ r, parallel_quickSort 2 sampleSim sampleNames 0 2 = some r) ∧
    parallel_quickSort 0 sampleSim sampleNames 0 (-1) = some (sampleSim, sampleNames) :=
  ⟨rfl,
    (parralel_partition_local sampleSim sampleNames rfl).1 0 2 (by decide) (by decide),
    (parralel_partition_local sampleSim sampleNames rfl).2.1 0 2 2 (by decide) (by decide)
      (by decide),
    (parralel_partition_local sampleSim sampleNames rfl).2.2⟩

/-! ## Proofs: the cluster mode and the per-user mode -/

theorem digitChar_toNat (k : Nat) (hk : k < 10) : (Nat.digitChar k).toNat - 48 = k := by
  interval_cases k <;> rfl

theorem toDigitsCore_value : ∀ (fuel n : Nat) (ds : List Char), n < fuel →
    ∃ pre, Nat.toDigitsCore 10 fuel n ds = pre ++ ds ∧ digitsValue pre = n := by
  intro fuel
  induction fuel with
  | zero => intro n ds h; omega
  | succ fuel ih =>
    intro n ds h
    by_cases h0 : n / 10 = 0
    · refine ⟨[Nat.digitChar (n % 10)], ?_, ?_⟩
      · simp [Nat.toDigitsCore, h0]
      · have : n < 10 := by omega
        simp only [digitsValue, List.foldl_cons, List.foldl_nil, Nat.mul_zero, Nat.zero_add]
        rw [digitChar_toNat _ (by omega)]
        omega
    · obtain ⟨pre, hpre, hval⟩ := ih (n / 10) (Nat.digitChar (n % 10) :: ds) (by omega)
      refine ⟨pre ++ [Nat.digitChar (n % 10)], ?_, ?_⟩
      · simp [Nat.toDigitsCore, h0, hpre]
      · unfold digitsValue at hval ⊢
        rw [List.foldl_append, hval]
        simp only [List.foldl_cons, List.foldl_nil]
        rw [digitChar_toNat _ (by omega)]
        omega

theorem toString_nat_injective (a b : Nat) (h : toString a = toString b) : a = b := by
  have h1 : (Nat.toDigits 10 a).asString = (Nat.toDigits 10 b).asString := h
  have h2 : Nat.toDigits 10 a = Nat.toDigits 10 b := by
    have := congrArg String.data h1
    simpa [List.asString] using this
  obtain ⟨p1, e1, v1⟩ := toDigitsCore_value (a + 1) a [] (by omega)
  obtain ⟨p2, e2, v2⟩ := toDigitsCore_value (b + 1) b [] (by omega)
  unfold Nat.toDigits at h2
  rw [e1, e2] at h2
  simp at h2
  rw [← v1, ← v2, h2]

theorem clusterLoop_content (c0 : Nat) (score : ℚ) :
    ∀ (idxs : List Nat) (bufs : List Buffers) (b b1 : Buffers),
      bufs[c0]? = some b → idxs.foldlM (accumulate score) b = some b1 →
      idxs.foldlM (touchCluster (c0 : Int) score) bufs = some (bufs.set c0 b1) := by
  intro idxs
  induction idxs with
  | nil =>
    intro bufs b b1 hb hrun
    simp only [List.foldlM_nil, Option.pure_def, Option.some.injEq] at hrun
    subst hrun
    have hlt : c0 < bufs.length := (List.getElem?_eq_some_iff.mp hb).1
    have : bufs.set c0 b = bufs := by
      apply List.ext_getElem?
      intro k
      by_cases hk : k = c0
      · subst hk; rw [List.getElem?_set_self hlt, hb]
      · rw [List.getElem?_set_ne (Ne.symm hk)]
    rw [this]
    rfl
  | cons a rest ih =>
    intro bufs b b1 hb hrun
    have hlt : c0 < bufs.length := (List.getElem?_eq_some_iff.mp hb).1
    rw [List.foldlM_cons] at hrun
    cases hacc : accumulate score b a with
    | none => rw [hacc] at hrun; simp at hrun
    | some b2 =>
      rw [hacc] at hrun
      simp only [Option.bind_eq_bind, Option.some_bind] at hrun
      have hstep : touchCluster (c0 : Int) score bufs a = some (bufs.set c0 b2) := by
        simp only [touchCluster, clusterUpdate, Int.natCast_nonneg, if_true, Int.toNat_ofNat,
          hb, hacc, Option.map_some']
      rw [List.foldlM_cons, hstep]
      simp only [Option.bind_eq_bind, Option.some_bind]
      rw [ih (bufs.set c0 b2) b2 b1 (List.getElem?_set_self hlt) hrun, List.set_set]

theorem relabel_append (tweets : List (String × Tweet)) (vs : List CustVector)
    (vec : CustVector) :
    relabel tweets (vs ++ [vec]) = relabel tweets vs ++
      (match tweetAt tweets vec.id with
        | some t => [(vec.id, { t with userId := toString vec.cluster.toNat })]
        | none => []) := by
  unfold relabel
  rw [List.filterMap_append]
  congr 1
  cases h : tweetAt tweets vec.id <;> simp [List.filterMap_cons, h]

theorem addVector_inv (n user_num : Nat) (tweets : List (String × Tweet))
    (hr : IndexesInRange n tweets) (vs : List CustVector) (vec : CustVector)
    (bufs : List Buffers) (hinv : ClusterInv n user_num (relabel tweets vs) bufs)
    (hc : 0 ≤ vec.cluster ∧ vec.cluster < (user_num : Int)) :
    ∃ bufs1, addVector tweets bufs vec = some bufs1 ∧
      ClusterInv n user_num (relabel tweets (vs ++ [vec])) bufs1 := by
  rw [relabel_append]
  unfold addVector
  cases ht : tweetAt tweets vec.id with
  | none =>
    refine ⟨bufs, rfl, ?_⟩
    simpa using hinv
  | some t =>
    obtain ⟨c0, hc0⟩ := Int.eq_ofNat_of_zero_le hc.1
    have hc0lt : c0 < user_num := by omega
    have htn : vec.cluster.toNat = c0 := by omega
    have hb := hinv.2 c0 hc0lt
    have hidx : ∀ i ∈ t.cryptoIndexes, i < n :=
      hr (vec.id, t) (tweetAt_mem vec.id t tweets ht)
    have hacc := accLoop_spec t.sentimentScore n t.cryptoIndexes
      (expectedBuf n (relabel tweets vs) (toString c0)) (by simp [expectedBuf])
      (by simp [expectedBuf]) hidx
    have hsame := expectedBuf_step_same n (relabel tweets vs)
      (vec.id, { t with userId := toString c0 })
    simp only [] at hsame
    rw [hsame] at hacc
    have hrun := clusterLoop_content c0 t.sentimentScore t.cryptoIndexes bufs _ _ hb hacc
    refine ⟨_, by simp only []; rw [hc0]; exact hrun, ?_⟩
    simp only [htn]
    constructor
    · rw [List.length_set]; exact hinv.1
    · intro c hcl
      by_cases hcc : c = c0
      · subst hcc
        rw [List.getElem?_set_self (by rw [hinv.1]; exact hcl)]
      · rw [List.getElem?_set_ne (Ne.symm hcc), hinv.2 c hcl,
          expectedBuf_step_other n (relabel tweets vs)
            (vec.id, { t with userId := toString c0 }) (toString c)
            (fun h => hcc (toString_nat_injective c c0 h))]

theorem vectorsLoop_inv (n user_num : Nat) (tweets : List (String × Tweet))
    (hr : IndexesInRange n tweets) :
    ∀ (vectors vs0 : List CustVector) (bufs : List Buffers),
      ClusterInv n user_num (relabel tweets vs0) bufs → ClustersInRange user_num vectors →
      ∃ bufs1, vectors.foldlM (addVector tweets) bufs = some bufs1 ∧
        ClusterInv n user_num (relabel tweets (vs0 ++ vectors)) bufs1 := by
  intro vectors
  induction vectors with
  | nil =>
    intro vs0 bufs hinv _
    exact ⟨bufs, rfl, by simpa using hinv⟩
  | cons vec rest ih =>
    intro vs0 bufs hinv hcl
    obtain ⟨bufs1, h1, h2⟩ := addVector_inv n user_num tweets hr vs0 vec bufs hinv
      (hcl vec (List.mem_cons_self _ _))
    obtain ⟨bufs2, g1, g2⟩ := ih (vs0 ++ [vec]) bufs1 h2
      (fun w hw => hcl w (List.mem_cons_of_mem _ hw))
    refine ⟨bufs2, ?_, by simpa using g2⟩
    rw [List.foldlM_cons, h1]
    exact g1

theorem clusters_out_content (n user_num : Nat) (tweets : List (String × Tweet))
    (vectors : List CustVector) (hr : IndexesInRange n tweets)
    (hcl : ClustersInRange user_num vectors) :
    clusters_to_user_vectors tweets vectors n user_num
      = some ((List.range user_num).filterMap (fun i =>
          (buildVector (toString i)
            (expectedBuf n (relabel tweets vectors) (toString i))).join)) := by
  have hinit : ClusterInv n user_num (relabel tweets [])
      (List.replicate user_num (List.replicate n (0 : ℚ), List.replicate n (0 : Nat))) := by
    refine ⟨by simp, ?_⟩
    intro c hc
    rw [List.getElem?_replicate, if_pos hc,
      expectedBuf_new n (relabel tweets []) (toString c)
        (by rintro ⟨t, ht, _⟩; simp [relabel] at ht)]
  obtain ⟨bufs, h1, h2, h3⟩ := vectorsLoop_inv n user_num tweets hr vectors [] _ hinit hcl
  rw [List.nil_append] at h3
  unfold clusters_to_user_vectors
  simp only [h1, Option.bind_eq_bind, Option.some_bind, h2]
  rw [collectClusters_eq bufs (List.range user_num) []]
  · rw [List.nil_append]
    congr 1
    apply List.filterMap_congr
    intro i hi
    rw [h3 i (List.mem_range.mp hi)]
    rfl
  · intro i hi
    refine ⟨_, h3 i (List.mem_range.mp hi), ?_⟩
    exact (buildVector_total (toString i) _ n (by simp [expectedBuf])
      (by simp [expectedBuf])).1

theorem relabel_mem (tweets : List (String × Tweet)) (vectors : List CustVector)
    (x : String × Tweet) (hx : x ∈ relabel tweets vectors) :
    ∃ vec ∈ vectors, ∃ t, tweetAt tweets vec.id = some t ∧
      x = (vec.id, { t with userId := toString vec.cluster.toNat }) := by
  unfold relabel at hx
  rw [List.mem_filterMap] at hx
  obtain ⟨vec, hvec, hm⟩ := hx
  cases ht : tweetAt tweets vec.id with
  | none => rw [ht] at hm; simp at hm
  | some t =>
    rw [ht] at hm
    simp only [Option.some.injEq] at hm
    exact ⟨vec, hvec, t, ht, hm.symm⟩

theorem relabel_inRange (n : Nat) (tweets : List (String × Tweet))
    (vectors : List CustVector) (hr : IndexesInRange n tweets) :
    IndexesInRange n (relabel tweets vectors) := by
  intro x hx i hi
  obtain ⟨vec, _, t, ht, rfl⟩ := relabel_mem tweets vectors x hx
  exact hr (vec.id, t) (tweetAt_mem vec.id t tweets ht) i hi

theorem relabel_keys_nodup (tweets : List (String × Tweet)) (vectors : List CustVector)
    (hids : (vectors.map CustVector.id).Nodup) :
    ((relabel tweets vectors).map Prod.fst).Nodup := by
  refine List.Nodup.sublist (filterMap_map_sublist _ Prod.fst CustVector.id ?_ vectors) hids
  intro vec x hx
  cases ht : tweetAt tweets vec.id with
  | none => rw [ht] at hx; simp at hx
  | some t =>
    rw [ht] at hx
    simp only [Option.some.injEq] at hx
    rw [← hx]

theorem built_vector_positive (n : Nat) (tweets : List (String × Tweet)) (u : String)
    (v : CustVector) (hb : buildVector u (expectedBuf n tweets u) = some (some v)) :
    PositiveVector v := by
  have hl1 : (expectedBuf n tweets u).1.length = n := by simp [expectedBuf]
  have hl2 : (expectedBuf n tweets u).2.length = n := by simp [expectedBuf]
  obtain ⟨_, hunk, hdims, i0, hi0, hne⟩ := built_vector_facts n tweets u v hb
  obtain ⟨hlen, hunkR, himp⟩ := buildVector_wf u _ n v hl1 hl2 hb
  have hmean := buildVector_mean u _ n v hl1 hl2 hb
  obtain ⟨t, ht, h1, _, h3⟩ := (scoreSum_ne_zero_iff tweets u i0).mp hne
  have hknown0 : i0 ∉ v.unknownIndexes := fun h => (hunk i0 hi0).mp h ⟨t, ht, h1, h3⟩
  have hmem0 : i0 ∈ knownIndexes v := by
    unfold knownIndexes
    rw [List.mem_filter, List.mem_range, hlen]
    exact ⟨hi0, by simpa using hknown0⟩
  have hval : ∀ i ∈ knownIndexes v, v.dimensions.getD i 0 = scoreSum tweets u i := by
    intro i hi
    unfold knownIndexes at hi
    rw [List.mem_filter, List.mem_range, hlen] at hi
    have hk : i ∉ v.unknownIndexes := by simpa using hi.2
    rw [List.getD_eq_getElem?_getD, hdims i hi.1 hk]
    rfl
  have hpos0 : 0 < scoreSum tweets u i0 :=
    lt_of_le_of_ne (scoreSum_nonneg tweets u i0) (Ne.symm hne)
  have hsum : 0 < ((knownIndexes v).map (fun i => v.dimensions.getD i 0)).sum := by
    refine lt_of_lt_of_le hpos0 ?_
    rw [← hval i0 hmem0]
    apply List.single_le_sum
    · intro x hx
      obtain ⟨i, hi, rfl⟩ := List.mem_map.mp hx
      rw [hval i hi]
      exact scoreSum_nonneg tweets u i
    · exact List.mem_map.mpr ⟨i0, hmem0, rfl⟩
  have hcount : (0 : ℚ) < ((knownIndexes v).length : ℚ) :=
    Nat.cast_pos.mpr (List.length_pos_of_mem hmem0)
  have hmpos : 0 < v.knownMean := by
    rw [hmean]
    exact div_pos hsum hcount
  refine ⟨List.ne_nil_of_mem hmem0, hmpos, ?_, ?_⟩
  · intro x hx
    obtain ⟨j, hj⟩ := List.mem_iff_getElem?.mp hx
    have hjn : j < n := by
      rw [← hlen]
      exact (List.getElem?_eq_some_iff.mp hj).1
    by_cases hju : j ∈ v.unknownIndexes
    · rw [himp j hju] at hj
      rw [← Option.some.inj hj]
      exact le_of_lt hmpos
    · rw [hdims j hjn hju] at hj
      rw [← Option.some.inj hj]
      exact scoreSum_nonneg tweets u j
  · intro i hi
    exact ⟨v.knownMean, himp i hi, hmpos⟩

/-- C18: for signals with catalog indexes in `[0, n)` and input vectors with pairwise
distinct ids and cluster assignments in `[0, user_num)`, the signals looked up by the
ids of the input vectors, each with its subject replaced by the decimal string of the
cluster index of its vector, form a signal collection with distinct keys; both builders
return; and the set of `(id, dimensions, unknownIndexes, knownMean)` produced by
`clusters_to_user_vectors` equals the set produced by `tweets_to_user_vectors` on that
collection. -/
theorem clusters_agree_with_users (n user_num : Nat) (tweets : List (String × Tweet))
    (vectors : List CustVector) (hr : IndexesInRange n tweets)
    (hcl : ClustersInRange user_num vectors)
    (hids : (vectors.map CustVector.id).Nodup) :
    ((relabel tweets vectors).map Prod.fst).Nodup ∧
    ∃ outC outT, clusters_to_user_vectors tweets vectors n user_num = some outC ∧
      tweets_to_user_vectors (relabel tweets vectors) n = some outT ∧
      ∀ q, q ∈ outC.map vectorData ↔ q ∈ outT.map vectorData := by
  refine ⟨relabel_keys_nodup tweets vectors hids, ?_⟩
  obtain ⟨outT, hT, _, hmem⟩ :=
    tweets_out_spec n (relabel tweets vectors) (relabel_inRange n tweets vectors hr)
  have hC := clusters_out_content n user_num tweets vectors hr hcl
  have hiff : ∀ v, v ∈ (List.range user_num).filterMap (fun i =>
      (buildVector (toString i)
        (expectedBuf n (relabel tweets vectors) (toString i))).join) ↔ v ∈ outT := by
    intro v
    rw [hmem v, List.mem_filterMap]
    constructor
    · rintro ⟨i, _, hv⟩
      rw [Option.join_eq_some] at hv
      obtain ⟨_, _, _, j, _, hne⟩ :=
        built_vector_facts n (relabel tweets vectors) (toString i) v hv
      obtain ⟨t, ht, h1, _, _⟩ :=
        (scoreSum_ne_zero_iff (relabel tweets vectors) (toString i) j).mp hne
      exact ⟨toString i, ⟨t, ht, h1⟩, hv⟩
    · rintro ⟨u, ⟨x, hx, hxu⟩, hv⟩
      obtain ⟨vec, hvec, t, _, rfl⟩ := relabel_mem tweets vectors x hx
      have hc := hcl vec hvec
      refine ⟨vec.cluster.toNat, List.mem_range.mpr (by omega), ?_⟩
      rw [Option.join_eq_some]
      have hu : toString vec.cluster.toNat = u := hxu
      rw [hu]
      exact hv
  refine ⟨_, outT, hC, hT, ?_⟩
  intro q
  simp only [List.mem_map]
  constructor
  · rintro ⟨v, hv, rfl⟩
    exact ⟨v, (hiff v).mp hv, rfl⟩
  · rintro ⟨v, hv, rfl⟩
    exact ⟨v, (hiff v).mpr hv, rfl⟩

theorem clusters_agree_with_users_witness :
    IndexesInRange 3 aliceTweets ∧ ClustersInRange 2 aliceVectors ∧
    (aliceVectors.map CustVector.id).Nodup ∧
    ((relabel aliceTweets aliceVectors).map Prod.fst).Nodup ∧
    ∃ outC outT, clusters_to_user_vectors aliceTweets aliceVectors 3 2 = some outC ∧
      tweets_to_user_vectors (relabel aliceTweets aliceVectors) 3 = some outT ∧
      ∀ q, q ∈ outC.map vectorData ↔ q ∈ outT.map vectorData :=
  ⟨by simp [IndexesInRange, aliceTweets], by simp [ClustersInRange, aliceVectors],
    by simp [aliceVectors],
    clusters_agree_with_users 3 2 aliceTweets aliceVectors
      (by simp [IndexesInRange, aliceTweets]) (by simp [ClustersInRange, aliceVectors])
      (by simp [aliceVectors])⟩

/-- C19: for signals with catalog indexes in `[0, n)` (and, in cluster mode, input
vectors assigned to clusters in `[0, user_num)`), both builders return and every vector
they emit has at least one known index, so the mean is not a division by zero, a
strictly positive known mean and non-negative dimensions only; hence every entry at an
unknown index is strictly positive. -/
theorem user_vectors_positive (n user_num : Nat) (tweets : List (String × Tweet))
    (vectors : List CustVector) (hr : IndexesInRange n tweets)
    (hcl : ClustersInRange user_num vectors) :
    (∃ out, tweets_to_user_vectors tweets n = some out ∧ ∀ v ∈ out, PositiveVector v) ∧
    (∃ out, clusters_to_user_vectors tweets vectors n user_num = some out ∧
      ∀ v ∈ out, PositiveVector v) := by
  constructor
  · obtain ⟨out, hout, _, hmem⟩ := tweets_out_spec n tweets hr
    refine ⟨out, hout, ?_⟩
    intro v hv
    obtain ⟨u, _, hb⟩ := (hmem v).mp hv
    exact built_vector_positive n tweets u v hb
  · refine ⟨_, clusters_out_content n user_num tweets vectors hr hcl, ?_⟩
    intro v hv
    rw [List.mem_filterMap] at hv
    obtain ⟨i, _, hiv⟩ := hv
    rw [Option.join_eq_some] at hiv
    exact built_vector_positive n (relabel tweets vectors) (toString i) v hiv

theorem user_vectors_positive_witness :
    IndexesInRange 3 aliceTweets ∧ ClustersInRange 2 aliceVectors ∧
    (∃ out, tweets_to_user_vectors aliceTweets 3 = some out ∧
      ∀ v ∈ out, PositiveVector v) ∧
    (∃ out, clusters_to_user_vectors aliceTweets aliceVectors 3 2 = some out ∧
      ∀ v ∈ out, PositiveVector v) :=
  ⟨by simp [IndexesInRange, aliceTweets], by simp [ClustersInRange, aliceVectors],
    user_vectors_positive 3 2 aliceTweets aliceVectors
      (by simp [IndexesInRange, aliceTweets]) (by simp [ClustersInRange, aliceVectors])⟩

end CryptoRec
